import Mathlib

/-!
# Verification of the okra expression/DSL engine (`core/dsl.go`)

A shallow embedding of the okra engine: dynamic values, the coercion
functions (`toInt64`, `toFloat`, `toBool`), the arithmetic/comparison/bitwise
evaluators, member/index resolution, AST evaluation, the function registry,
the lexer and the precedence-climbing parser, and each AST node's canonical
string form.  Theorems at the end settle the specification claims.

Modelling conventions, stated once:

* Go `any` values, as the engine consumes them, are modelled by the inductive
  type `Value`: nil, bool, 64-bit signed integer (all signed/unsigned integer
  kinds conflated, as `toInt64` widens them all), float64 (modelled as an
  exact rational `Rat`; IEEE-754 rounding is not modelled), string, slice,
  map (with its key kind recorded), pointer, and plain record (struct fields,
  including tag aliases, flattened into a field table by the host).
* Host *methods* are reached only through Go reflection
  (`callReflectMethod`); they live outside the engine.  Evaluation is
  therefore parameterised by an oracle of type `ReflectOracle` standing for
  `callReflectMethod`: it returns either the call's result or the error that
  `callReflectMethod` would return (not-found, arity mismatch, conversion
  failure, a recovered panic, or the method's own error).
* Token source offsets are not modelled; they feed only the position numbers
  inside some syntax-error messages, which no claim inspects.
-/

namespace Okra

/-- An exact rational, as an unreduced numerator/denominator pair: the
model of a `float64` value.  Every pair the engine builds has a positive
denominator; pairs are not kept reduced, so two pairs denote the same
float value when they cross-multiply equal, which is what `fracEq` tests
and what every float comparison in the model uses.  (IEEE-754 rounding is
not modelled: float arithmetic is exact here.) -/
structure Frac where
  num : Int
  den : Nat
deriving DecidableEq, Repr

/-- Embed an integer as a float. -/
def Frac.ofInt (n : Int) : Frac :=
  ⟨n, 1⟩

instance : OfNat Frac n := ⟨⟨(n : Int), 1⟩⟩

/-- Value equality of floats (cross multiplication). -/
def fracEq (a b : Frac) : Bool :=
  a.num * b.den = b.num * a.den

/-- Strict order on floats (cross multiplication; denominators are
positive for every value the engine builds). -/
def fracLt (a b : Frac) : Bool :=
  a.num * b.den < b.num * a.den

/-- Non-strict order on floats. -/
def fracLe (a b : Frac) : Bool :=
  a.num * b.den ≤ b.num * a.den

/-- Float addition. -/
def fracAdd (a b : Frac) : Frac :=
  ⟨a.num * b.den + b.num * a.den, a.den * b.den⟩

/-- Float subtraction. -/
def fracSub (a b : Frac) : Frac :=
  ⟨a.num * b.den - b.num * a.den, a.den * b.den⟩

/-- Float multiplication. -/
def fracMul (a b : Frac) : Frac :=
  ⟨a.num * b.num, a.den * b.den⟩

/-- Float division (every call site first rejects a zero divisor). -/
def fracDiv (a b : Frac) : Frac :=
  if b.num < 0 then ⟨-(a.num * b.den), a.den * b.num.natAbs⟩
  else ⟨a.num * b.den, a.den * b.num.natAbs⟩

/-- Float negation. -/
def fracNeg (a : Frac) : Frac :=
  ⟨-a.num, a.den⟩

/-- Whether a float is (value-)zero. -/
def fracIsZero (a : Frac) : Bool :=
  a.num = 0

/-- Kind of a Go map's declared key type, as far as the engine
distinguishes them: `reflect.String` keys versus the signed/unsigned
integer key kinds (conflated, matching the single integer kind of the
value model). -/
inductive KKind where
  | kString
  | kInt
deriving DecidableEq, Repr

/-- Model of the Go `any` values flowing through the engine.
`vptr none` is a typed nil pointer (which is *not* the untyped `nil`
interface value `vnil`), `vptr (some v)` a pointer to `v`.  `vrec` is a
struct whose exported fields and tag aliases have been flattened to a
field table (host methods are outside the value model and are reached via
the `ReflectOracle`). -/
inductive Value where
  | vnil
  | vbool (b : Bool)
  | vint (n : Int)
  | vfloat (q : Frac)
  | vstr (s : String)
  | vlist (xs : List Value)
  | vmap (kk : KKind) (entries : List (Value × Value))
  | vptr (p : Option Value)
  | vrec (fields : List (String × Value))

/-- The double-quote character. -/
def cQuoteD : Char := Char.ofNat 34

/-- The single-quote character. -/
def cQuoteS : Char := Char.ofNat 39

/-- The backslash character. -/
def cBackslash : Char := Char.ofNat 92

/-- Two to the sixty-fourth, the modulus of Go's `int64` arithmetic. -/
def two64 : Int := 18446744073709551616

/-- Two to the sixty-third. -/
def two63 : Int := 9223372036854775808

/-- Wrap an integer into the `int64` range, modelling Go's two's-complement
overflow on `+`, `-`, `*` and negation. -/
def wrap64 (n : Int) : Int :=
  (n + two63) % two64 - two63

/-- The unsigned 64-bit representation of an `int64` value. -/
def toU64 (n : Int) : Nat :=
  (n % two64).toNat

/-- Read an unsigned 64-bit representation back as an `int64` value. -/
def ofU64 (n : Nat) : Int :=
  if (n : Int) < two63 then (n : Int) else (n : Int) - two64

/-- `toInt64` from `dsl.go`: succeeds exactly on values of an integer kind
(the model's single integer constructor), widened to 64-bit signed. -/
def toInt64 : Value → Option Int
  | .vint n => some n
  | _ => none

/-- Decimal digit test on a character (ASCII `0`–`9`). -/
def isDigitC (c : Char) : Bool :=
  48 ≤ c.toNat && c.toNat ≤ 57

/-- Numeric value of an ASCII decimal digit. -/
def digitVal (c : Char) : Nat :=
  c.toNat - 48

/-- Accumulate a digit list into a natural number, most significant first. -/
def digitsToNat (ds : List Char) : Nat :=
  ds.foldl (fun acc c => 10 * acc + digitVal c) 0

/-- Largest finite float64 (`(2^53 − 1) · 2^971`, written out as a literal
so that it evaluates without unary-exponentiation recursion), as an exact
rational; used for the `strconv.ParseFloat` range check. -/
def maxFloat64 : Frac :=
  ⟨179769313486231570814527423731704356798070567525844996598917476803157260780028538760589558632766878171540458953514382464234321326889464182768467546703537516986049910576551282076245490090389328944075868508455133942304583236903222948165808559332123348274797826204144723168738177180919299881250404026184124858368, 1⟩

/-- Modelled from the spec: `strconv.ParseFloat(s, 64)` for ordinary decimal
notation — "a string that fully parses as a float" (§4.4).  Accepts an
optional sign, digits with at most one decimal point (at least one digit in
total), and an optional decimal exponent; a value beyond the finite float64
range is a range error, hence `none`.  The special forms `Inf`/`NaN`, hex
floats and digit-separating underscores are not modelled, and the result is
the exact rational rather than the nearest float64. -/
def goParseFloat (s : String) : Option Frac :=
  let cs := s.toList
  let signed : Bool × List Char :=
    match cs with
    | c :: rest =>
        if c = '-' then (true, rest)
        else if c = '+' then (false, rest)
        else (false, cs)
    | [] => (false, [])
  let neg := signed.1
  let cs1 := signed.2
  let ip := cs1.takeWhile isDigitC
  let cs2 := cs1.dropWhile isDigitC
  let fracState : List Char × List Char :=
    match cs2 with
    | c :: rest => if c = '.' then (rest.takeWhile isDigitC, rest.dropWhile isDigitC) else ([], cs2)
    | [] => ([], [])
  let fp := fracState.1
  let cs3 := fracState.2
  if ip.length + fp.length = 0 then none
  else
    let mant : Frac := ⟨(digitsToNat (ip ++ fp) : Int), 10 ^ fp.length⟩
    let expRes : Option Frac :=
      match cs3 with
      | [] => some mant
      | c :: rest =>
          if c = 'e' ∨ c = 'E' then
            let esigned : Bool × List Char :=
              match rest with
              | d :: rest2 =>
                  if d = '-' then (true, rest2)
                  else if d = '+' then (false, rest2)
                  else (false, rest)
              | [] => (false, [])
            let eds := esigned.2
            if eds.length = 0 ∨ ¬ (eds.all fun c => isDigitC c) then none
            else
              let e : Nat := digitsToNat eds
              if esigned.1 then some ⟨mant.num, mant.den * 10 ^ e⟩
              else some ⟨mant.num * 10 ^ e, mant.den⟩
          else none
    match expRes with
    | none => none
    | some q =>
        if fracLt maxFloat64 q then none
        else some (if neg then fracNeg q else q)

/-- `toFloat` from `dsl.go`: integer-coercible values widen, float kinds pass
through, and a string succeeds exactly when it fully parses as a float. -/
def toFloat : Value → Option Frac
  | .vint n => some (Frac.ofInt n)
  | .vfloat q => some q
  | .vstr s => goParseFloat s
  | _ => none

/-- `toBool` from `dsl.go`: nil is false, a bool passes through, a string is
false exactly for the empty string and the literal text `false`, and
anything else is true iff it float-coerces to a non-zero value (a failed
coercion leaves the zero default, hence false). -/
def toBool (v : Value) : Bool :=
  match v with
  | .vnil => false
  | .vbool b => b
  | .vstr s => s ≠ "" && s ≠ "false"
  | _ =>
      match toFloat v with
      | some q => ! fracIsZero q
      | none => false

/-- Decimal digits of a natural number, most significant first; the fuel
argument (any value above the digit count) keeps the recursion structural. -/
def natDecDigitsAux : Nat → Nat → List Char
  | 0, _ => []
  | fuel + 1, n =>
      let d := Char.ofNat (48 + n % 10)
      if n < 10 then [d]
      else natDecDigitsAux fuel (n / 10) ++ [d]

/-- Decimal digits of a natural number, most significant first. -/
def natDecDigits (n : Nat) : List Char :=
  natDecDigitsAux (n + 1) n

/-- Decimal rendering of an integer, the `fmt.Sprint` form of an `int64`. -/
def intToDecimal (n : Int) : String :=
  if n < 0 then "-" ++ String.mk (natDecDigits (-n).toNat)
  else String.mk (natDecDigits n.toNat)

/-- Divide out as many factors of `p` from `n` as possible, returning the
count and the remainder; the fuel argument (any value at or above `n`)
keeps the recursion structural. -/
def stripFac : Nat → Nat → Nat → Nat × Nat
  | 0, _, n => (0, n)
  | fuel + 1, p, n =>
      if n % p = 0 ∧ n ≠ 0 ∧ 2 ≤ p then
        let r := stripFac fuel p (n / p)
        (r.1 + 1, r.2)
      else (0, n)

/-- The least `k` with `den ∣ 10^k`, if any: a rational has a finite
decimal expansion exactly when its reduced denominator divides a power of
ten, that is, when it is `2^a * 5^b`, and the least such `k` is
`max a b`. -/
def pow10Exp (den : Nat) : Option Nat :=
  let r2 := stripFac den 2 den
  let r5 := stripFac r2.2 5 r2.2
  if r5.2 = 1 then some (max r2.1 r5.1) else none

/-- Drop trailing `0` characters from a digit list. -/
def trimZeroTail (ds : List Char) : List Char :=
  (ds.reverse.dropWhile fun c => c = '0').reverse

/-- Left-pad a digit list with `0` characters to a given width. -/
def padZeroes (w : Nat) (ds : List Char) : List Char :=
  List.replicate (w - ds.length) '0' ++ ds

/-- Modelled from the spec: the `fmt.Sprint` rendering of a float64 (the
"default textual form" of §4.4).  The model renders the exact rational with
its finite decimal expansion when one exists, an integral value printing
without a decimal point exactly as `%v` does; `%v`'s switch to exponent
notation for very large or small magnitudes, and values with no finite
decimal expansion (unreachable from float64's dyadic values), are
approximated. -/
def sprintFloat (q : Frac) : String :=
  let g := Nat.gcd q.num.natAbs q.den
  let n := q.num.natAbs / g
  let d := q.den / g
  let sign := if q.num < 0 then "-" else ""
  match pow10Exp d with
  | some k =>
      let scaled : Nat := n * (10 ^ k / d)
      let ipart := scaled / 10 ^ k
      let fdigits := trimZeroTail (padZeroes k (natDecDigits (scaled % 10 ^ k)))
      if scaled % 10 ^ k = 0 then sign ++ String.mk (natDecDigits ipart)
      else sign ++ String.mk (natDecDigits ipart) ++ "." ++ String.mk fdigits
  | none => sign ++ String.mk (natDecDigits n) ++ "/" ++ String.mk (natDecDigits d)

mutual

/-- Modelled from the spec: `fmt.Sprint`, the "default textual form" a value
takes in string concatenation (§4.4).  Pointer addresses cannot be modelled,
so a pointer renders as `&` followed by its pointee as `%v` does for
structs; map entries keep the model's entry order rather than `fmt`'s sorted
key order. -/
def sprintValue : Value → String
  | .vnil => "<nil>"
  | .vbool b => if b then "true" else "false"
  | .vint n => intToDecimal n
  | .vfloat q => sprintFloat q
  | .vstr s => s
  | .vlist xs => "[" ++ sprintSeq xs ++ "]"
  | .vmap _ es => "map[" ++ sprintEntries es ++ "]"
  | .vptr none => "<nil>"
  | .vptr (some v) => "&" ++ sprintValue v
  | .vrec fs => "\x7b" ++ sprintFields fs ++ "\x7d"
termination_by structural v => v

/-- Space-separated rendering of a sequence's elements. -/
def sprintSeq : List Value → String
  | [] => ""
  | [v] => sprintValue v
  | v :: w :: rest => sprintValue v ++ " " ++ sprintSeq (w :: rest)
termination_by structural l => l

/-- Space-separated rendering of a map's `key:value` entries. -/
def sprintEntries : List (Value × Value) → String
  | [] => ""
  | [(k, v)] => sprintValue k ++ ":" ++ sprintValue v
  | (k, v) :: f :: rest => sprintValue k ++ ":" ++ sprintValue v ++ " " ++ sprintEntries (f :: rest)
termination_by structural l => l

/-- Space-separated rendering of a struct's field values. -/
def sprintFields : List (String × Value) → String
  | [] => ""
  | [(_, v)] => sprintValue v
  | (_, v) :: g :: rest => sprintValue v ++ " " ++ sprintFields (g :: rest)
termination_by structural l => l

end

mutual

/-- `reflect.DeepEqual`, as the equality operators use it: values of
different kinds are unequal, scalars compare by value, and composites
compare structurally (map comparison is entry-order-sensitive in the model,
where `DeepEqual` is order-insensitive; no claim compares maps). -/
def deepEqual : Value → Value → Bool
  | .vnil, .vnil => true
  | .vbool a, .vbool b => a = b
  | .vint a, .vint b => a = b
  | .vfloat a, .vfloat b => fracEq a b
  | .vstr a, .vstr b => a = b
  | .vlist xs, .vlist ys => deepEqualList xs ys
  | .vmap k1 es, .vmap k2 fs => k1 = k2 && deepEqualEntries es fs
  | .vptr none, .vptr none => true
  | .vptr (some a), .vptr (some b) => deepEqual a b
  | .vrec fs, .vrec gs => deepEqualFields fs gs
  | _, _ => false
termination_by structural a _ => a

/-- Elementwise `deepEqual` on sequences. -/
def deepEqualList : List Value → List Value → Bool
  | [], [] => true
  | a :: as_, b :: bs => deepEqual a b && deepEqualList as_ bs
  | _, _ => false
termination_by structural a _ => a

/-- Entrywise `deepEqual` on map entry lists. -/
def deepEqualEntries : List (Value × Value) → List (Value × Value) → Bool
  | [], [] => true
  | (k1, v1) :: es, (k2, v2) :: fs =>
      deepEqual k1 k2 && deepEqual v1 v2 && deepEqualEntries es fs
  | _, _ => false
termination_by structural a _ => a

/-- Fieldwise `deepEqual` on struct field lists. -/
def deepEqualFields : List (String × Value) → List (String × Value) → Bool
  | [], [] => true
  | (k1, v1) :: fs, (k2, v2) :: gs =>
      (k1 = k2 : Bool) && deepEqual v1 v2 && deepEqualFields fs gs
  | _, _ => false
termination_by structural a _ => a

end

/-- Go `==` on map keys (the engine only ever builds scalar keys). -/
def keyEq : Value → Value → Bool
  | .vnil, .vnil => true
  | .vbool a, .vbool b => a = b
  | .vint a, .vint b => a = b
  | .vfloat a, .vfloat b => fracEq a b
  | .vstr a, .vstr b => a = b
  | _, _ => false

/-- `reflect.Value.MapIndex`: the value stored under a key, if present. -/
def mapLookupV (es : List (Value × Value)) (k : Value) : Option Value :=
  match es.find? fun e => keyEq e.1 k with
  | some e => some e.2
  | none => none

/-- Field lookup in a flattened struct field table. -/
def fieldLookup (fs : List (String × Value)) (k : String) : Option Value :=
  match fs.find? fun f => f.1 == k with
  | some f => some f.2
  | none => none

/-- The `for rv.Kind() == reflect.Ptr` dereferencing loop: `none` when the
chain ends in a nil pointer. -/
def derefChain : Value → Option Value
  | .vptr none => none
  | .vptr (some v) => derefChain v
  | v => some v

/-- Modelled from the spec: `strconv.ParseInt(s, 10, 64)`.  Returns the
parsed value together with a success flag; on range overflow the flag is
false and the value is the clamped maximum-magnitude `int64`, matching
`ParseInt`'s documented `ErrRange` behaviour (the parser reads the clamped
value while discarding the error). -/
def goParseInt (s : String) : Int × Bool :=
  let cs := s.toList
  let signed : Bool × List Char :=
    match cs with
    | c :: rest =>
        if c = '-' then (true, rest)
        else if c = '+' then (false, rest)
        else (false, cs)
    | [] => (false, [])
  let ds := signed.2
  if ds.length = 0 ∨ ¬ (ds.all fun c => isDigitC c) then (0, false)
  else
    let n : Nat := digitsToNat ds
    if signed.1 then
      if (n : Int) > two63 then (-two63, false) else (-(n : Int), true)
    else
      if (n : Int) > two63 - 1 then (two63 - 1, false) else ((n : Int), true)

/-- `strconv.ParseInt`/`strconv.Atoi` at the call sites that check the
error: `none` on a malformed or out-of-range string. -/
def parseInt64 (s : String) : Option Int :=
  let r := goParseInt s
  if r.2 then some r.1 else none

/-- Truncation of a rational toward zero, Go's float64→int64 conversion. -/
def fracTrunc (q : Frac) : Int :=
  Int.tdiv q.num q.den

/-- Go's integer→string conversion (the rune with that code point, or the
replacement character for an invalid code point), which `reflect`'s
`ConvertibleTo` admits for string-keyed maps. -/
def runeString (n : Int) : String :=
  if _h : 0 ≤ n ∧ (n < 55296 ∨ (57344 ≤ n ∧ n < 1114112)) then
    String.mk [Char.ofNat n.toNat]
  else
    "�"

/-- `reflect.Zero` of a map's key type. -/
def zeroOfKey : KKind → Value
  | .kString => .vstr ""
  | .kInt => .vint 0

/-- The map-key coercion of `IndexExpr.Eval` (§4.5's "richer" index-key
rules): nil becomes the key kind's zero value, assignable or convertible
values convert (float truncates to integer kinds; an integer converts to a
string as a rune), a string parses as an integer for integer key kinds, and
anything else is `none` (resolving to nil, never an error).  Unsigned key
kinds are conflated with signed ones, so their `ParseUint` leg is the
signed parse. -/
def mapKeyOfIndex (kk : KKind) (idx : Value) : Option Value :=
  match idx with
  | .vnil => some (zeroOfKey kk)
  | .vstr s =>
      match kk with
      | .kString => some (.vstr s)
      | .kInt => (parseInt64 s).map fun i => .vint i
  | .vint n =>
      match kk with
      | .kInt => some (.vint n)
      | .kString => some (.vstr (runeString n))
  | .vfloat q =>
      match kk with
      | .kInt => some (.vint (wrap64 (fracTrunc q)))
      | .kString => none
  | _ => none

/-- The kind switch of `IndexExpr.Eval` after pointer dereferencing:
sequences index by an integer-coercible, in-range index and otherwise
resolve to nil; maps resolve their key by `mapKeyOfIndex` and a missing key
resolves to nil; every other receiver kind resolves to nil. -/
def indexResolve (w : Value) (idx : Value) : Value :=
  match w with
  | .vlist xs =>
      match toInt64 idx with
      | none => .vnil
      | some i =>
          if i < 0 ∨ (xs.length : Int) ≤ i then .vnil
          else xs.getD i.toNat .vnil
  | .vmap kk es =>
      match mapKeyOfIndex kk idx with
      | none => .vnil
      | some k => (mapLookupV es k).getD .vnil
  | _ => .vnil

/-- `getMember` from `dsl.go`: nil resolves to nil; a pointer chain ending
in nil resolves to nil; a map looks its key up directly for string key
kinds or via integer parsing for integer key kinds; a sequence indexes by
`Atoi` when in range; a struct looks the key up in its flattened
field/alias table.  The struct branch's zero-argument getter-method sugar
reaches host methods, which live outside the value model (they are only
reachable through the `ReflectOracle`), so a `vrec` carries fields only.
Everything else resolves to nil — `getMember` never returns an error. -/
def getMember (obj : Value) (key : String) : Value :=
  match obj with
  | .vnil => .vnil
  | _ =>
      match derefChain obj with
      | none => .vnil
      | some w =>
          match w with
          | .vmap kk es =>
              match kk with
              | .kString => (mapLookupV es (.vstr key)).getD .vnil
              | .kInt =>
                  match parseInt64 key with
                  | some i => (mapLookupV es (.vint i)).getD .vnil
                  | none => .vnil
          | .vlist xs =>
              match parseInt64 key with
              | some i =>
                  if i < 0 ∨ (xs.length : Int) ≤ i then .vnil
                  else xs.getD i.toNat .vnil
              | none => .vnil
          | .vrec fs => (fieldLookup fs key).getD .vnil
          | _ => .vnil

/-- Whether `reflect.Value.Len` applies in the `len` pseudo-method's kind
check: slice, array, map or string. -/
def isSizedKind : Value → Bool
  | .vlist _ => true
  | .vmap _ _ => true
  | .vstr _ => true
  | _ => false

/-- `reflect.Value.Len`: element count for sequences, entry count for maps,
and length for strings (Go counts a string's bytes; the model counts
characters, which agree on ASCII data). -/
def lenOf : Value → Int
  | .vlist xs => xs.length
  | .vmap _ es => es.length
  | .vstr s => s.length
  | _ => 0

/-- The text `%T` produces for a value's dynamic type in the engine's error
messages (composite host types approximated, since the model keeps no
element types; no claim inspects these strings). -/
def typeName : Value → String
  | .vnil => "<nil>"
  | .vbool _ => "bool"
  | .vint _ => "int64"
  | .vfloat _ => "float64"
  | .vstr _ => "string"
  | .vlist _ => "[]any"
  | .vmap _ _ => "map"
  | .vptr _ => "*any"
  | .vrec _ => "struct"

/-- `evalBitwise` from `dsl.go`: both operands must be integer-coercible;
`& | ^` act on the two's-complement 64-bit representations, shifts reject a
negative count and otherwise shift the representation (an arithmetic shift
for `>>`, as Go performs on a signed operand). -/
def evalBitwise (lv rv : Value) (op : String) : Except String Value :=
  match toInt64 lv, toInt64 rv with
  | some li, some ri =>
      if op = "&" then .ok (.vint (ofU64 (Nat.land (toU64 li) (toU64 ri))))
      else if op = "|" then .ok (.vint (ofU64 (Nat.lor (toU64 li) (toU64 ri))))
      else if op = "^" then .ok (.vint (ofU64 (Nat.xor (toU64 li) (toU64 ri))))
      else if op = "<<" then
        if ri < 0 then .error "negative shift count"
        else .ok (.vint (ofU64 (Nat.shiftLeft (toU64 li) ri.toNat % 18446744073709551616)))
      else if op = ">>" then
        if ri < 0 then .error "negative shift count"
        else .ok (.vint (Int.fdiv li (2 ^ ri.toNat)))
      else .error ("unknown bitwise operator \"" ++ op ++ "\"")
  | _, _ =>
      .error ("invalid bitwise op " ++ op ++ " between " ++ typeName lv ++ " and " ++ typeName rv)

/-- `evalMath` from `dsl.go`.  When both operands are integer-coercible and
the operator is one of `+ - * / %`, the integer path applies, with division
and modulo by zero failing; otherwise the float path applies with each
operand's failed float-coercion silently left at the zero default, `/` by
(coerced) zero failing, and any other operator — including `%` — returning
nil with no error. -/
def evalMath (lv rv : Value) (op : Char) : Except String Value :=
  let intRes : Option (Except String Value) :=
    match toInt64 lv, toInt64 rv with
    | some li, some ri =>
        if op = '+' then some (.ok (.vint (wrap64 (li + ri))))
        else if op = '-' then some (.ok (.vint (wrap64 (li - ri))))
        else if op = '*' then some (.ok (.vint (wrap64 (li * ri))))
        else if op = '/' then
          some (if ri = 0 then .error "div by zero" else .ok (.vint (wrap64 (Int.tdiv li ri))))
        else if op = '%' then
          some (if ri = 0 then .error "div by zero" else .ok (.vint (Int.tmod li ri)))
        else none
    | _, _ => none
  match intRes with
  | some r => r
  | none =>
      let lf := (toFloat lv).getD 0
      let rf := (toFloat rv).getD 0
      if op = '+' then .ok (.vfloat (fracAdd lf rf))
      else if op = '-' then .ok (.vfloat (fracSub lf rf))
      else if op = '*' then .ok (.vfloat (fracMul lf rf))
      else if op = '/' then
        if fracIsZero rf then .error "div by zero" else .ok (.vfloat (fracDiv lf rf))
      else .ok .vnil

/-- `compare` from `dsl.go`: both operands must float-coerce, the result is
the float comparison (an unknown operator yields false with no error, as in
the source's final `return false, nil`). -/
def compareFn (lv rv : Value) (op : String) : Except String Value :=
  match toFloat lv, toFloat rv with
  | some lf, some rf =>
      if op = ">" then .ok (.vbool (fracLt rf lf))
      else if op = "<" then .ok (.vbool (fracLt lf rf))
      else if op = ">=" then .ok (.vbool (fracLe rf lf))
      else if op = "<=" then .ok (.vbool (fracLe lf rf))
      else .ok (.vbool false)
  | _, _ =>
      .error ("invalid comparison between " ++ typeName lv ++ " and " ++ typeName rv)

/-- The AST node set of `dsl.go`, one constructor per node type:
`LiteralExpr`, `VariableExpr`, `MemberAccessExpr` (with its `IsIndex`
display flag), `IndexExpr`, `MethodCallExpr`, `CallExpr`, `UnaryExpr`,
`InfixExpr` (constructor `binE`) and `TernaryExpr`. -/
inductive Expr where
  | literalE (v : Value)
  | variableE (nm : String)
  | memberE (left : Expr) (key : String) (isIdx : Bool)
  | indexE (left : Expr) (idx : Expr)
  | methodE (left : Expr) (meth : String) (args : List Expr)
  | callE (nm : String) (args : List Expr)
  | unaryE (op : String) (right : Expr)
  | binE (left : Expr) (op : String) (right : Expr)
  | ternE (cond : Expr) (thn : Expr) (els : Expr)

/-- `CustomFunc`: a registered function, from an argument list to a dynamic
value or an error. -/
def CustomFunc : Type :=
  List Value → Except String Value

/-- `Context` from `dsl.go`: the root data value and the function-registry
snapshot for one evaluation. -/
structure Context where
  data : Value
  fns : List (String × CustomFunc)

/-- The reflective method-invocation layer, `callReflectMethod` from
`dsl.go`.  Its behaviour depends on the host's method sets, which live
outside the value model, so evaluation is parameterised by it: applied to
the receiver, the method name and the evaluated arguments, it returns the
call's result or the error `callReflectMethod` would return (method not
found, argument-count mismatch, argument-conversion failure, a recovered
panic, or the method's own returned error). -/
def ReflectOracle : Type :=
  Value → String → List Value → Except String Value

/-- `strings.ToLower`, restricted to ASCII (registered and built-in names
in the claims are ASCII). -/
def toLowerGo (s : String) : String :=
  String.mk (s.toList.map fun c =>
    if 65 ≤ c.toNat ∧ c.toNat ≤ 90 then Char.ofNat (c.toNat + 32) else c)

/-- Go-map lookup on a registry snapshot (first matching key). -/
def mapLookup (m : List (String × CustomFunc)) (k : String) : Option CustomFunc :=
  match m.find? fun e => e.1 == k with
  | some e => some e.2
  | none => none

/-- Go-map insertion on a registry snapshot: the new binding shadows and
removes any previous binding of the same key, modelling `next[name] = fn`
on the copied map. -/
def mapInsert (m : List (String × CustomFunc)) (k : String) (f : CustomFunc) :
    List (String × CustomFunc) :=
  (k, f) :: m.filter fun e => e.1 ≠ k

mutual

/-- `Eval` on each AST node, from `dsl.go` (§4.3's per-node contracts),
parameterised by the `ReflectOracle` standing for `callReflectMethod`. -/
def evalExpr (crm : ReflectOracle) (ctx : Context) : Expr → Except String Value
  | .literalE v => .ok v
  | .variableE nm => .ok (getMember ctx.data nm)
  | .memberE l key _ => do
      let v ← evalExpr crm ctx l
      match v with
      | .vnil => .ok .vnil
      | _ => .ok (getMember v key)
  | .indexE l ie => do
      let obj ← evalExpr crm ctx l
      match obj with
      | .vnil => .ok .vnil
      | _ => do
          let idx ← evalExpr crm ctx ie
          match derefChain obj with
          | none => .ok .vnil
          | some w => .ok (indexResolve w idx)
  | .methodE l m args => do
      let obj ← evalExpr crm ctx l
      match obj with
      | .vnil => .ok .vnil
      | _ =>
          if (m == "len") && args.isEmpty then
            match derefChain obj with
            | none => .ok (.vint 0)
            | some w =>
                if isSizedKind w then .ok (.vint (lenOf w))
                else do
                  let as_ ← evalArgs crm ctx args
                  crm obj m as_
          else do
            let as_ ← evalArgs crm ctx args
            crm obj m as_
  | .callE nm args =>
      match mapLookup ctx.fns (toLowerGo nm) with
      | some fn => do
          let as_ ← evalArgs crm ctx args
          fn as_
      | none =>
          match ctx.data with
          | .vnil => .error ("function or method " ++ nm ++ " not found")
          | _ => do
              let as_ ← evalArgs crm ctx args
              match crm ctx.data nm as_ with
              | .ok res => .ok res
              | .error _ => .error ("function or method " ++ nm ++ " not found")
  | .unaryE op r => do
      let rv ← evalExpr crm ctx r
      if op = "!" then .ok (.vbool (! toBool rv))
      else if op = "-" then
        match toInt64 rv with
        | some i => .ok (.vint (wrap64 (-i)))
        | none =>
            match toFloat rv with
            | some f => .ok (.vfloat (fracNeg f))
            | none => .error ("invalid unary - for " ++ typeName rv)
      else if op = "~" then
        match toInt64 rv with
        | some i => .ok (.vint (-i - 1))
        | none => .error ("invalid unary ~ for " ++ typeName rv)
      else .error ("unknown unary operator \"" ++ op ++ "\"")
  | .binE l op r => do
      let lv ← evalExpr crm ctx l
      if op = "&&" then
        if toBool lv then do
          let rv ← evalExpr crm ctx r
          .ok (.vbool (toBool rv))
        else .ok (.vbool false)
      else if op = "||" then
        if toBool lv then .ok (.vbool true)
        else do
          let rv ← evalExpr crm ctx r
          .ok (.vbool (toBool rv))
      else do
        let rv ← evalExpr crm ctx r
        if op = "==" then
          if deepEqual lv rv then .ok (.vbool true)
          else
            match toFloat lv, toFloat rv with
            | some lf, some rf => .ok (.vbool (fracEq lf rf))
            | _, _ => .ok (.vbool false)
        else if op = "!=" then
          if deepEqual lv rv then .ok (.vbool false)
          else
            match toFloat lv, toFloat rv with
            | some lf, some rf => .ok (.vbool (! fracEq lf rf))
            | _, _ => .ok (.vbool true)
        else if op = "+" then
          match lv with
          | .vstr ls => .ok (.vstr (ls ++ sprintValue rv))
          | _ => evalMath lv rv '+'
        else if op = "-" then evalMath lv rv '-'
        else if op = "*" then evalMath lv rv '*'
        else if op = "/" then evalMath lv rv '/'
        else if op = "%" then evalMath lv rv '%'
        else if op = ">" ∨ op = "<" ∨ op = ">=" ∨ op = "<=" then compareFn lv rv op
        else if op = "&" ∨ op = "|" ∨ op = "^" ∨ op = "<<" ∨ op = ">>" then
          evalBitwise lv rv op
        else .ok .vnil
  | .ternE c t e => do
      let cv ← evalExpr crm ctx c
      if toBool cv then evalExpr crm ctx t else evalExpr crm ctx e
termination_by structural e => e

/-- Left-to-right evaluation of an argument list; the first error aborts. -/
def evalArgs (crm : ReflectOracle) (ctx : Context) : List Expr → Except String (List Value)
  | [] => .ok []
  | a :: rest => do
      let v ← evalExpr crm ctx a
      let vs ← evalArgs crm ctx rest
      .ok (v :: vs)
termination_by structural l => l

end

/-- The built-in `len` function of `defaultFuncs`: 0 with no arguments, the
element/character/entry count of a slice, string or map first argument, and
0 for anything else.  (Go's free `len` checks the slice, string and map
kinds only — not arrays; the model conflates slices and arrays.) -/
def defaultLen : CustomFunc := fun args =>
  match args with
  | [] => .ok (.vint 0)
  | a :: _ =>
      match a with
      | .vlist xs => .ok (.vint xs.length)
      | .vstr s => .ok (.vint s.length)
      | .vmap _ es => .ok (.vint es.length)
      | _ => .ok (.vint 0)

/-- Modelled from the spec: the built-in `now` returns the current time as
epoch seconds (§4.6); the clock is external to the model, so the model
returns an unspecified constant. -/
def defaultNow : CustomFunc := fun _ =>
  .ok (.vint 0)

/-- `defaultFuncs` from `dsl.go`: the seed registry with `len` and `now`. -/
def defaultFuncs : List (String × CustomFunc) :=
  [("len", defaultLen), ("now", defaultNow)]

/-- `Engine.RegisterFunc` from `dsl.go`, acting on the registry snapshot it
replaces: an empty name or an absent function is rejected, otherwise the
new snapshot is the old one with the binding added (the absent function is
modelled by `Option`, standing for a nil Go function value). -/
def registerFunc (curr : List (String × CustomFunc)) (name : String)
    (fn : Option CustomFunc) : Except String (List (String × CustomFunc)) :=
  if name = "" then .error "func name cannot be empty"
  else
    match fn with
    | none => .error "func cannot be nil"
    | some f => .ok (mapInsert curr name f)

/-- `MaxStackDepth` from `dsl.go`. -/
def MaxStackDepth : Nat := 256

/-- The token kinds of `dsl.go`'s lexer, each carrying its `val` text where
that is not fixed.  (The source also declares a `tPathKey` kind that no code
ever produces; it is omitted.)  Token source offsets are not modelled. -/
inductive Tok where
  | tEOF
  | tNumber (s : String)
  | tString (s : String)
  | tIdent (s : String)
  | tLParen
  | tRParen
  | tComma
  | tOp (s : String)
deriving DecidableEq

/-- A token's `val` field. -/
def tokVal : Tok → String
  | .tEOF => ""
  | .tNumber s => s
  | .tString s => s
  | .tIdent s => s
  | .tLParen => "("
  | .tRParen => ")"
  | .tComma => ","
  | .tOp s => s

/-- `unicode.IsSpace`, restricted to ASCII (space, tab, newline, vertical
tab, form feed, carriage return); the claims involve no exotic spaces. -/
def isSpaceGo (c : Char) : Bool :=
  c = ' ' || c = '\t' || c = '\n' || c = '\r' || c.toNat = 11 || c.toNat = 12

/-- `unicode.IsLetter`, restricted to ASCII letters. -/
def isLetterGo (c : Char) : Bool :=
  (97 ≤ c.toNat && c.toNat ≤ 122) || (65 ≤ c.toNat && c.toNat ≤ 90)

/-- A character that may continue an identifier token. -/
def isIdentChar (c : Char) : Bool :=
  isLetterGo c || isDigitC c || c = '_'

/-- A character that may continue a number token: a digit or a literal
dot. -/
def isNumChar (c : Char) : Bool :=
  isDigitC c || c = '.'

/-- Value of a hexadecimal digit character, either case. -/
def hexVal (c : Char) : Option Nat :=
  if 48 ≤ c.toNat ∧ c.toNat ≤ 57 then some (c.toNat - 48)
  else if 97 ≤ c.toNat ∧ c.toNat ≤ 102 then some (c.toNat - 87)
  else if 65 ≤ c.toNat ∧ c.toNat ≤ 70 then some (c.toNat - 55)
  else none

/-- Value of an octal digit character. -/
def octVal (c : Char) : Option Nat :=
  if 48 ≤ c.toNat ∧ c.toNat ≤ 55 then some (c.toNat - 48) else none

/-- Combine hex digits into a value, failing on a non-hex character. -/
def hexDigits (cs : List Char) : Option Nat :=
  cs.foldl (fun acc c =>
    match acc, hexVal c with
    | some a, some v => some (16 * a + v)
    | _, _ => none) (some 0)

/-- Whether a code point is a valid Unicode scalar value (the check
`\u`/`\U` escapes perform). -/
def isValidRune (n : Nat) : Bool :=
  n < 55296 || (57344 ≤ n && n < 1114112)

/-- Modelled from the spec: `strconv.UnquoteChar` for the escape forms §4.1
lists — `\n \r \t \\ \'` (and the double quote, each quote escape valid
only inside its own quote kind), `\xNN`, three-digit octal, `\uNNNN` and
`\UNNNNNNNN` with a Unicode-scalar check.  The input starts at the
backslash; the result is the decoded character and the remaining input,
`none` standing for `strconv`'s syntax error. -/
def unquoteChar (q : Char) (cs : List Char) : Option (Char × List Char) :=
  match cs with
  | b :: d :: rest =>
      if b ≠ cBackslash then none
      else if d = 'n' then some ('\n', rest)
      else if d = 'r' then some ('\r', rest)
      else if d = 't' then some ('\t', rest)
      else if d = cBackslash then some (cBackslash, rest)
      else if d = cQuoteS then if q = cQuoteS then some (cQuoteS, rest) else none
      else if d = cQuoteD then if q = cQuoteD then some (cQuoteD, rest) else none
      else if d = 'x' then
        match rest with
        | h1 :: h2 :: rest2 =>
            match hexDigits [h1, h2] with
            | some v => some (Char.ofNat v, rest2)
            | none => none
        | _ => none
      else if d = 'u' then
        match rest with
        | h1 :: h2 :: h3 :: h4 :: rest2 =>
            match hexDigits [h1, h2, h3, h4] with
            | some v => if isValidRune v then some (Char.ofNat v, rest2) else none
            | none => none
        | _ => none
      else if d = 'U' then
        match rest with
        | h1 :: h2 :: h3 :: h4 :: h5 :: h6 :: h7 :: h8 :: rest2 =>
            match hexDigits [h1, h2, h3, h4, h5, h6, h7, h8] with
            | some v => if isValidRune v then some (Char.ofNat v, rest2) else none
            | none => none
        | _ => none
      else
        match octVal d, rest with
        | some o1, e2 :: e3 :: rest2 =>
            match octVal e2, octVal e3 with
            | some o2, some o3 =>
                let v := 64 * o1 + 8 * o2 + o3
                if v < 256 then some (Char.ofNat v, rest2) else none
            | _, _ => none
        | _, _ => none
  | _ => none

/-- The string-literal scanning loop of `lexer.nextToken`: content up to the
closing quote, decoding a backslash-escaped closing quote directly and any
other backslash escape through `unquoteChar`; end of input is an
"unterminated string" error and a bad escape is `strconv`'s syntax error.
The fuel argument (any value above the input length) keeps the recursion
structural. -/
def lexString (q : Char) : Nat → List Char → Except String (List Char × List Char)
  | 0, _ => .error "unterminated string"
  | fuel + 1, cs =>
      match cs with
      | [] => .error "unterminated string"
      | c :: rest =>
          if c = q then .ok ([], rest)
          else if c = cBackslash then
            match rest with
            | d :: rest2 =>
                if d = q then
                  match lexString q fuel rest2 with
                  | .ok r => .ok (q :: r.1, r.2)
                  | .error e => .error e
                else
                  match unquoteChar q cs with
                  | some (ch, rest3) =>
                      match lexString q fuel rest3 with
                      | .ok r => .ok (ch :: r.1, r.2)
                      | .error e => .error e
                  | none => .error "invalid syntax"
            | [] => .error "invalid syntax"
          else
            match lexString q fuel rest with
            | .ok r => .ok (c :: r.1, r.2)
            | .error e => .error e

/-- `lexer.nextToken` from `dsl.go`: skip whitespace, then classify by the
first character — digits begin a number token of digits and dots, letters
or underscore an identifier, a quote a string literal, the bracket and
punctuation characters their fixed tokens, and anything else an operator,
matching the two-character operators `== != <= >= && || << >>` before
falling back to a single-character operator. -/
def nextToken (cs0 : List Char) : Except String (Tok × List Char) :=
  let cs := cs0.dropWhile isSpaceGo
  match cs with
  | [] => .ok (.tEOF, [])
  | r :: rest =>
      if isDigitC r then
        .ok (.tNumber (String.mk (r :: rest.takeWhile isNumChar)), rest.dropWhile isNumChar)
      else if isLetterGo r || r = '_' then
        .ok (.tIdent (String.mk (r :: rest.takeWhile isIdentChar)), rest.dropWhile isIdentChar)
      else if r = cQuoteD || r = cQuoteS then
        match lexString r (rest.length + 1) rest with
        | .ok p => .ok (.tString (String.mk p.1), p.2)
        | .error e => .error e
      else if r = '[' then .ok (.tOp "[", rest)
      else if r = ']' then .ok (.tOp "]", rest)
      else if r = '(' then .ok (.tLParen, rest)
      else if r = ')' then .ok (.tRParen, rest)
      else if r = ',' then .ok (.tComma, rest)
      else if r = '.' then .ok (.tOp ".", rest)
      else
        match rest with
        | c2 :: rest2 =>
            if r = '=' ∧ c2 = '=' then .ok (.tOp "==", rest2)
            else if r = '!' ∧ c2 = '=' then .ok (.tOp "!=", rest2)
            else if r = '<' ∧ c2 = '=' then .ok (.tOp "<=", rest2)
            else if r = '>' ∧ c2 = '=' then .ok (.tOp ">=", rest2)
            else if r = '&' ∧ c2 = '&' then .ok (.tOp "&&", rest2)
            else if r = '|' ∧ c2 = '|' then .ok (.tOp "||", rest2)
            else if r = '<' ∧ c2 = '<' then .ok (.tOp "<<", rest2)
            else if r = '>' ∧ c2 = '>' then .ok (.tOp ">>", rest2)
            else .ok (.tOp (String.mk [r]), rest)
        | [] => .ok (.tOp (String.mk [r]), rest)

/-- The parser's state: the two-token lookahead (`curr`, `next`), the
unread input, and the sticky lexer error. -/
structure PState where
  curr : Tok
  next : Tok
  rest : List Char
  lexErr : Option String
deriving DecidableEq

/-- `parser.advance` from `dsl.go`: shift `next` into `curr` and pull one
token; a lexer error is recorded once and pins `next` to end-of-input. -/
def advanceP (st : PState) : PState :=
  match st.lexErr with
  | some _ => { curr := st.next, next := .tEOF, rest := st.rest, lexErr := st.lexErr }
  | none =>
      match nextToken st.rest with
      | .error e => { curr := st.next, next := .tEOF, rest := st.rest, lexErr := some e }
      | .ok (t, rest2) => { curr := st.next, next := t, rest := rest2, lexErr := none }

/-- `lbp` from `dsl.go`: the binding power of a token (non-zero only for
operator tokens). -/
def lbp (t : Tok) : Nat :=
  match t with
  | .tOp s =>
      if s = "." then 100
      else if s = "[" then 100
      else if s = "*" ∨ s = "/" ∨ s = "%" ∨ s = "<<" ∨ s = ">>" ∨ s = "&" then 50
      else if s = "+" ∨ s = "-" ∨ s = "|" ∨ s = "^" then 40
      else if s = "<" ∨ s = ">" ∨ s = "<=" ∨ s = ">=" then 35
      else if s = "==" ∨ s = "!=" then 30
      else if s = "&&" then 20
      else if s = "||" then 10
      else if s = "?" then 5
      else 0
  | _ => 0

/-- The error text reserved for fuel exhaustion.  The Go parser has no such
outcome; every theorem about the parser exhibits an `ok` or a genuine
error, so this sentinel never appears in a proved result. -/
def fuelErrMsg : String := "model: out of fuel"

mutual

/-- `parser.parse` from `dsl.go`: fail above the depth cap, report a
pending lexer error, otherwise consume one token, parse its null
denotation, and extend by left denotations while the next token binds
tighter than `rbp`.  The fuel argument (first) keeps the mutual recursion
structural; `parseExprStr` supplies more than any input can consume. -/
def parseP : Nat → PState → Nat → Nat → Except String (Expr × PState)
  | 0, _, _, _ => .error fuelErrMsg
  | fuel + 1, st, rbp, depth =>
      if depth > MaxStackDepth then .error "stack overflow"
      else
        match st.lexErr with
        | some e => .error e
        | none =>
            let t := st.curr
            let st1 := advanceP st
            match st1.lexErr with
            | some e => .error e
            | none =>
                match nudP fuel t st1 depth with
                | .error e => .error e
                | .ok (left, st2) => parseLoopP fuel st2 left rbp depth
termination_by structural fuel _ _ _ => fuel

/-- The `for rbp < lbp(p.curr)` loop of `parser.parse`. -/
def parseLoopP : Nat → PState → Expr → Nat → Nat → Except String (Expr × PState)
  | 0, _, _, _, _ => .error fuelErrMsg
  | fuel + 1, st, left, rbp, depth =>
      if rbp < lbp st.curr then
        let t := st.curr
        let st1 := advanceP st
        match st1.lexErr with
        | some e => .error e
        | none =>
            match ledP fuel t left st1 depth with
            | .error e => .error e
            | .ok (left2, st2) => parseLoopP fuel st2 left2 rbp depth
      else .ok (left, st)
termination_by structural fuel _ _ _ _ => fuel

/-- `parser.nud` from `dsl.go`: literals (a number with a dot parses as a
float with the parse error ignored, else as an integer with the error
ignored and `ParseInt`'s clamped value kept), the `true`/`false` keywords,
an identifier becoming a call when `(` follows, a parenthesised
sub-expression, and the prefix operators at binding power 60. -/
def nudP : Nat → Tok → PState → Nat → Except String (Expr × PState)
  | 0, _, _, _ => .error fuelErrMsg
  | fuel + 1, t, st, depth =>
      match t with
      | .tNumber s =>
          if s.toList.contains '.' then .ok (.literalE (.vfloat ((goParseFloat s).getD 0)), st)
          else .ok (.literalE (.vint (goParseInt s).1), st)
      | .tString s => .ok (.literalE (.vstr s), st)
      | .tIdent s =>
          if s = "true" then .ok (.literalE (.vbool true), st)
          else if s = "false" then .ok (.literalE (.vbool false), st)
          else if st.curr = .tLParen then
            match parseArgsP fuel (advanceP st) depth with
            | .error e => .error e
            | .ok (args, st2) => .ok (.callE s args, st2)
          else .ok (.variableE s, st)
      | .tLParen =>
          match parseP fuel st 0 (depth + 1) with
          | .error e => .error e
          | .ok (e, st1) =>
              match st1.curr with
              | .tRParen => .ok (e, advanceP st1)
              | _ => .error "missing )"
      | .tOp s =>
          if s = "!" ∨ s = "-" ∨ s = "~" then
            match parseP fuel st 60 (depth + 1) with
            | .error e => .error e
            | .ok (r, st1) => .ok (.unaryE s r, st1)
          else .error ("unexpected token " ++ s)
      | other => .error ("unexpected token " ++ tokVal other)
termination_by structural fuel _ _ _ => fuel

/-- `parser.led` from `dsl.go`: `?` builds a right-associative ternary
(else branch at `lbp − 1`, a missing `:` is an error), `[` an index
expression (missing `]` is an error), `.` either the legacy `.[`
index form or a member taken from the next token's text — promoted to a
method call when `(` follows — and any other operator an infix whose right
side parses at the operator's binding power. -/
def ledP : Nat → Tok → Expr → PState → Nat → Except String (Expr × PState)
  | 0, _, _, _, _ => .error fuelErrMsg
  | fuel + 1, t, left, st, depth =>
      if tokVal t = "?" then
        match parseP fuel st 0 (depth + 1) with
        | .error e => .error e
        | .ok (thn, st1) =>
            if st1.curr = .tOp ":" then
              match parseP fuel (advanceP st1) (lbp t - 1) (depth + 1) with
              | .error e => .error e
              | .ok (els, st2) => .ok (.ternE left thn els, st2)
            else .error "missing : in ternary expression"
      else if tokVal t = "[" then
        match parseP fuel st 0 (depth + 1) with
        | .error e => .error e
        | .ok (idx, st1) =>
            if st1.curr = .tOp "]" then .ok (.indexE left idx, advanceP st1)
            else .error "missing ] in index expression"
      else if tokVal t = "." then
        if st.curr = .tOp "[" then
          match parseP fuel (advanceP st) 0 (depth + 1) with
          | .error e => .error e
          | .ok (idx, st1) =>
              if st1.curr = .tOp "]" then .ok (.indexE left idx, advanceP st1)
              else .error "missing ] in index expression"
        else
          let member := tokVal st.curr
          let st1 := advanceP st
          if st1.curr = .tLParen then
            match parseArgsP fuel (advanceP st1) depth with
            | .error e => .error e
            | .ok (args, st2) => .ok (.methodE left member args, st2)
          else .ok (.memberE left member false, st1)
      else
        match parseP fuel st (lbp t) (depth + 1) with
        | .error e => .error e
        | .ok (right, st1) => .ok (.binE left (tokVal t) right, st1)
termination_by structural fuel _ _ _ _ => fuel

/-- `parser.parseArgs` from `dsl.go`: comma-separated expressions until
`)`; reaching end of input first is a "missing ) in args" error. -/
def parseArgsP : Nat → PState → Nat → Except String (List Expr × PState)
  | 0, _, _ => .error fuelErrMsg
  | fuel + 1, st, depth =>
      match st.curr with
      | .tRParen => .ok ([], advanceP st)
      | .tEOF => .error "missing ) in args"
      | _ =>
          match parseP fuel st 0 (depth + 1) with
          | .error e => .error e
          | .ok (a, st1) =>
              let st2 := if st1.curr = .tComma then advanceP st1 else st1
              match parseArgsP fuel st2 depth with
              | .error e => .error e
              | .ok (rest, st3) => .ok (a :: rest, st3)
termination_by structural fuel _ _ => fuel

end

/-- The parser's starting state on an input string: a zero parser advanced
twice to fill the two-token lookahead. -/
def initState (s : String) : PState :=
  advanceP (advanceP { curr := .tEOF, next := .tEOF, rest := s.toList, lexErr := none })

/-- Fuel that no parse of `s` can exhaust (each unit of nesting or looping
in the parser consumes input or is bounded by the depth cap). -/
def parseFuel (s : String) : Nat :=
  40 * s.length + 600

/-- `ParseExpr` from `dsl.go`: lex and parse the whole input, requiring
end-of-input after one complete expression ("extra token" otherwise,
position numbers unmodelled). -/
def parseExprStr (s : String) : Except String Expr :=
  match parseP (parseFuel s) (initState s) 0 0 with
  | .error e => .error e
  | .ok (e, st) =>
      match st.curr with
      | .tEOF => .ok e
      | t => .error ("extra token " ++ tokVal t)

/-- `Engine.Eval` from `dsl.go`, minus the panic fault barrier (nothing in
the value model can panic; host panics are already folded into the
`ReflectOracle`'s errors): lex and parse, reject trailing input
("unexpected token", position unmodelled), then evaluate against the data
and the registry snapshot. -/
def engineEval (crm : ReflectOracle) (fns : List (String × CustomFunc)) (data : Value)
    (s : String) : Except String Value :=
  match parseP (parseFuel s) (initState s) 0 0 with
  | .error e => .error e
  | .ok (e, st) =>
      match st.curr with
      | .tEOF => evalExpr crm { data := data, fns := fns } e
      | t => .error ("unexpected token \"" ++ tokVal t ++ "\"")

/-- Lowercase hex digit. -/
def hexDigitChar (n : Nat) : Char :=
  if n < 10 then Char.ofNat (48 + n) else Char.ofNat (87 + n)

/-- Modelled from the spec: how `strconv.Quote` renders one character —
backslash escapes for the quote and backslash, named escapes for newline,
carriage return and tab, `\xNN` for other control bytes, and everything
else literally.  (`Quote` escapes some further non-printable code points;
any such choice re-lexes identically, and no claim inspects those.) -/
def quoteChar (c : Char) : List Char :=
  if c = cQuoteD then [cBackslash, cQuoteD]
  else if c = cBackslash then [cBackslash, cBackslash]
  else if c = '\n' then [cBackslash, 'n']
  else if c = '\r' then [cBackslash, 'r']
  else if c = '\t' then [cBackslash, 't']
  else if c.toNat < 32 ∨ c.toNat = 127 then
    [cBackslash, 'x', hexDigitChar (c.toNat / 16), hexDigitChar (c.toNat % 16)]
  else [c]

/-- Modelled from the spec: `strconv.Quote`, the canonical form of string
literals (§4.6 "literals quoted for strings"). -/
def goQuote (s : String) : String :=
  String.mk (cQuoteD :: s.toList.flatMap quoteChar ++ [cQuoteD])

mutual

/-- Each node's canonical `String()` form from `dsl.go`: string literals
quoted, other literals in their `fmt.Sprint` form, infix/unary/ternary
fully parenthesised, member access dotted (or bracketed under the `IsIndex`
display flag), and calls comma-joined. -/
def astString : Expr → String
  | .literalE v =>
      match v with
      | .vstr s => goQuote s
      | _ => sprintValue v
  | .variableE nm => nm
  | .memberE l k isIdx =>
      if isIdx then astString l ++ "[" ++ k ++ "]"
      else astString l ++ "." ++ k
  | .indexE l i => astString l ++ "[" ++ astString i ++ "]"
  | .methodE l m args => astString l ++ "." ++ m ++ "(" ++ argsString args ++ ")"
  | .callE n args => n ++ "(" ++ argsString args ++ ")"
  | .unaryE op r => "(" ++ op ++ astString r ++ ")"
  | .binE l op r => "(" ++ astString l ++ " " ++ op ++ " " ++ astString r ++ ")"
  | .ternE c t e =>
      "(" ++ astString c ++ " ? " ++ astString t ++ " : " ++ astString e ++ ")"
termination_by structural e => e

/-- Argument lists, joined by `", "`. -/
def argsString : List Expr → String
  | [] => ""
  | [a] => astString a
  | a :: b :: rest => astString a ++ ", " ++ argsString (b :: rest)
termination_by structural l => l

end

/-!
## The round-trip development (claim C4): token shapes, the printer-safe
fragment, and the parse measures
-/

/-- The head of `ys` fails `p` (vacuously for empty `ys`). -/
def headNotP (p : Char → Bool) (ys : List Char) : Bool :=
  match ys with
  | [] => true
  | y :: _ => ! p y

/-- Identifier-shaped string: a possible `tIdent` lexeme. -/
def identShaped (s : String) : Bool :=
  match s.toList with
  | [] => false
  | c :: rest => (isLetterGo c || c = '_') && rest.all isIdentChar

/-- Number-shaped string: a possible `tNumber` lexeme. -/
def numShaped (s : String) : Bool :=
  match s.toList with
  | [] => false
  | c :: rest => isDigitC c && rest.all isNumChar

/-- The operator strings the printer emits for infix nodes: exactly the
tokens `lbp` assigns a positive infix binding power (other than the postfix
`.`/`[` and the ternary `?`). -/
def opOK (s : String) : Bool :=
  s = "*" || s = "/" || s = "%" || s = "<<" || s = ">>" || s = "&" ||
  s = "+" || s = "-" || s = "|" || s = "^" ||
  s = "<" || s = ">" || s = "<=" || s = ">=" ||
  s = "==" || s = "!=" || s = "&&" || s = "||"

/-- A name the parser reads back as the same variable or call: an
identifier lexeme other than the keywords. -/
def nameOK (s : String) : Bool :=
  identShaped s && !(s = "true") && !(s = "false")

/-- A literal whose printed form re-lexes to the same literal: booleans,
strings, and non-negative in-range integers (a negative integer prints with
a sign and re-parses as a unary minus; a float prints via `%v` and can
re-parse as an integer — the C4 counterexample). -/
def litOK : Value → Bool
  | .vint n => decide (0 ≤ n) && decide (n < two63)
  | .vbool _ => true
  | .vstr _ => true
  | _ => false

/-- Classify the last token of a printed expression: 0 for self-delimiting
(quote, bracket, parenthesis), 1 for an identifier lexeme, 2 for a number
lexeme (which would keep lexing through a following dot or digit). -/
def lastTok : Expr → Nat
  | .literalE (.vint _) => 2
  | .literalE (.vbool _) => 1
  | .literalE _ => 0
  | .variableE _ => 1
  | .memberE _ _ _ => 1
  | _ => 0

/-- Boundary condition between a printed expression and the following
text: the continuation must not begin with a character that the
expression's final token would absorb. -/
def bOK (e : Expr) (r : List Char) : Bool :=
  if lastTok e = 1 then headNotP isIdentChar r
  else if lastTok e = 2 then headNotP isNumChar r
  else true

mutual

/-- Print-safe expressions: the fragment of the AST on which the canonical
string form re-parses to the identical tree.  Float literals, negative or
out-of-range integer literals, bracket-displayed members, numeric member
keys, keyword names and malformed operator strings are excluded; every
expression the parser itself produces from well-formed input lies in this
fragment except for the float/negative-literal cases. -/
def rtSafe : Expr → Bool
  | .literalE v => litOK v
  | .variableE nm => nameOK nm
  | .memberE l k isIdx =>
      !isIdx && rtSafe l && identShaped k && !(lastTok l = 2 : Bool)
  | .indexE l i => rtSafe l && rtSafe i
  | .methodE l m args =>
      rtSafe l && identShaped m && !(lastTok l = 2 : Bool) && rtSafeList args
  | .callE n args => nameOK n && rtSafeList args
  | .unaryE op r => (op = "!" || op = "-" || op = "~") && rtSafe r
  | .binE l op r => rtSafe l && opOK op && rtSafe r
  | .ternE c t e => rtSafe c && rtSafe t && rtSafe e
termination_by structural e => e

/-- `rtSafe` on every element of an argument list. -/
def rtSafeList : List Expr → Bool
  | [] => true
  | a :: rest => rtSafe a && rtSafeList rest
termination_by structural l => l

end

mutual

/-- Node count of an expression, the induction measure of the round-trip
proof. -/
def esize : Expr → Nat
  | .literalE _ => 1
  | .variableE _ => 1
  | .memberE l _ _ => esize l + 1
  | .indexE l i => esize l + esize i + 1
  | .methodE l _ args => esize l + argsSize args + 1
  | .callE _ args => argsSize args + 1
  | .unaryE _ r => esize r + 1
  | .binE l _ r => esize l + esize r + 1
  | .ternE c t e => esize c + esize t + esize e + 1
termination_by structural e => e

/-- Size of an argument list (at least 1, so a list is always larger than
its elements and tails). -/
def argsSize : List Expr → Nat
  | [] => 1
  | a :: rest => esize a + argsSize rest
termination_by structural l => l

end

mutual

/-- Parser fuel sufficient to consume a printed expression (each
constructor adds a generous constant). -/
def fuelNeed : Expr → Nat
  | .literalE _ => 2
  | .variableE _ => 2
  | .memberE l _ _ => fuelNeed l + 3
  | .indexE l i => fuelNeed l + fuelNeed i + 5
  | .methodE l _ args => fuelNeed l + argsFuel args + 7
  | .callE _ args => argsFuel args + 5
  | .unaryE _ r => fuelNeed r + 5
  | .binE l _ r => fuelNeed l + fuelNeed r + 7
  | .ternE c t e => fuelNeed c + fuelNeed t + fuelNeed e + 9
termination_by structural e => e

/-- Parser fuel sufficient to consume a printed argument list. -/
def argsFuel : List Expr → Nat
  | [] => 2
  | a :: rest => fuelNeed a + argsFuel rest + 5
termination_by structural l => l

end

mutual

/-- The largest recursion depth (relative to the entry call) the parser
reaches while consuming a printed expression. -/
def depthNeed : Expr → Nat
  | .literalE _ => 0
  | .variableE _ => 0
  | .memberE l _ _ => depthNeed l
  | .indexE l i => max (depthNeed l) (depthNeed i + 1)
  | .methodE l _ args => max (depthNeed l) (argsDepth args + 1)
  | .callE _ args => argsDepth args + 1
  | .unaryE _ r => depthNeed r + 2
  | .binE l _ r => max (depthNeed l) (depthNeed r + 1) + 1
  | .ternE c t e => max (depthNeed c) (max (depthNeed t) (depthNeed e) + 1) + 1
termination_by structural e => e

/-- Depth needed by the elements of an argument list. -/
def argsDepth : List Expr → Nat
  | [] => 0
  | a :: rest => max (depthNeed a) (argsDepth rest)
termination_by structural l => l

end

/-- The parser state whose two-token lookahead is drawn from `l`: the shape
`initState` produces (`initState s = mkSt s.toList`). -/
def mkSt (l : List Char) : PState :=
  advanceP (advanceP { curr := .tEOF, next := .tEOF, rest := l, lexErr := none })

/-- Iterate `nextToken`, keeping only the unread remainder. -/
def pulls : Nat → List Char → Except String (List Char)
  | 0, l => .ok l
  | n + 1, l =>
      match nextToken l with
      | .ok p => pulls n p.2
      | .error e => .error e

/-- Every prefix of the token stream of `l` lexes without error. -/
def streamOK (l : List Char) : Prop :=
  ∀ n, ∃ m, pulls n l = .ok m

/-- A first character the printer can emit: a digit, letter, underscore,
double quote, opening parenthesis, or prefix-operator character. -/
def headOK (c : Char) : Bool :=
  isDigitC c || isLetterGo c || c = '_' || c = cQuoteD || c = '(' ||
  c = '!' || c = '-' || c = '~'

/-- The continuation's first token does not open a parenthesis (so an
identifier or member before it is not promoted to a call). -/
def noLP (r : List Char) : Prop :=
  ∀ t m, nextToken r = .ok (t, m) → ¬ t = .tLParen

/-- The continuation's first token binds no tighter than `rbp`, so the
parse loop stops in front of it. -/
def stopsAt (rbp : Nat) (r : List Char) : Prop :=
  ∀ t m, nextToken r = .ok (t, m) → lbp t ≤ rbp

/-!
## Fixtures shared by the claim theorems
-/

/-- Monadic bind on a success, reduced. -/
@[simp] theorem ok_bind {ε α β : Type} (a : α) (f : α → Except ε β) :
    (Except.ok a : Except ε α) >>= f = f a := rfl

/-- Monadic bind on an error, reduced. -/
@[simp] theorem error_bind {ε α β : Type} (e : ε) (f : α → Except ε β) :
    (Except.error e : Except ε α) >>= f = .error e := rfl

/-- A reflect oracle over a host with no methods: every reflective call
fails as `callReflectMethod` does when `MethodByName` finds nothing. -/
def noMethods : ReflectOracle := fun _ nm _ =>
  .error ("method " ++ nm ++ " not found")

/-- An empty evaluation context: nil root data, the default registry. -/
def ctx0 : Context := { data := .vnil, fns := defaultFuncs }

/-!
## Claim C1 — `+` with a non-string left operand and a non-coercible string
right operand
-/

/-- Claim C1 as stated is false: `10 + 'res'` does not return an error; the
float fallback of `evalMath` discards the failed coercion of `'res'`,
leaves it at the zero default, and returns the float `10`. -/
theorem c1_counterexample :
    engineEval noMethods defaultFuncs .vnil "10 + 'res'" = .ok (.vfloat ⟨10, 1⟩) ∧
    ∀ e, engineEval noMethods defaultFuncs .vnil "10 + 'res'" ≠ .error e := by
  refine ⟨rfl, fun e h => ?_⟩
  rw [show engineEval noMethods defaultFuncs .vnil "10 + 'res'" = .ok (.vfloat ⟨10, 1⟩) from rfl] at h
  exact Except.noConfusion h

/-- Claim C1 amended: for infix `+` with a non-string left operand that
float-coerces to `f` and a right operand that is a string which is not
float-coercible, evaluation does not fall through to an error: the float
fallback substitutes zero for the non-coercible operand and succeeds with
the float `f + 0`. -/
theorem c1_amended (crm : ReflectOracle) (ctx : Context) (l r : Expr) (lv : Value)
    (f : Frac) (s : String)
    (hl : evalExpr crm ctx l = .ok lv)
    (hnotstr : ∀ t, lv ≠ .vstr t)
    (hf : toFloat lv = some f)
    (hr : evalExpr crm ctx r = .ok (.vstr s))
    (hnc : goParseFloat s = none) :
    evalExpr crm ctx (.binE l "+" r) = .ok (.vfloat (fracAdd f 0)) := by
  cases lv with
  | vstr t => exact absurd rfl (hnotstr t)
  | vnil => simp [toFloat] at hf
  | _ => simp_all [evalExpr, evalMath, toFloat, toInt64]

/-- Witness for `c1_amended` at `10 + 'res'`. -/
theorem c1_amended_witness :
    evalExpr noMethods ctx0 (.binE (.literalE (.vint 10)) "+" (.literalE (.vstr "res"))) =
      .ok (.vfloat (fracAdd ⟨10, 1⟩ 0)) :=
  c1_amended noMethods ctx0 _ _ _ _ _ rfl (fun _ h => Value.noConfusion h) rfl rfl rfl

/-!
## Claim C8 — `+` with a string left operand
-/

/-- Claim C8: whenever the left operand of infix `+` evaluates to a string,
the result is that string concatenated with the right operand's default
textual form, with no error, whatever the right operand's value. -/
theorem c8_string_concat (crm : ReflectOracle) (ctx : Context) (l r : Expr)
    (s : String) (w : Value)
    (hl : evalExpr crm ctx l = .ok (.vstr s))
    (hr : evalExpr crm ctx r = .ok w) :
    evalExpr crm ctx (.binE l "+" r) = .ok (.vstr (s ++ sprintValue w)) := by
  simp [evalExpr, hl, hr]

/-- Witness for `c8_string_concat` at `'res: ' + 10`. -/
theorem c8_string_concat_witness :
    evalExpr noMethods ctx0 (.binE (.literalE (.vstr "res: ")) "+" (.literalE (.vint 10))) =
      .ok (.vstr ("res: " ++ sprintValue (.vint 10))) :=
  c8_string_concat noMethods ctx0 _ _ _ _ rfl rfl

/-!
## Claim C5 — short-circuiting `&&` and `||`
-/

/-- Claim C5: `&&` with a falsy left operand returns `false` and `||` with
a truthy left operand returns `true`, in both cases without evaluating the
right operand — so any error the right side would produce is suppressed —
and in particular `false && (1/0)` is `false` and `true || (1/0)` is
`true`, with no error, though `1/0` alone is a division-by-zero error. -/
theorem c5_short_circuit :
    (∀ (crm : ReflectOracle) (ctx : Context) (l r : Expr) (v : Value),
      evalExpr crm ctx l = .ok v → toBool v = false →
      evalExpr crm ctx (.binE l "&&" r) = .ok (.vbool false)) ∧
    (∀ (crm : ReflectOracle) (ctx : Context) (l r : Expr) (v : Value),
      evalExpr crm ctx l = .ok v → toBool v = true →
      evalExpr crm ctx (.binE l "||" r) = .ok (.vbool true)) ∧
    engineEval noMethods defaultFuncs .vnil "false && (1/0)" = .ok (.vbool false) ∧
    engineEval noMethods defaultFuncs .vnil "true || (1/0)" = .ok (.vbool true) ∧
    engineEval noMethods defaultFuncs .vnil "1/0" = .error "div by zero" := by
  refine ⟨?_, ?_, rfl, rfl, rfl⟩
  · intro crm ctx l r v hl hv
    simp [evalExpr, hl, hv]
  · intro crm ctx l r v hl hv
    simp [evalExpr, hl, hv]

/-- Witness for `c5_short_circuit`, discharging the hypotheses of its two
universally quantified conjuncts at concrete operands. -/
theorem c5_short_circuit_witness :
    evalExpr noMethods ctx0
      (.binE (.literalE (.vbool false)) "&&"
        (.binE (.literalE (.vint 1)) "/" (.literalE (.vint 0)))) = .ok (.vbool false) ∧
    evalExpr noMethods ctx0
      (.binE (.literalE (.vbool true)) "||"
        (.binE (.literalE (.vint 1)) "/" (.literalE (.vint 0)))) = .ok (.vbool true) :=
  ⟨c5_short_circuit.1 noMethods ctx0 _ _ _ rfl rfl,
   c5_short_circuit.2.1 noMethods ctx0 _ _ _ rfl rfl⟩

/-!
## Claim C6 — division and modulo by zero; float modulo
-/

/-- Claim C6: division by an integer or float zero, and modulo by an
integer zero (the only modulo the integer-only `%` implements), fail with
the division-by-zero error; float modulo — `%` whenever the operands are
not both integer-coercible, which covers modulo by a float zero — yields
nil with no error. -/
theorem c6_div_mod_zero :
    (∀ lv : Value, evalMath lv (.vint 0) '/' = .error "div by zero") ∧
    (∀ (lv : Value) (q : Frac), fracIsZero q = true →
      evalMath lv (.vfloat q) '/' = .error "div by zero") ∧
    (∀ (lv : Value) (li : Int), toInt64 lv = some li →
      evalMath lv (.vint 0) '%' = .error "div by zero") ∧
    (∀ lv rv : Value, toInt64 lv = none ∨ toInt64 rv = none →
      evalMath lv rv '%' = .ok .vnil) := by
  refine ⟨fun lv => ?_, fun lv q hq => ?_, fun lv li hli => ?_, fun lv rv h => ?_⟩
  · cases lv <;> simp [evalMath, toInt64, toFloat, fracIsZero, Frac.ofInt]
  · cases lv <;> simp_all [evalMath, toInt64, toFloat, fracIsZero]
  · cases lv <;> simp_all [evalMath, toInt64]
  · rcases h with h | h <;> cases lv <;> cases rv <;> simp_all [evalMath, toInt64]

/-- Witness for `c6_div_mod_zero`: `10.5 / 0` and `10 % 0` fail, and the
float modulo `1.2 % 2.0` is nil with no error. -/
theorem c6_div_mod_zero_witness :
    evalMath (.vfloat ⟨105, 10⟩) (.vfloat ⟨0, 1⟩) '/' = .error "div by zero" ∧
    evalMath (.vint 10) (.vint 0) '%' = .error "div by zero" ∧
    evalMath (.vfloat ⟨12, 10⟩) (.vfloat ⟨2, 1⟩) '%' = .ok .vnil :=
  ⟨c6_div_mod_zero.2.1 _ _ rfl, c6_div_mod_zero.2.2.1 _ 10 rfl,
   c6_div_mod_zero.2.2.2 _ _ (Or.inl rfl)⟩

/-!
## Claim C7 — nil-safe member/index resolution
-/

/-- Claim C7: member access and indexing never produce an error of their
own.  A member access on any successfully evaluated receiver — nil and nil
pointers included — returns `ok`; an index on a nil receiver short-circuits
to nil before the index sub-expression is even evaluated; an index on a
nil-pointer receiver is nil; a sequence index that is not integer-coercible,
negative, or out of range resolves to nil; a missing map key (under member
access or under indexing) resolves to nil. -/
theorem c7_nil_safe :
    (∀ (crm : ReflectOracle) (ctx : Context) (l : Expr) (k : String) (b : Bool),
      evalExpr crm ctx l = .ok .vnil →
      evalExpr crm ctx (.memberE l k b) = .ok .vnil) ∧
    (∀ (crm : ReflectOracle) (ctx : Context) (l : Expr) (k : String) (b : Bool) (v : Value)
      (e : String), evalExpr crm ctx l = .ok v →
      evalExpr crm ctx (.memberE l k b) ≠ .error e) ∧
    (∀ k : String, getMember (.vptr none) k = .vnil) ∧
    (∀ (crm : ReflectOracle) (ctx : Context) (l i : Expr),
      evalExpr crm ctx l = .ok .vnil → evalExpr crm ctx (.indexE l i) = .ok .vnil) ∧
    (∀ (crm : ReflectOracle) (ctx : Context) (l i : Expr) (iv : Value),
      evalExpr crm ctx l = .ok (.vptr none) → evalExpr crm ctx i = .ok iv →
      evalExpr crm ctx (.indexE l i) = .ok .vnil) ∧
    (∀ (crm : ReflectOracle) (ctx : Context) (l i : Expr) (v iv : Value) (e : String),
      evalExpr crm ctx l = .ok v → evalExpr crm ctx i = .ok iv →
      evalExpr crm ctx (.indexE l i) ≠ .error e) ∧
    (∀ (xs : List Value) (iv : Value), toInt64 iv = none →
      indexResolve (.vlist xs) iv = .vnil) ∧
    (∀ (xs : List Value) (i : Int), i < 0 ∨ (xs.length : Int) ≤ i →
      indexResolve (.vlist xs) (.vint i) = .vnil) ∧
    (∀ (kk : KKind) (es : List (Value × Value)) (iv k : Value),
      mapKeyOfIndex kk iv = some k → mapLookupV es k = none →
      indexResolve (.vmap kk es) iv = .vnil) ∧
    (∀ (es : List (Value × Value)) (k : String),
      mapLookupV es (.vstr k) = none → getMember (.vmap .kString es) k = .vnil) := by
  refine ⟨fun crm ctx l k b hl => by simp [evalExpr, hl],
          fun crm ctx l k b v e hl herr => ?_,
          fun k => rfl,
          fun crm ctx l i hl => by simp [evalExpr, hl],
          fun crm ctx l i iv hl hi => by simp [evalExpr, hl, hi, derefChain],
          fun crm ctx l i v iv e hl hi herr => ?_,
          fun xs iv hiv => by cases iv <;> simp_all [indexResolve, toInt64],
          fun xs i hi => by simp [indexResolve, toInt64, hi],
          fun kk es iv k hk hmiss => by simp [indexResolve, hk, hmiss],
          fun es k hmiss => by simp [getMember, derefChain, hmiss]⟩
  · cases v <;> simp [evalExpr, hl] at herr
  · cases v with
    | vptr p =>
        cases hd : derefChain (.vptr p) with
        | none => simp [evalExpr, hl, hi, hd] at herr
        | some w => simp [evalExpr, hl, hi, hd] at herr
    | _ => simp [evalExpr, hl, hi, derefChain] at herr

/-- Witness for `c7_nil_safe`: a nil member chain, an out-of-range index
and a missing map key all resolve to nil without error. -/
theorem c7_nil_safe_witness :
    evalExpr noMethods { data := .vrec [("x", .vnil)], fns := defaultFuncs }
      (.memberE (.variableE "x") "anything" false) = .ok .vnil ∧
    indexResolve (.vlist [.vint 1]) (.vint 99) = .vnil ∧
    indexResolve (.vmap .kInt [(.vint 1, .vstr "one")]) (.vint 2) = .vnil :=
  ⟨c7_nil_safe.1 noMethods _ _ _ _ rfl,
   c7_nil_safe.2.2.2.2.2.2.2.1 [.vint 1] 99 (Or.inr (by decide)),
   c7_nil_safe.2.2.2.2.2.2.2.2.1 .kInt _ _ _ rfl rfl⟩

/-!
## Claim C10 — generic error on failed call fallback
-/

/-- Claim C10: when a call's (lowercased) name misses the registry and the
fallback reflective method invocation on the non-nil root data fails — for
any reason the reflective layer can fail, its own returned error included —
the call reports the generic "function or method … not found" error; the
underlying error `e` never propagates. -/
theorem c10_call_fallback_error (crm : ReflectOracle) (ctx : Context) (nm : String)
    (args : List Expr) (vs : List Value) (e : String)
    (hmiss : mapLookup ctx.fns (toLowerGo nm) = none)
    (hdata : ctx.data ≠ .vnil)
    (hargs : evalArgs crm ctx args = .ok vs)
    (hcall : crm ctx.data nm vs = .error e) :
    evalExpr crm ctx (.callE nm args) =
      .error ("function or method " ++ nm ++ " not found") := by
  rcases hd : ctx.data with _ | b | n | q | s | xs | kk | p | fs <;>
    rw [hd] at hdata hcall <;>
    first
    | exact absurd rfl hdata
    | simp [evalExpr, hmiss, hd, hargs, hcall]

/-- Witness for `c10_call_fallback_error`: an oracle failing with its own
error message still surfaces only the generic not-found error. -/
theorem c10_call_fallback_error_witness :
    evalExpr (fun _ _ _ => .error "boom") { data := .vint 1, fns := [] }
      (.callE "foo" []) = .error "function or method foo not found" :=
  c10_call_fallback_error (fun _ _ _ => .error "boom") { data := .vint 1, fns := [] }
    "foo" [] [] "boom" rfl (fun h => Value.noConfusion h) rfl rfl

/-!
## Claim C3 — the zero-argument `len` pseudo-method
-/

/-- Claim C3 as stated is false on one point: a receiver that evaluates to
plain nil does not reach the `len` special case at all — `MethodCallExpr`'s
nil short-circuit returns nil, not the integer 0. -/
theorem c3_counterexample :
    evalExpr noMethods ctx0 (.methodE (.literalE .vnil) "len" []) = .ok .vnil ∧
    Value.vnil ≠ Value.vint 0 :=
  ⟨rfl, fun h => Value.noConfusion h⟩

/-- Claim C3 amended: the zero-argument `len` pseudo-method, after
dereferencing the receiver's pointer chain, returns the
element/character/entry count for sequence-, string- or map-like receivers
and 0 when the pointer chain ends in nil, in both cases without consulting
the function registry (the conclusion holds for every registry snapshot
`ctx.fns` and every reflect oracle); a receiver that is plainly nil
short-circuits to nil — not 0 — before the special case applies. -/
theorem c3_len_pseudo_method :
    (∀ (crm : ReflectOracle) (ctx : Context) (l : Expr) (v w : Value),
      evalExpr crm ctx l = .ok v → v ≠ .vnil → derefChain v = some w →
      isSizedKind w = true →
      evalExpr crm ctx (.methodE l "len" []) = .ok (.vint (lenOf w))) ∧
    (∀ (crm : ReflectOracle) (ctx : Context) (l : Expr) (v : Value),
      evalExpr crm ctx l = .ok v → v ≠ .vnil → derefChain v = none →
      evalExpr crm ctx (.methodE l "len" []) = .ok (.vint 0)) ∧
    (∀ (crm : ReflectOracle) (ctx : Context) (l : Expr),
      evalExpr crm ctx l = .ok .vnil →
      evalExpr crm ctx (.methodE l "len" []) = .ok .vnil) := by
  refine ⟨fun crm ctx l v w hl hv hd hs => ?_, fun crm ctx l v hl hv hd => ?_,
          fun crm ctx l hl => by simp [evalExpr, hl]⟩
  · cases v <;> simp_all [evalExpr]
  · cases v <;> simp_all [evalExpr]

/-- Witness for `c3_len_pseudo_method`: a two-element list under a pointer
gives 2, a nil pointer gives 0, with an arbitrary (non-default) registry in
the context. -/
theorem c3_len_pseudo_method_witness :
    evalExpr noMethods { data := .vnil, fns := [] }
      (.methodE (.literalE (.vptr (some (.vlist [.vstr "go", .vstr "okra"])))) "len" []) =
      .ok (.vint 2) ∧
    evalExpr noMethods { data := .vnil, fns := [] }
      (.methodE (.literalE (.vptr none)) "len" []) = .ok (.vint 0) :=
  ⟨c3_len_pseudo_method.1 noMethods { data := .vnil, fns := [] }
      (.literalE (.vptr (some (.vlist [.vstr "go", .vstr "okra"]))))
      (.vptr (some (.vlist [.vstr "go", .vstr "okra"])))
      (.vlist [.vstr "go", .vstr "okra"])
      rfl (fun h => Value.noConfusion h) rfl rfl,
   c3_len_pseudo_method.2.1 noMethods { data := .vnil, fns := [] }
      (.literalE (.vptr none)) (.vptr none)
      rfl (fun h => Value.noConfusion h) rfl⟩

/-!
## Claim C2 — case sensitivity of registry lookup
-/

/-- A registered function returning the integer 42, used to exhibit
registry-lookup behaviour. -/
def constFn42 : CustomFunc := fun _ => .ok (.vint 42)

/-- Claim C2 as stated is false: registration does not lowercase the name,
only the call site does.  `RegisterFunc` accepts the name `Foo`, yet a call
written `foo` — differing only in case — lowercases to `foo`, misses the
`Foo` entry, and (with no root data to fall back on) fails with the
not-found error instead of resolving to the registered function. -/
theorem c2_counterexample :
    registerFunc defaultFuncs "Foo" (some constFn42) =
      .ok (mapInsert defaultFuncs "Foo" constFn42) ∧
    evalExpr noMethods { data := .vnil, fns := mapInsert defaultFuncs "Foo" constFn42 }
      (.callE "foo" []) = .error "function or method foo not found" :=
  ⟨rfl, rfl⟩

/-- Claim C2 amended: lookup lowercases only the call-site name, so a
function registered under `N` is found by exactly the calls whose names
lowercase to `N`; case-insensitive resolution therefore holds precisely
when `N` is itself all lowercase (as the built-ins are): then every call
name differing only in letter case lowercases to `N`, resolves to the
registered function, and the call evaluates by applying it to the
evaluated arguments — while a mixed-case `N` is unreachable by any call. -/
theorem c2_registry_lookup (fns : List (String × CustomFunc)) (name : String)
    (fn : CustomFunc) (fns2 : List (String × CustomFunc)) (callname : String)
    (hreg : registerFunc fns name (some fn) = .ok fns2)
    (hcall : toLowerGo callname = name) :
    mapLookup fns2 (toLowerGo callname) = some fn ∧
    ∀ (crm : ReflectOracle) (data : Value) (args : List Expr),
      evalExpr crm { data := data, fns := fns2 } (.callE callname args) =
        evalArgs crm { data := data, fns := fns2 } args >>= fn := by
  have hfns2 : fns2 = mapInsert fns name fn := by
    by_cases h : name = ""
    · rw [registerFunc, if_pos h] at hreg
      exact absurd hreg (fun hh => Except.noConfusion hh)
    · rw [registerFunc, if_neg h] at hreg
      exact (Except.ok.injEq _ _ ▸ hreg).symm
  have hfind : mapLookup fns2 (toLowerGo callname) = some fn := by
    rw [hcall, hfns2, mapLookup, mapInsert]
    simp
  refine ⟨hfind, fun crm data args => ?_⟩
  cases hargs : evalArgs crm { data := data, fns := fns2 } args with
  | error e => simp [evalExpr, hfind, hargs]
  | ok vs => simp [evalExpr, hfind, hargs]

/-- Witness for `c2_registry_lookup`: a function registered as `foo`
resolves under the call name `FOO`. -/
theorem c2_registry_lookup_witness :
    mapLookup (mapInsert [] "foo" constFn42) (toLowerGo "FOO") = some constFn42 ∧
    ∀ (crm : ReflectOracle) (data : Value) (args : List Expr),
      evalExpr crm { data := data, fns := mapInsert [] "foo" constFn42 }
        (.callE "FOO" args) =
        evalArgs crm { data := data, fns := mapInsert [] "foo" constFn42 } args >>= constFn42 :=
  c2_registry_lookup [] "foo" constFn42 (mapInsert [] "foo" constFn42) "FOO" rfl rfl

/-!
## Claim C9 — parser recursion depth cap
-/

/-- An expression of `n` nested parentheses around the literal `1`. -/
def nestParens (n : Nat) : String :=
  String.mk (List.replicate n '(' ++ '1' :: List.replicate n ')')

/-- Pulling a token off an opening parenthesis. -/
theorem nextToken_lparen (rest : List Char) :
    nextToken ('(' :: rest) = .ok (.tLParen, rest) := rfl

/-- Pulling a token off `1` followed by closing parentheses. -/
theorem nextToken_one_rp (nR : Nat) :
    nextToken ('1' :: List.replicate nR ')') = .ok (.tNumber "1", List.replicate nR ')') := by
  cases nR with
  | zero => rfl
  | succ r => rfl

/-- Pulling a token off a closing parenthesis. -/
theorem nextToken_rp (r : Nat) :
    nextToken (List.replicate (r + 1) ')') = .ok (.tRParen, List.replicate r ')') := by
  rw [List.replicate_succ]
  rfl

/-- One `advance` on a clean state, given the pulled token. -/
theorem advanceP_ok {c nx : Tok} {rest : List Char} {t2 : Tok} {r2 : List Char}
    (h : nextToken rest = .ok (t2, r2)) :
    advanceP ⟨c, nx, rest, none⟩ = ⟨nx, t2, r2, none⟩ := by
  simp [advanceP, h]

/-- The parser's depth guard: any call past the cap fails at once. -/
theorem parseP_depth_guard (f : Nat) (st : PState) (rbp d : Nat) (hd : 256 < d) :
    parseP (f + 1) st rbp d = .error "stack overflow" := by
  have : d > MaxStackDepth := by simpa [MaxStackDepth] using hd
  simp [parseP, this]

/-- One nesting level: a `(` as the current token sends `parse` one level
deeper, and an overflow of that deeper parse propagates out unchanged. -/
theorem parseP_lparen_level (f : Nat) (nx : Tok) (rest : List Char) (rbp d : Nat)
    (t2 : Tok) (r2 : List Char)
    (hd : d ≤ 256) (hpull : nextToken rest = .ok (t2, r2))
    (hrec : parseP f ⟨nx, t2, r2, none⟩ 0 (d + 1) = .error "stack overflow") :
    parseP (f + 2) ⟨.tLParen, nx, rest, none⟩ rbp d = .error "stack overflow" := by
  have hnd : ¬ d > MaxStackDepth := by simp [MaxStackDepth]; omega
  simp only [parseP, hnd, if_false, reduceIte, advanceP_ok hpull, nudP, hrec]

/-- From any state whose lookahead and input are opening parentheses
enough to exceed the cap from depth `d`, the parse overflows. -/
theorem parse_nest_overflow (m : Nat) : ∀ (d k fuel nR : Nat),
    257 - d ≤ m →
    256 < d + k + 2 →
    2 * m + 8 ≤ fuel →
    parseP fuel ⟨.tLParen, .tLParen, List.replicate k '(' ++ '1' :: List.replicate nR ')', none⟩ 0 d
      = .error "stack overflow" := by
  induction m with
  | zero =>
      intro d k fuel nR hm hk hf
      obtain ⟨f, rfl⟩ : ∃ f, fuel = f + 1 := ⟨fuel - 1, by omega⟩
      exact parseP_depth_guard f _ 0 d (by omega)
  | succ m ih =>
      intro d k fuel nR hm hk hf
      by_cases hd : 256 < d
      · obtain ⟨f, rfl⟩ : ∃ f, fuel = f + 1 := ⟨fuel - 1, by omega⟩
        exact parseP_depth_guard f _ 0 d hd
      · have hd' : d ≤ 256 := by omega
        obtain ⟨f, rfl⟩ : ∃ f, fuel = f + 2 := ⟨fuel - 2, by omega⟩
        cases k with
        | succ k' =>
            rw [List.replicate_succ, List.cons_append]
            exact parseP_lparen_level f _ _ 0 d _ _ hd' (nextToken_lparen _)
              (ih (d + 1) k' f nR (by omega) (by omega) (by omega))
        | zero =>
            rw [List.replicate, List.nil_append]
            by_cases h256 : d = 256
            · subst h256
              obtain ⟨g, rfl⟩ : ∃ g, f = g + 1 := ⟨f - 1, by omega⟩
              exact parseP_lparen_level (g + 1) _ _ 0 256 _ _ le_rfl (nextToken_one_rp nR)
                (parseP_depth_guard g _ 0 257 (by omega))
            · have h255 : d = 255 := by omega
              subst h255
              obtain ⟨f2, rfl⟩ : ∃ g, f = g + 2 := ⟨f - 2, by omega⟩
              obtain ⟨g, rfl⟩ : ∃ g, f2 = g + 1 := ⟨f2 - 1, by omega⟩
              refine parseP_lparen_level _ _ _ 0 255 _ _ (by omega) (nextToken_one_rp nR) ?_
              cases nR with
              | zero =>
                  exact parseP_lparen_level (g + 1) _ _ 0 256 .tEOF [] le_rfl (by rfl)
                    (parseP_depth_guard g _ 0 257 (by omega))
              | succ r =>
                  exact parseP_lparen_level (g + 1) _ _ 0 256 _ _ le_rfl (nextToken_rp r)
                    (parseP_depth_guard g _ 0 257 (by omega))

set_option maxRecDepth 40000 in
/-- Claim C9: the parser's recursion depth — incremented for each nested
parenthesis, unary operator or operand — is capped at `MaxStackDepth = 256`.
Any `parse` call past the cap returns the recoverable "stack overflow"
error at once (first conjunct); in particular every input whose parenthesis
nesting exceeds the cap parses to that error (second conjunct), while 256
levels of nesting — the cap itself — still parse successfully (third
conjunct).  The model parser is a total Lean function, so no input makes
it crash or recurse unboundedly. -/
theorem c9_depth_cap :
    (∀ (fuel : Nat) (st : PState) (rbp depth : Nat), depth > MaxStackDepth →
      parseP (fuel + 1) st rbp depth = .error "stack overflow") ∧
    (∀ n : Nat, n > MaxStackDepth →
      parseExprStr (nestParens n) = .error "stack overflow") ∧
    parseExprStr (nestParens MaxStackDepth) = .ok (.literalE (.vint 1)) := by
  refine ⟨fun fuel st rbp depth hd => parseP_depth_guard fuel st rbp depth hd,
    fun n hn => ?_, rfl⟩
  rw [MaxStackDepth] at hn
  obtain ⟨k, rfl⟩ : ∃ k, n = k + 2 := ⟨n - 2, by omega⟩
  have hst : initState (nestParens (k + 2)) =
      ⟨.tLParen, .tLParen, List.replicate k '(' ++ '1' :: List.replicate (k + 2) ')', none⟩ := by
    rw [initState, nestParens]
    rw [show (String.mk (List.replicate (k+2) '(' ++ '1' :: List.replicate (k+2) ')')).toList
        = List.replicate (k+2) '(' ++ '1' :: List.replicate (k+2) ')' from rfl]
    rw [List.replicate_succ, List.replicate_succ, List.cons_append, List.cons_append]
    rw [advanceP_ok (nextToken_lparen _), advanceP_ok (nextToken_lparen _)]
  have hov := parse_nest_overflow 257 0 k (parseFuel (nestParens (k + 2))) (k + 2)
    (by omega) (by omega) (by rw [parseFuel]; omega)
  rw [parseExprStr, hst, hov]

/-- Witness for `c9_depth_cap`: the guard fires for a concrete call at
depth 300, and 257 nested parentheses overflow end to end. -/
theorem c9_depth_cap_witness :
    parseP 1 (initState "1") 0 300 = .error "stack overflow" ∧
    parseExprStr (nestParens 257) = .error "stack overflow" :=
  ⟨c9_depth_cap.1 0 (initState "1") 0 300 (by decide),
   c9_depth_cap.2.1 257 (by decide)⟩


theorem takeWhile_app_all (p : Char → Bool) (xs ys : List Char) (hxs : xs.all p = true)
    (hys : headNotP p ys = true) : (xs ++ ys).takeWhile p = xs := by
  induction xs with
  | nil =>
      cases ys with
      | nil => rfl
      | cons y t => simp [headNotP] at hys; simp [List.takeWhile, hys]
  | cons x xs ih =>
      rw [List.all_cons, Bool.and_eq_true] at hxs
      simp [List.takeWhile, hxs.1, ih hxs.2]

theorem dropWhile_app_all (p : Char → Bool) (xs ys : List Char) (hxs : xs.all p = true)
    (hys : headNotP p ys = true) : (xs ++ ys).dropWhile p = ys := by
  induction xs with
  | nil =>
      cases ys with
      | nil => rfl
      | cons y t => simp [headNotP] at hys; simp [List.dropWhile, hys]
  | cons x xs ih =>
      rw [List.all_cons, Bool.and_eq_true] at hxs
      simp [List.dropWhile, hxs.1, ih hxs.2]

theorem mk_toList (s : String) : String.mk s.toList = s := by
  cases s
  rfl

theorem char_ne_of_toNat {c d : Char} (h : c.toNat ≠ d.toNat) : c ≠ d :=
  fun hc => h (by rw [hc])

theorem identHead_toNat {c : Char} (h : (isLetterGo c || c = '_') = true) :
    (65 ≤ c.toNat ∧ c.toNat ≤ 90) ∨ (97 ≤ c.toNat ∧ c.toNat ≤ 122) ∨ c.toNat = 95 := by
  rw [Bool.or_eq_true] at h
  rcases h with h | h
  · simp [isLetterGo] at h
    omega
  · rw [decide_eq_true_iff] at h
    subst h
    right; right; decide

theorem isSpaceGo_false_of_ge (c : Char) (h : 33 ≤ c.toNat) : isSpaceGo c = false := by
  have h1 : c ≠ ' ' := char_ne_of_toNat (by intro hc; rw [hc] at h; exact absurd h (by decide))
  have h2 : c ≠ '\t' := char_ne_of_toNat (by intro hc; rw [hc] at h; exact absurd h (by decide))
  have h3 : c ≠ '\n' := char_ne_of_toNat (by intro hc; rw [hc] at h; exact absurd h (by decide))
  have h4 : c ≠ '\r' := char_ne_of_toNat (by intro hc; rw [hc] at h; exact absurd h (by decide))
  have h5 : c.toNat ≠ 11 := by omega
  have h6 : c.toNat ≠ 12 := by omega
  simp [isSpaceGo, h1, h2, h3, h4, h5, h6]

theorem identHead_facts {c : Char} (h : (isLetterGo c || c = '_') = true) :
    isSpaceGo c = false ∧ isDigitC c = false := by
  have hr := identHead_toNat h
  constructor
  · exact isSpaceGo_false_of_ge c (by omega)
  · simp [isDigitC]
    omega

theorem nextToken_ident (s : String) (r : List Char) (hs : identShaped s = true)
    (hr : headNotP isIdentChar r = true) :
    nextToken (s.toList ++ r) = .ok (.tIdent s, r) := by
  obtain ⟨c, rest, hsl⟩ : ∃ c rest, s.toList = c :: rest := by
    cases h : s.toList with
    | nil => unfold identShaped at hs; rw [h] at hs; exact absurd hs (by decide)
    | cons a b => exact ⟨a, b, rfl⟩
  unfold identShaped at hs
  rw [hsl, Bool.and_eq_true] at hs
  obtain ⟨hc, hrest⟩ := hs
  obtain ⟨hsp, hdig⟩ := identHead_facts hc
  rw [hsl, List.cons_append]
  rw [nextToken]
  simp only [List.dropWhile, hsp]
  simp only [hdig, hc, Bool.false_eq_true, if_false, if_true,
    takeWhile_app_all isIdentChar rest r hrest hr,
    dropWhile_app_all isIdentChar rest r hrest hr]
  rw [← hsl, mk_toList]

theorem nextToken_number (s : String) (r : List Char) (hs : numShaped s = true)
    (hr : headNotP isNumChar r = true) :
    nextToken (s.toList ++ r) = .ok (.tNumber s, r) := by
  obtain ⟨c, rest, hsl⟩ : ∃ c rest, s.toList = c :: rest := by
    cases h : s.toList with
    | nil => unfold numShaped at hs; rw [h] at hs; exact absurd hs (by decide)
    | cons a b => exact ⟨a, b, rfl⟩
  unfold numShaped at hs
  rw [hsl, Bool.and_eq_true] at hs
  obtain ⟨hc, hrest⟩ := hs
  have hdig : 48 ≤ c.toNat ∧ c.toNat ≤ 57 := by simp [isDigitC] at hc; omega
  have hsp : isSpaceGo c = false := isSpaceGo_false_of_ge c (by omega)
  rw [hsl, List.cons_append]
  rw [nextToken]
  simp only [List.dropWhile, hsp]
  simp only [hc, if_true,
    takeWhile_app_all isNumChar rest r hrest hr,
    dropWhile_app_all isNumChar rest r hrest hr]
  rw [← hsl, mk_toList]

theorem hexVal_hexDigitChar (v : Nat) (h : v < 16) : hexVal (hexDigitChar v) = some v := by
  interval_cases v <;> rfl

theorem lexString_step_escq (f : Nat) (tail : List Char) :
    lexString cQuoteD (f + 1) (cBackslash :: cQuoteD :: tail) =
      match lexString cQuoteD f tail with
      | .ok r => .ok (cQuoteD :: r.1, r.2)
      | .error e => .error e := rfl

theorem lexString_step_escbs (f : Nat) (tail : List Char) :
    lexString cQuoteD (f + 1) (cBackslash :: cBackslash :: tail) =
      match lexString cQuoteD f tail with
      | .ok r => .ok (cBackslash :: r.1, r.2)
      | .error e => .error e := rfl

theorem lexString_step_escn (f : Nat) (tail : List Char) :
    lexString cQuoteD (f + 1) (cBackslash :: 'n' :: tail) =
      match lexString cQuoteD f tail with
      | .ok r => .ok ('\n' :: r.1, r.2)
      | .error e => .error e := rfl

theorem lexString_step_escr (f : Nat) (tail : List Char) :
    lexString cQuoteD (f + 1) (cBackslash :: 'r' :: tail) =
      match lexString cQuoteD f tail with
      | .ok r => .ok ('\r' :: r.1, r.2)
      | .error e => .error e := rfl

theorem lexString_step_esct (f : Nat) (tail : List Char) :
    lexString cQuoteD (f + 1) (cBackslash :: 't' :: tail) =
      match lexString cQuoteD f tail with
      | .ok r => .ok ('\t' :: r.1, r.2)
      | .error e => .error e := rfl

theorem hexDigits_pair (v : Nat) (h : v < 256) :
    hexDigits [hexDigitChar (v / 16), hexDigitChar (v % 16)] = some v := by
  have h1 := hexVal_hexDigitChar (v / 16) (by omega)
  have h2 := hexVal_hexDigitChar (v % 16) (by omega)
  simp [hexDigits, h1, h2]
  omega

theorem lexString_step_eschex (f : Nat) (c : Char) (tail : List Char)
    (h : c.toNat < 256) :
    lexString cQuoteD (f + 1)
      (cBackslash :: 'x' :: hexDigitChar (c.toNat / 16) :: hexDigitChar (c.toNat % 16) :: tail) =
      match lexString cQuoteD f tail with
      | .ok r => .ok (c :: r.1, r.2)
      | .error e => .error e := by
  have hx : unquoteChar cQuoteD
      (cBackslash :: 'x' :: hexDigitChar (c.toNat / 16) :: hexDigitChar (c.toNat % 16) :: tail) =
      some (c, tail) := by
    rw [unquoteChar]
    simp only [if_neg (by decide : ¬ ((cBackslash : Char) ≠ cBackslash))]
    norm_num
    rw [hexDigits_pair c.toNat h]
    simp [Char.ofNat_toNat]
    rw [if_neg (by decide : ¬ (('x' : Char) = cBackslash)),
      if_neg (by decide : ¬ (('x' : Char) = cQuoteS)),
      if_neg (by decide : ¬ (('x' : Char) = cQuoteD))]
  rw [lexString]
  simp only [if_neg (by decide : ¬ (cBackslash = cQuoteD)),
    if_pos (rfl : cBackslash = cBackslash),
    if_neg (by decide : ¬ (('x' : Char) = cQuoteD)), hx]
  simp only [if_true]

theorem lexString_step_plain (f : Nat) (c : Char) (tail : List Char)
    (h1 : ¬ c = cQuoteD) (h2 : ¬ c = cBackslash) :
    lexString cQuoteD (f + 1) (c :: tail) =
      match lexString cQuoteD f tail with
      | .ok r => .ok (c :: r.1, r.2)
      | .error e => .error e := by
  have h : lexString cQuoteD (f + 1) (c :: tail) =
      (if c = cQuoteD then .ok ([], tail)
       else if c = cBackslash then
         (match tail with
          | d :: rest2 =>
              if d = cQuoteD then
                match lexString cQuoteD f rest2 with
                | .ok r => .ok (cQuoteD :: r.1, r.2)
                | .error e => .error e
              else
                match unquoteChar cQuoteD (c :: tail) with
                | some (ch, rest3) =>
                    match lexString cQuoteD f rest3 with
                    | .ok r => .ok (ch :: r.1, r.2)
                    | .error e => .error e
                | none => .error "invalid syntax"
          | [] => .error "invalid syntax")
       else
         match lexString cQuoteD f tail with
         | .ok r => .ok (c :: r.1, r.2)
         | .error e => .error e) := rfl
  rw [h, if_neg h1, if_neg h2]

theorem quoteChar_cases (c : Char) :
    (c = cQuoteD ∧ quoteChar c = [cBackslash, cQuoteD]) ∨
    (c = cBackslash ∧ quoteChar c = [cBackslash, cBackslash]) ∨
    (c = '\n' ∧ quoteChar c = [cBackslash, 'n']) ∨
    (c = '\r' ∧ quoteChar c = [cBackslash, 'r']) ∨
    (c = '\t' ∧ quoteChar c = [cBackslash, 't']) ∨
    ((c.toNat < 32 ∨ c.toNat = 127) ∧
      quoteChar c = [cBackslash, 'x', hexDigitChar (c.toNat / 16), hexDigitChar (c.toNat % 16)]) ∨
    (¬ c = cQuoteD ∧ ¬ c = cBackslash ∧ 32 ≤ c.toNat ∧ ¬ c.toNat = 127 ∧ quoteChar c = [c]) := by
  by_cases hq : c = cQuoteD
  · exact Or.inl ⟨hq, by rw [quoteChar, if_pos hq]⟩
  by_cases hb : c = cBackslash
  · exact Or.inr (Or.inl ⟨hb, by rw [quoteChar, if_neg hq, if_pos hb]⟩)
  by_cases hn : c = '\n'
  · exact Or.inr (Or.inr (Or.inl ⟨hn, by rw [quoteChar, if_neg hq, if_neg hb, if_pos hn]⟩))
  by_cases hr : c = '\r'
  · exact Or.inr (Or.inr (Or.inr (Or.inl ⟨hr, by
      rw [quoteChar, if_neg hq, if_neg hb, if_neg hn, if_pos hr]⟩)))
  by_cases ht : c = '\t'
  · exact Or.inr (Or.inr (Or.inr (Or.inr (Or.inl ⟨ht, by
      rw [quoteChar, if_neg hq, if_neg hb, if_neg hn, if_neg hr, if_pos ht]⟩))))
  by_cases hc : c.toNat < 32 ∨ c.toNat = 127
  · exact Or.inr (Or.inr (Or.inr (Or.inr (Or.inr (Or.inl ⟨hc, by
      rw [quoteChar, if_neg hq, if_neg hb, if_neg hn, if_neg hr, if_neg ht, if_pos hc]⟩)))))
  · push_neg at hc
    exact Or.inr (Or.inr (Or.inr (Or.inr (Or.inr (Or.inr
      ⟨hq, hb, hc.1, hc.2, by
        rw [quoteChar, if_neg hq, if_neg hb, if_neg hn, if_neg hr, if_neg ht]
        rw [if_neg (by push_neg; exact hc)]⟩)))))

theorem lexString_esc (cs : List Char) : ∀ (fuel : Nat) (r : List Char),
    (cs.flatMap quoteChar).length + 1 ≤ fuel →
    lexString cQuoteD fuel (cs.flatMap quoteChar ++ cQuoteD :: r) = .ok (cs, r) := by
  induction cs with
  | nil =>
      intro fuel r hf
      obtain ⟨f, rfl⟩ : ∃ f, fuel = f + 1 := ⟨fuel - 1, by omega⟩
      simp [lexString]
  | cons c cs ih =>
      intro fuel r hf
      rw [List.flatMap_cons] at hf ⊢
      rw [List.append_assoc]
      rcases quoteChar_cases c with ⟨hc, hqc⟩ | ⟨hc, hqc⟩ | ⟨hc, hqc⟩ | ⟨hc, hqc⟩ |
        ⟨hc, hqc⟩ | ⟨hc, hqc⟩ | ⟨h1, h2, h3, h4, hqc⟩
      all_goals rw [hqc] at hf ⊢
      all_goals simp only [List.length_append, List.length_cons, List.length_nil] at hf
      all_goals obtain ⟨f, rfl⟩ : ∃ f, fuel = f + 1 := ⟨fuel - 1, by omega⟩
      · subst hc
        rw [List.cons_append, List.cons_append, List.nil_append, lexString_step_escq,
          ih f r (by omega)]
      · subst hc
        rw [List.cons_append, List.cons_append, List.nil_append, lexString_step_escbs,
          ih f r (by omega)]
      · subst hc
        rw [List.cons_append, List.cons_append, List.nil_append, lexString_step_escn,
          ih f r (by omega)]
      · subst hc
        rw [List.cons_append, List.cons_append, List.nil_append, lexString_step_escr,
          ih f r (by omega)]
      · subst hc
        rw [List.cons_append, List.cons_append, List.nil_append, lexString_step_esct,
          ih f r (by omega)]
      · rw [List.cons_append, List.cons_append, List.cons_append, List.cons_append,
          List.nil_append, lexString_step_eschex f c _ (by omega), ih f r (by omega)]
      · rw [List.cons_append, List.nil_append, lexString_step_plain f c _ h1 h2,
          ih f r (by omega)]

theorem nextToken_string (s : String) (r : List Char) :
    nextToken ((goQuote s).toList ++ r) = .ok (.tString s, r) := by
  rw [show (goQuote s).toList = cQuoteD :: (s.toList.flatMap quoteChar ++ [cQuoteD]) from rfl]
  rw [List.cons_append, List.append_assoc, List.cons_append, List.nil_append]
  rw [nextToken]
  simp only [List.dropWhile, show isSpaceGo cQuoteD = false from rfl]
  simp only [show isDigitC cQuoteD = false from rfl,
    show (isLetterGo cQuoteD || cQuoteD = '_') = false from rfl,
    show (cQuoteD = cQuoteD || cQuoteD = cQuoteS) = true from rfl,
    Bool.false_eq_true, if_false, if_true]
  rw [lexString_esc s.toList _ r (by simp)]
  simp [mk_toList]

theorem nextToken_rparen (x : List Char) : nextToken (')' :: x) = .ok (.tRParen, x) := rfl

theorem nextToken_lbrack (x : List Char) : nextToken ('[' :: x) = .ok (.tOp "[", x) := rfl

theorem nextToken_rbrack (x : List Char) : nextToken (']' :: x) = .ok (.tOp "]", x) := rfl

theorem nextToken_comma (x : List Char) : nextToken (',' :: x) = .ok (.tComma, x) := rfl

theorem nextToken_dot (x : List Char) : nextToken ('.' :: x) = .ok (.tOp ".", x) := rfl

theorem nextToken_qmark (x : List Char) :
    nextToken ('?' :: ' ' :: x) = .ok (.tOp "?", ' ' :: x) := rfl

theorem nextToken_colon (x : List Char) :
    nextToken (':' :: ' ' :: x) = .ok (.tOp ":", ' ' :: x) := rfl

theorem nextToken_space (x : List Char) : nextToken (' ' :: x) = nextToken x := rfl

theorem nextToken_minus (c : Char) (x : List Char) :
    nextToken ('-' :: c :: x) = .ok (.tOp "-", c :: x) := rfl

theorem nextToken_minus_nil : nextToken ['-'] = .ok (.tOp "-", []) := rfl

theorem nextToken_tilde (c : Char) (x : List Char) :
    nextToken ('~' :: c :: x) = .ok (.tOp "~", c :: x) := rfl

theorem nextToken_bang (c : Char) (x : List Char) (h : ¬ c = '=') :
    nextToken ('!' :: c :: x) = .ok (.tOp "!", c :: x) := by
  have h0 : nextToken ('!' :: c :: x) =
      (if '!' = '=' ∧ c = '=' then Except.ok (Tok.tOp "==", x)
       else if '!' = '!' ∧ c = '=' then Except.ok (Tok.tOp "!=", x)
       else if '!' = '<' ∧ c = '=' then Except.ok (Tok.tOp "<=", x)
       else if '!' = '>' ∧ c = '=' then Except.ok (Tok.tOp ">=", x)
       else if '!' = '&' ∧ c = '&' then Except.ok (Tok.tOp "&&", x)
       else if '!' = '|' ∧ c = '|' then Except.ok (Tok.tOp "||", x)
       else if '!' = '<' ∧ c = '<' then Except.ok (Tok.tOp "<<", x)
       else if '!' = '>' ∧ c = '>' then Except.ok (Tok.tOp ">>", x)
       else Except.ok (Tok.tOp (String.mk ['!']), c :: x)) := rfl
  rw [h0, if_neg (fun hh => absurd hh.1 (by decide)),
    if_neg (fun hh => h hh.2),
    if_neg (fun hh => absurd hh.1 (by decide)),
    if_neg (fun hh => absurd hh.1 (by decide)),
    if_neg (fun hh => absurd hh.1 (by decide)),
    if_neg (fun hh => absurd hh.1 (by decide)),
    if_neg (fun hh => absurd hh.1 (by decide)),
    if_neg (fun hh => absurd hh.1 (by decide))]

theorem nextToken_binop (op : String) (hop : opOK op = true) (x : List Char) :
    nextToken (op.toList ++ ' ' :: x) = .ok (.tOp op, ' ' :: x) := by
  rw [opOK] at hop
  simp only [Bool.or_eq_true, decide_eq_true_iff] at hop
  rcases hop with (((((((((((((((((h | h) | h) | h) | h) | h) | h) | h) | h) | h) | h) | h) | h) | h) | h) | h) | h) | h) <;> subst h <;> rfl

theorem toList_append (a b : String) : (a ++ b).toList = a.toList ++ b.toList := rfl

theorem digit_char_spec (k : Nat) (h : k < 10) :
    digitVal (Char.ofNat (48 + k)) = k ∧ isDigitC (Char.ofNat (48 + k)) = true := by
  interval_cases k <;> exact ⟨rfl, rfl⟩

theorem natDecDigitsAux_spec : ∀ fuel n, n < fuel →
    (natDecDigitsAux fuel n).all isDigitC = true ∧
    digitsToNat (natDecDigitsAux fuel n) = n ∧
    natDecDigitsAux fuel n ≠ [] := by
  intro fuel
  induction fuel with
  | zero => intro n hn; omega
  | succ f ih =>
      intro n hn
      simp only [natDecDigitsAux]
      by_cases h10 : n < 10
      · rw [if_pos h10]
        have hd := digit_char_spec (n % 10) (Nat.mod_lt _ (by norm_num))
        refine ⟨by simp [hd.2], ?_, by simp⟩
        simp [digitsToNat, hd.1]
        omega
      · rw [if_neg h10]
        have hrec := ih (n / 10) (by omega)
        have hd := digit_char_spec (n % 10) (Nat.mod_lt _ (by norm_num))
        refine ⟨by simp [List.all_append, hrec.1, hd.2], ?_, by simp⟩
        rw [digitsToNat, List.foldl_append]
        rw [show List.foldl (fun acc c => 10 * acc + digitVal c) 0 (natDecDigitsAux f (n / 10))
            = digitsToNat (natDecDigitsAux f (n / 10)) from rfl, hrec.2.1]
        simp [hd.1]
        omega

theorem natDecDigits_spec (n : Nat) :
    (natDecDigits n).all isDigitC = true ∧
    digitsToNat (natDecDigits n) = n ∧ natDecDigits n ≠ [] :=
  natDecDigitsAux_spec (n + 1) n (by omega)

theorem isNumChar_of_digit {c : Char} (h : isDigitC c = true) : isNumChar c = true := by
  simp [isNumChar, h]

theorem digit_ne {c : Char} (h : isDigitC c = true) :
    ¬ c = '.' ∧ ¬ c = '-' ∧ ¬ c = '+' ∧ isSpaceGo c = false ∧ (isLetterGo c || c = '_') = false := by
  simp [isDigitC] at h
  refine ⟨char_ne_of_toNat (show c.toNat ≠ 46 by omega),
    char_ne_of_toNat (show c.toNat ≠ 45 by omega),
    char_ne_of_toNat (show c.toNat ≠ 43 by omega),
    isSpaceGo_false_of_ge c (by omega), ?_⟩
  have h1 : isLetterGo c = false := by simp [isLetterGo]; omega
  have h2 : ¬ c = '_' := char_ne_of_toNat (show c.toNat ≠ 95 by omega)
  simp [h1, h2]

theorem no_dot_of_digits {l : List Char} (h : l.all isDigitC = true) :
    l.contains '.' = false := by
  induction l with
  | nil => rfl
  | cons c t ih =>
      rw [List.all_cons, Bool.and_eq_true] at h
      have hc : ¬ c = '.' := (digit_ne h.1).1
      simp only [List.contains_cons, ih h.2, Bool.or_false, beq_eq_false_iff_ne, ne_eq]
      exact fun hh => hc hh.symm

theorem numShaped_of_digits {l : List Char} (hall : l.all isDigitC = true) (hne : l ≠ []) :
    numShaped (String.mk l) = true := by
  cases l with
  | nil => exact absurd rfl hne
  | cons c t =>
      rw [List.all_cons, Bool.and_eq_true] at hall
      rw [numShaped]
      simp only [show (String.mk (c :: t)).toList = c :: t from rfl, Bool.and_eq_true]
      refine ⟨hall.1, ?_⟩
      have hr := hall.2
      rw [List.all_eq_true] at hr ⊢
      exact fun x hx => isNumChar_of_digit (hr x hx)

theorem goParseInt_digits {l : List Char} (hall : l.all isDigitC = true) (hne : l ≠ [])
    (hlt : (digitsToNat l : Int) < two63) :
    goParseInt (String.mk l) = ((digitsToNat l : Int), true) := by
  obtain ⟨c, t, rfl⟩ : ∃ c t, l = c :: t := by
    cases l with
    | nil => exact absurd rfl hne
    | cons a b => exact ⟨a, b, rfl⟩
  have hc : isDigitC c = true := by
    rw [List.all_cons, Bool.and_eq_true] at hall; exact hall.1
  obtain ⟨_, hm, hp, _, _⟩ := digit_ne hc
  rw [goParseInt]
  simp only [show (String.mk (c :: t)).toList = c :: t from rfl]
  rw [if_neg hm, if_neg hp]
  rw [if_neg (by simp [hall])]
  rw [show ((false, c :: t) : Bool × List Char).2 = c :: t from rfl,
    show ((false, c :: t) : Bool × List Char).1 = false from rfl]
  rw [if_neg (show ¬ false = true by decide)]
  rw [if_neg (by unfold two63 at hlt ⊢; omega)]

/-- The printed form of an in-range non-negative integer literal re-parses
to the same integer. -/
theorem intToDecimal_roundtrip (n : Int) (h0 : 0 ≤ n) (h63 : n < two63) :
    (intToDecimal n).toList.contains '.' = false ∧
    numShaped (intToDecimal n) = true ∧
    goParseInt (intToDecimal n) = (n, true) := by
  obtain ⟨hall, hval, hne⟩ := natDecDigits_spec n.toNat
  have hn : (digitsToNat (natDecDigits n.toNat) : Int) = n := by
    rw [hval]; exact Int.toNat_of_nonneg h0
  rw [intToDecimal, if_neg (by omega)]
  refine ⟨?_, numShaped_of_digits hall hne, ?_⟩
  · rw [show (String.mk (natDecDigits n.toNat)).toList = natDecDigits n.toNat from rfl]
    exact no_dot_of_digits hall
  · rw [goParseInt_digits hall hne (by rw [hn]; exact h63), hn]

theorem initState_eq_mkSt (s : String) : initState s = mkSt s.toList := rfl

theorem mkSt_nil : mkSt [] = ⟨.tEOF, .tEOF, [], none⟩ := rfl

theorem mkSt_fields {l l1 l2 : List Char} {t u : Tok}
    (h1 : nextToken l = .ok (t, l1)) (h2 : nextToken l1 = .ok (u, l2)) :
    mkSt l = ⟨t, u, l2, none⟩ := by
  rw [mkSt, advanceP_ok h1, advanceP_ok h2]

theorem advanceP_curr_irrel (c c' n : Tok) (r : List Char) (er : Option String) :
    advanceP ⟨c, n, r, er⟩ = advanceP ⟨c', n, r, er⟩ := by
  cases er with
  | some e => rfl
  | none =>
      cases h : nextToken r with
      | ok p => simp [advanceP, h]
      | error e => simp [advanceP, h]

theorem advanceP_mkSt {l l1 : List Char} {t : Tok} (h : nextToken l = .ok (t, l1)) :
    advanceP (mkSt l) = mkSt l1 := by
  cases h2 : nextToken l1 with
  | ok p =>
      obtain ⟨u, l2⟩ := p
      rw [mkSt, advanceP_ok h, advanceP_ok h2, mkSt, advanceP_ok h2]
      exact advanceP_curr_irrel t .tEOF u l2 none
  | error e =>
      rw [mkSt, advanceP_ok h, mkSt]
      have e1 : advanceP ⟨.tEOF, t, l1, none⟩ = ⟨t, .tEOF, l1, some e⟩ := by
        simp [advanceP, h2]
      have e2 : advanceP ⟨.tEOF, .tEOF, l1, none⟩ = ⟨.tEOF, .tEOF, l1, some e⟩ := by
        simp [advanceP, h2]
      rw [e1, e2]
      rfl

theorem mkSt_space {x : List Char} {t : Tok} {m : List Char}
    (h : nextToken x = .ok (t, m)) : mkSt (' ' :: x) = mkSt x := by
  rw [mkSt, mkSt,
    advanceP_ok (show nextToken (' ' :: x) = .ok (t, m) by rw [nextToken_space, h]),
    advanceP_ok h]

theorem pulls_nil : ∀ n, pulls n [] = .ok [] := by
  intro n
  induction n with
  | zero => rfl
  | succ k ih => rw [show pulls (k + 1) [] = pulls k [] from rfl, ih]

theorem streamOK_nil : streamOK [] := fun n => ⟨[], pulls_nil n⟩

theorem streamOK_cons {l m : List Char} {t : Tok} (h : nextToken l = .ok (t, m))
    (hm : streamOK m) : streamOK l := by
  intro n
  cases n with
  | zero => exact ⟨l, rfl⟩
  | succ k =>
      obtain ⟨x, hx⟩ := hm k
      refine ⟨x, ?_⟩
      rw [pulls, h]
      exact hx

theorem streamOK_pull {l : List Char} (h : streamOK l) :
    ∃ t m, nextToken l = .ok (t, m) ∧ streamOK m := by
  obtain ⟨x, hx⟩ := h 1
  cases hn : nextToken l with
  | error e =>
      rw [pulls, hn] at hx
      cases hx
  | ok p =>
      obtain ⟨t, m⟩ := p
      refine ⟨t, m, rfl, fun n => ?_⟩
      obtain ⟨y, hy⟩ := h (n + 1)
      rw [pulls, hn] at hy
      exact ⟨y, hy⟩

theorem streamOK_space {x : List Char} (h : streamOK x) : streamOK (' ' :: x) := by
  intro n
  cases n with
  | zero => exact ⟨' ' :: x, rfl⟩
  | succ k =>
      obtain ⟨y, hy⟩ := h (k + 1)
      refine ⟨y, ?_⟩
      rw [pulls, nextToken_space]
      rw [pulls] at hy
      exact hy

theorem nextToken_digit_head {c : Char} (h : isDigitC c = true) (y : List Char) :
    ∃ s m, nextToken (c :: y) = .ok (.tNumber s, m) := by
  obtain ⟨_, _, _, hsp, _⟩ := digit_ne h
  rw [nextToken]
  simp only [List.dropWhile, hsp]
  rw [if_pos h]
  exact ⟨_, _, rfl⟩

theorem nextToken_identHead {c : Char} (h : (isLetterGo c || c = '_') = true) (y : List Char) :
    ∃ s m, nextToken (c :: y) = .ok (.tIdent s, m) := by
  obtain ⟨hsp, hdig⟩ := identHead_facts h
  rw [nextToken]
  simp only [List.dropWhile, hsp]
  rw [if_neg (by simp [hdig]), if_pos h]
  exact ⟨_, _, rfl⟩

theorem shape_memberE (l : Expr) (k : String) (x : List Char) :
    (astString (.memberE l k false)).toList ++ x =
      (astString l).toList ++ '.' :: (k.toList ++ x) := by
  rw [show astString (.memberE l k false) = astString l ++ "." ++ k from rfl]
  simp only [toList_append, List.append_assoc]
  rfl

theorem shape_indexE (l i : Expr) (x : List Char) :
    (astString (.indexE l i)).toList ++ x =
      (astString l).toList ++ '[' :: ((astString i).toList ++ ']' :: x) := by
  rw [show astString (.indexE l i) = astString l ++ "[" ++ astString i ++ "]" from rfl]
  simp only [toList_append, List.append_assoc]
  rfl

theorem shape_methodE (l : Expr) (m : String) (args : List Expr) (x : List Char) :
    (astString (.methodE l m args)).toList ++ x =
      (astString l).toList ++ '.' :: (m.toList ++ '(' :: ((argsString args).toList ++ ')' :: x)) := by
  rw [show astString (.methodE l m args)
      = astString l ++ "." ++ m ++ "(" ++ argsString args ++ ")" from rfl]
  simp only [toList_append, List.append_assoc]
  rfl

theorem shape_callE (n : String) (args : List Expr) (x : List Char) :
    (astString (.callE n args)).toList ++ x =
      n.toList ++ '(' :: ((argsString args).toList ++ ')' :: x) := by
  rw [show astString (.callE n args) = n ++ "(" ++ argsString args ++ ")" from rfl]
  simp only [toList_append, List.append_assoc]
  rfl

theorem shape_unaryE (op : String) (r : Expr) (x : List Char) :
    (astString (.unaryE op r)).toList ++ x =
      '(' :: (op.toList ++ ((astString r).toList ++ ')' :: x)) := by
  rw [show astString (.unaryE op r) = "(" ++ op ++ astString r ++ ")" from rfl]
  simp only [toList_append, List.append_assoc]
  rfl

theorem shape_binE (l : Expr) (op : String) (r : Expr) (x : List Char) :
    (astString (.binE l op r)).toList ++ x =
      '(' :: ((astString l).toList ++ ' ' :: (op.toList ++ ' ' :: ((astString r).toList ++ ')' :: x))) := by
  rw [show astString (.binE l op r)
      = "(" ++ astString l ++ " " ++ op ++ " " ++ astString r ++ ")" from rfl]
  simp only [toList_append, List.append_assoc]
  rfl

theorem shape_ternE (c t e : Expr) (x : List Char) :
    (astString (.ternE c t e)).toList ++ x =
      '(' :: ((astString c).toList ++ ' ' :: '?' :: ' ' ::
        ((astString t).toList ++ ' ' :: ':' :: ' ' :: ((astString e).toList ++ ')' :: x))) := by
  rw [show astString (.ternE c t e)
      = "(" ++ astString c ++ " ? " ++ astString t ++ " : " ++ astString e ++ ")" from rfl]
  simp only [toList_append, List.append_assoc]
  rfl

theorem shape_args_nil (x : List Char) : (argsString []).toList ++ x = x := rfl

theorem shape_args_one (a : Expr) (x : List Char) :
    (argsString [a]).toList ++ x = (astString a).toList ++ x := rfl

theorem shape_args_cons (a b : Expr) (rest : List Expr) (x : List Char) :
    (argsString (a :: b :: rest)).toList ++ x =
      (astString a).toList ++ ',' :: ' ' :: ((argsString (b :: rest)).toList ++ x) := by
  rw [show argsString (a :: b :: rest) = astString a ++ ", " ++ argsString (b :: rest) from rfl]
  simp only [toList_append, List.append_assoc]
  rfl

theorem headOK_ne_eq {c : Char} (h : headOK c = true) : ¬ c = '=' := fun hc => by
  rw [hc] at h
  exact absurd h (by decide)

theorem rtSafe_lit {v : Value} (h : rtSafe (.literalE v) = true) : litOK v = true := h

theorem esize_pos (e : Expr) : 1 ≤ esize e := by
  cases e <;> simp [esize]

theorem print_head_aux : ∀ n, ∀ e, esize e ≤ n → rtSafe e = true →
    ∃ c t, (astString e).toList = c :: t ∧ headOK c = true := by
  intro n
  induction n with
  | zero =>
      intro e he hs
      have := esize_pos e
      omega
  | succ N ih =>
      intro e he hs
      cases e with
      | literalE v =>
          have hv := rtSafe_lit hs
          cases v with
          | vint n =>
              simp only [litOK, Bool.and_eq_true, decide_eq_true_iff] at hv
              obtain ⟨hall, _, hne⟩ := natDecDigits_spec n.toNat
              obtain ⟨c, t, hct⟩ : ∃ c t, natDecDigits n.toNat = c :: t := by
                cases hl : natDecDigits n.toNat with
                | nil => exact absurd hl hne
                | cons a b => exact ⟨a, b, rfl⟩
              have hc : isDigitC c = true := by
                rw [hct, List.all_cons, Bool.and_eq_true] at hall
                exact hall.1
              refine ⟨c, t, ?_, by simp [headOK, hc]⟩
              rw [show astString (.literalE (.vint n)) = intToDecimal n from rfl,
                intToDecimal, if_neg (by omega)]
              exact hct
          | vbool b =>
              cases b with
              | true => exact ⟨'t', ['r', 'u', 'e'], rfl, by decide⟩
              | false => exact ⟨'f', ['a', 'l', 's', 'e'], rfl, by decide⟩
          | vstr s =>
              exact ⟨cQuoteD, s.toList.flatMap quoteChar ++ [cQuoteD], rfl, by decide⟩
          | vnil => simp [litOK] at hv
          | vfloat q => simp [litOK] at hv
          | vlist xs => simp [litOK] at hv
          | vmap k es => simp [litOK] at hv
          | vptr p => simp [litOK] at hv
          | vrec fs => simp [litOK] at hv
      | variableE nm =>
          have hn : identShaped nm = true := by
            have : nameOK nm = true := hs
            simp [nameOK, Bool.and_eq_true] at this
            exact this.1.1
          rw [identShaped] at hn
          obtain ⟨c, t, hct⟩ : ∃ c t, nm.toList = c :: t := by
            cases hl : nm.toList with
            | nil => rw [hl] at hn; exact absurd hn (by decide)
            | cons a b => exact ⟨a, b, rfl⟩
          rw [hct, Bool.and_eq_true] at hn
          refine ⟨c, t, hct, ?_⟩
          rw [Bool.or_eq_true] at hn
          rcases hn.1 with hh | hh
          · simp [headOK, hh]
          · have hu := of_decide_eq_true hh
            simp [headOK, hu]
      | memberE l k isIdx =>
          simp only [rtSafe, Bool.and_eq_true] at hs
          obtain ⟨⟨⟨hidx, hl⟩, _⟩, _⟩ := hs
          have hfalse : isIdx = false := by
            cases isIdx
            · rfl
            · exact absurd hidx (by decide)
          subst hfalse
          obtain ⟨c, t, hct, hok⟩ := ih l (by have := esize_pos l; simp [esize] at he; omega) hl
          refine ⟨c, t ++ '.' :: k.toList, ?_, hok⟩
          rw [show (astString (.memberE l k false)).toList
              = (astString (.memberE l k false)).toList ++ [] from (List.append_nil _).symm,
            shape_memberE, hct]
          simp
      | indexE l i =>
          simp only [rtSafe, Bool.and_eq_true] at hs
          obtain ⟨c, t, hct, hok⟩ := ih l (by have := esize_pos l; have := esize_pos i; simp [esize] at he; omega) hs.1
          refine ⟨c, t ++ '[' :: ((astString i).toList ++ [']']), ?_, hok⟩
          rw [show (astString (.indexE l i)).toList
              = (astString (.indexE l i)).toList ++ [] from (List.append_nil _).symm,
            shape_indexE, hct]
          simp
      | methodE l m args =>
          simp only [rtSafe, Bool.and_eq_true] at hs
          obtain ⟨c, t, hct, hok⟩ := ih l (by have := esize_pos l; simp [esize] at he; omega) hs.1.1.1
          refine ⟨c, t ++ '.' :: (m.toList ++ '(' :: ((argsString args).toList ++ [')'])), ?_, hok⟩
          rw [show (astString (.methodE l m args)).toList
              = (astString (.methodE l m args)).toList ++ [] from (List.append_nil _).symm,
            shape_methodE, hct]
          simp
      | callE nm args =>
          simp only [rtSafe, Bool.and_eq_true] at hs
          have hn : identShaped nm = true := by
            have := hs.1
            simp [nameOK, Bool.and_eq_true] at this
            exact this.1.1
          rw [identShaped] at hn
          obtain ⟨c, t, hct⟩ : ∃ c t, nm.toList = c :: t := by
            cases hl : nm.toList with
            | nil => rw [hl] at hn; exact absurd hn (by decide)
            | cons a b => exact ⟨a, b, rfl⟩
          rw [hct, Bool.and_eq_true] at hn
          refine ⟨c, t ++ '(' :: ((argsString args).toList ++ [')']), ?_, ?_⟩
          · rw [show (astString (.callE nm args)).toList
                = (astString (.callE nm args)).toList ++ [] from (List.append_nil _).symm,
              shape_callE, hct]
            simp
          · rw [Bool.or_eq_true] at hn
            rcases hn.1 with hh | hh
            · simp [headOK, hh]
            · have hu := of_decide_eq_true hh
              simp [headOK, hu]
      | unaryE op r =>
          refine ⟨'(', op.toList ++ ((astString r).toList ++ [')']), ?_, by decide⟩
          rw [show (astString (.unaryE op r)).toList
              = (astString (.unaryE op r)).toList ++ [] from (List.append_nil _).symm,
            shape_unaryE]
      | binE l op r =>
          refine ⟨'(', (astString l).toList ++ ' ' :: (op.toList ++ ' ' ::
            ((astString r).toList ++ [')'])), ?_, by decide⟩
          rw [show (astString (.binE l op r)).toList
              = (astString (.binE l op r)).toList ++ [] from (List.append_nil _).symm,
            shape_binE]
      | ternE c t e =>
          refine ⟨'(', (astString c).toList ++ ' ' :: '?' :: ' ' ::
            ((astString t).toList ++ ' ' :: ':' :: ' ' :: ((astString e).toList ++ [')'])), ?_, by decide⟩
          rw [show (astString (.ternE c t e)).toList
              = (astString (.ternE c t e)).toList ++ [] from (List.append_nil _).symm,
            shape_ternE]

theorem print_head (e : Expr) (hs : rtSafe e = true) :
    ∃ c t, (astString e).toList = c :: t ∧ headOK c = true :=
  print_head_aux (esize e) e le_rfl hs

theorem argsSize_pos (args : List Expr) : 1 ≤ argsSize args := by
  cases args with
  | nil => simp [argsSize]
  | cons a r =>
      have := esize_pos a
      have : 1 ≤ argsSize r := by
        cases r with
        | nil => simp [argsSize]
        | cons b s => simp [argsSize]; have := esize_pos b; omega
      simp [argsSize]
      omega

theorem bOK_head {e : Expr} {c : Char} {x : List Char} (h1 : isIdentChar c = false)
    (h2 : lastTok e = 2 → isNumChar c = false) : bOK e (c :: x) = true := by
  rw [bOK]
  by_cases ha : lastTok e = 1
  · rw [if_pos ha]
    simp [headNotP, h1]
  · rw [if_neg ha]
    by_cases hb : lastTok e = 2
    · rw [if_pos hb]
      simp [headNotP, h2 hb]
    · rw [if_neg hb]

theorem bOK_class1 {e : Expr} {r : List Char} (hb : bOK e r = true) (he : lastTok e = 1) :
    headNotP isIdentChar r = true := by
  rw [bOK, if_pos he] at hb
  exact hb

theorem bOK_class2 {e : Expr} {r : List Char} (hb : bOK e r = true) (he : lastTok e = 2) :
    headNotP isNumChar r = true := by
  rw [bOK] at hb
  rw [if_neg (by omega), if_pos he] at hb
  exact hb

theorem print_pulls_aux : ∀ n,
    (∀ e, esize e ≤ n → rtSafe e = true → ∀ r, bOK e r = true → streamOK r →
      streamOK ((astString e).toList ++ r)) ∧
    (∀ args, argsSize args ≤ n → rtSafeList args = true → ∀ r, streamOK r →
      streamOK ((argsString args).toList ++ ')' :: r)) := by
  intro n
  induction n with
  | zero =>
      exact ⟨fun e he _ _ _ _ => absurd he (by have := esize_pos e; omega),
        fun args ha _ _ _ _ => absurd ha (by have := argsSize_pos args; omega)⟩
  | succ N ih =>
      obtain ⟨ihe, iha⟩ := ih
      constructor
      · intro e he hs r hb hr
        cases e with
        | literalE v =>
            have hv := rtSafe_lit hs
            cases v with
            | vint m =>
                simp only [litOK, Bool.and_eq_true, decide_eq_true_iff] at hv
                obtain ⟨hdot, hnum, hparse⟩ := intToDecimal_roundtrip m hv.1 hv.2
                exact streamOK_cons
                  (nextToken_number (intToDecimal m) r hnum (bOK_class2 hb rfl)) hr
            | vbool b =>
                cases b with
                | true =>
                    exact streamOK_cons
                      (nextToken_ident "true" r (by decide) (bOK_class1 hb rfl)) hr
                | false =>
                    exact streamOK_cons
                      (nextToken_ident "false" r (by decide) (bOK_class1 hb rfl)) hr
            | vstr s => exact streamOK_cons (nextToken_string s r) hr
            | vnil => simp [litOK] at hv
            | vfloat q => simp [litOK] at hv
            | vlist xs => simp [litOK] at hv
            | vmap k es => simp [litOK] at hv
            | vptr p => simp [litOK] at hv
            | vrec fs => simp [litOK] at hv
        | variableE nm =>
            have hn : identShaped nm = true := by
              have : nameOK nm = true := hs
              simp [nameOK, Bool.and_eq_true] at this
              exact this.1.1
            exact streamOK_cons (nextToken_ident nm r hn (bOK_class1 hb rfl)) hr
        | memberE l k isIdx =>
            simp only [rtSafe, Bool.and_eq_true] at hs
            obtain ⟨⟨⟨hidx, hl⟩, hk⟩, hlt2⟩ := hs
            have hne2 : ¬ lastTok l = 2 := by simpa using hlt2
            have hfalse : isIdx = false := by
              cases isIdx
              · rfl
              · exact absurd hidx (by decide)
            subst hfalse
            rw [shape_memberE]
            refine ihe l (by have := esize_pos l; simp [esize] at he; omega) hl _
              (bOK_head (by decide) (fun h2 => absurd h2 hne2)) ?_
            refine streamOK_cons (nextToken_dot _) ?_
            exact streamOK_cons (nextToken_ident k r hk (bOK_class1 hb rfl)) hr
        | indexE l i =>
            simp only [rtSafe, Bool.and_eq_true] at hs
            rw [shape_indexE]
            have hp1 := esize_pos l
            have hp2 := esize_pos i
            have hsz : esize l ≤ N ∧ esize i ≤ N := by simp [esize] at he; omega
            refine ihe l hsz.1
              hs.1 _ (bOK_head (by decide) (fun _ => by decide)) ?_
            refine streamOK_cons (nextToken_lbrack _) ?_
            refine ihe i hsz.2
              hs.2 _ (bOK_head (by decide) (fun _ => by decide)) ?_
            exact streamOK_cons (nextToken_rbrack _) hr
        | methodE l m args =>
            simp only [rtSafe, Bool.and_eq_true] at hs
            obtain ⟨⟨⟨hl, hm⟩, hlt2⟩, hargs⟩ := hs
            have hne2 : ¬ lastTok l = 2 := by simpa using hlt2
            have hp1 := esize_pos l
            have hp2 := argsSize_pos args
            have hsz : esize l ≤ N ∧ argsSize args ≤ N := by simp [esize] at he; omega
            rw [shape_methodE]
            refine ihe l hsz.1 hl _
              (bOK_head (by decide) (fun h2 => absurd h2 hne2)) ?_
            refine streamOK_cons (nextToken_dot _) ?_
            refine streamOK_cons (nextToken_ident m _ hm (by simp [headNotP]; decide)) ?_
            refine streamOK_cons (nextToken_lparen _) ?_
            exact iha args hsz.2 hargs r hr
        | callE nm args =>
            simp only [rtSafe, Bool.and_eq_true] at hs
            have hn : identShaped nm = true := by
              have := hs.1
              simp [nameOK, Bool.and_eq_true] at this
              exact this.1.1
            rw [shape_callE]
            refine streamOK_cons (nextToken_ident nm _ hn (by simp [headNotP]; decide)) ?_
            refine streamOK_cons (nextToken_lparen _) ?_
            exact iha args (by simp [esize] at he; omega) hs.2 r hr
        | unaryE op x =>
            simp only [rtSafe, Bool.and_eq_true] at hs
            obtain ⟨hop, hx⟩ := hs
            obtain ⟨c, t, hct, hok⟩ := print_head x hx
            have hxs : streamOK ((astString x).toList ++ ')' :: r) :=
              ihe x (by simp [esize] at he; omega) hx _
                (bOK_head (by decide) (fun _ => by decide))
                (streamOK_cons (nextToken_rparen _) hr)
            rw [shape_unaryE]
            refine streamOK_cons (nextToken_lparen _) ?_
            simp only [Bool.or_eq_true, decide_eq_true_iff] at hop
            rcases hop with (hop | hop) | hop <;> subst hop
            · rw [show ("!" : String).toList = ['!'] from rfl, hct]
              simp only [List.cons_append, List.nil_append]
              refine streamOK_cons (nextToken_bang c _ (headOK_ne_eq hok)) ?_
              rw [show c :: (t ++ ')' :: r) = (c :: t) ++ ')' :: r from rfl, ← hct]
              exact hxs
            · rw [show ("-" : String).toList = ['-'] from rfl, hct]
              simp only [List.cons_append, List.nil_append]
              refine streamOK_cons (nextToken_minus c _) ?_
              rw [show c :: (t ++ ')' :: r) = (c :: t) ++ ')' :: r from rfl, ← hct]
              exact hxs
            · rw [show ("~" : String).toList = ['~'] from rfl, hct]
              simp only [List.cons_append, List.nil_append]
              refine streamOK_cons (nextToken_tilde c _) ?_
              rw [show c :: (t ++ ')' :: r) = (c :: t) ++ ')' :: r from rfl, ← hct]
              exact hxs
        | binE l op x =>
            simp only [rtSafe, Bool.and_eq_true] at hs
            obtain ⟨⟨hl, hop⟩, hx⟩ := hs
            have hp1 := esize_pos l
            have hp2 := esize_pos x
            have hsz : esize l ≤ N ∧ esize x ≤ N := by simp [esize] at he; omega
            rw [shape_binE]
            refine streamOK_cons (nextToken_lparen _) ?_
            refine ihe l hsz.1 hl _
              (bOK_head (by decide) (fun _ => by decide)) ?_
            refine streamOK_space ?_
            refine streamOK_cons (nextToken_binop op hop _) ?_
            refine streamOK_space ?_
            refine ihe x hsz.2 hx _
              (bOK_head (by decide) (fun _ => by decide)) ?_
            exact streamOK_cons (nextToken_rparen _) hr
        | ternE c t e =>
            simp only [rtSafe, Bool.and_eq_true] at hs
            obtain ⟨⟨hc, ht⟩, he2⟩ := hs
            have hp1 := esize_pos c
            have hp2 := esize_pos t
            have hp3 := esize_pos e
            have hsz : esize c ≤ N ∧ esize t ≤ N ∧ esize e ≤ N := by
              simp [esize] at he; omega
            rw [shape_ternE]
            refine streamOK_cons (nextToken_lparen _) ?_
            refine ihe c hsz.1 hc _
              (bOK_head (by decide) (fun _ => by decide)) ?_
            refine streamOK_space ?_
            refine streamOK_cons (nextToken_qmark _) ?_
            refine streamOK_space ?_
            refine ihe t hsz.2.1 ht _
              (bOK_head (by decide) (fun _ => by decide)) ?_
            refine streamOK_space ?_
            refine streamOK_cons (nextToken_colon _) ?_
            refine streamOK_space ?_
            refine ihe e hsz.2.2 he2 _
              (bOK_head (by decide) (fun _ => by decide)) ?_
            exact streamOK_cons (nextToken_rparen _) hr
      · intro args ha hs r hr
        cases args with
        | nil =>
            rw [shape_args_nil]
            exact streamOK_cons (nextToken_rparen _) hr
        | cons a rest =>
            simp only [rtSafeList, Bool.and_eq_true] at hs
            cases rest with
            | nil =>
                rw [shape_args_one]
                exact ihe a (by have := esize_pos a; simp [argsSize] at ha; omega) hs.1 _
                  (bOK_head (by decide) (fun _ => by decide))
                  (streamOK_cons (nextToken_rparen _) hr)
            | cons b rest2 =>
                have hp1 := esize_pos a
                have hp2 := argsSize_pos (b :: rest2)
                have hsz : esize a ≤ N ∧ argsSize (b :: rest2) ≤ N := by
                  have := esize_pos b
                  have := argsSize_pos rest2
                  simp [argsSize] at ha ⊢
                  omega
                rw [shape_args_cons]
                refine ihe a hsz.1 hs.1 _
                  (bOK_head (by decide) (fun _ => by decide)) ?_
                refine streamOK_cons (nextToken_comma _) ?_
                refine streamOK_space ?_
                exact iha (b :: rest2) hsz.2 hs.2 r hr

theorem print_pulls (e : Expr) (hs : rtSafe e = true) (r : List Char)
    (hb : bOK e r = true) (hr : streamOK r) :
    streamOK ((astString e).toList ++ r) :=
  (print_pulls_aux (esize e)).1 e le_rfl hs r hb hr

theorem print_args_pulls (args : List Expr) (hs : rtSafeList args = true) (r : List Char)
    (hr : streamOK r) :
    streamOK ((argsString args).toList ++ ')' :: r) :=
  (print_pulls_aux (argsSize args)).2 args le_rfl hs r hr

theorem parseP_step {g rbp d : Nat} {t1 t2 t3 : Tok} {rest rest2 : List Char}
    (hd : ¬ d > MaxStackDepth) (hpull : nextToken rest = .ok (t3, rest2)) :
    parseP (g + 1) ⟨t1, t2, rest, none⟩ rbp d =
      (match nudP g t1 ⟨t2, t3, rest2, none⟩ d with
       | .error e => .error e
       | .ok (left, st2) => parseLoopP g st2 left rbp d) := by
  rw [parseP, if_neg hd]
  simp only [advanceP_ok hpull]

theorem parseLoopP_go {g rbp d : Nat} {left : Expr} {t1 t2 t3 : Tok}
    {rest rest2 : List Char}
    (hlb : rbp < lbp t1) (hpull : nextToken rest = .ok (t3, rest2)) :
    parseLoopP (g + 1) ⟨t1, t2, rest, none⟩ left rbp d =
      (match ledP g t1 left ⟨t2, t3, rest2, none⟩ d with
       | .error e => .error e
       | .ok (l2, st2) => parseLoopP g st2 l2 rbp d) := by
  rw [parseLoopP, if_pos hlb]
  simp only [advanceP_ok hpull]

theorem parseLoopP_stop {g rbp d : Nat} {left : Expr} {st : PState}
    (hlb : ¬ rbp < lbp st.curr) :
    parseLoopP (g + 1) st left rbp d = .ok (left, st) := by
  rw [parseLoopP, if_neg hlb]

theorem parseArgsP_default {g d : Nat} {st : PState}
    (h1 : ¬ st.curr = .tRParen) (h2 : ¬ st.curr = .tEOF) :
    parseArgsP (g + 1) st d =
      (match parseP g st 0 (d + 1) with
       | .error e => .error e
       | .ok (a, st1) =>
           match parseArgsP g (if st1.curr = .tComma then advanceP st1 else st1) d with
           | .error e => .error e
           | .ok (rest, st3) => .ok (a :: rest, st3)) := by
  rcases hcurr : st.curr with _ | s | s | s | _ | _ | _ | s
  · exact absurd hcurr h2
  · rw [parseArgsP, hcurr]
  · rw [parseArgsP, hcurr]
  · rw [parseArgsP, hcurr]
  · rw [parseArgsP, hcurr]
  · exact absurd hcurr h1
  · rw [parseArgsP, hcurr]
  · rw [parseArgsP, hcurr]

theorem lbp_opOK {op : String} (h : opOK op = true) :
    10 ≤ lbp (.tOp op) ∧ lbp (.tOp op) ≤ 50 ∧ ¬ op = "?" ∧ ¬ op = "[" ∧ ¬ op = "." := by
  rw [opOK] at h
  simp only [Bool.or_eq_true, decide_eq_true_iff] at h
  rcases h with (((((((((((((((((h | h) | h) | h) | h) | h) | h) | h) | h) | h) | h) | h) | h) | h) | h) | h) | h) | h) <;> subst h <;> refine ⟨by decide, by decide, by decide, by decide, by decide⟩

theorem P_of_N {e : Expr} {f rbp depth : Nat} {r : List Char}
    (hN : ∃ f1, f - fuelNeed e ≤ f1 ∧ f1 < f ∧
      parseP f (mkSt ((astString e).toList ++ r)) rbp depth =
        parseLoopP f1 (mkSt r) e rbp depth)
    (hf : fuelNeed e < f)
    (hr : streamOK r)
    (hstop : stopsAt rbp r) :
    parseP f (mkSt ((astString e).toList ++ r)) rbp depth = .ok (e, mkSt r) := by
  obtain ⟨f1, hf1, _, heq⟩ := hN
  obtain ⟨t1, r1, hp1, hs1⟩ := streamOK_pull hr
  obtain ⟨t2, r2, hp2, _⟩ := streamOK_pull hs1
  obtain ⟨g, rfl⟩ : ∃ g, f1 = g + 1 := ⟨f1 - 1, by omega⟩
  rw [heq, mkSt_fields hp1 hp2]
  rw [parseLoopP_stop (by have := hstop t1 r1 hp1; simp; omega)]

theorem parseArgsP_rparen {g d : Nat} {t2 : Tok} {rr : List Char} :
    parseArgsP (g + 1) ⟨.tRParen, t2, rr, none⟩ d
      = .ok ([], advanceP ⟨.tRParen, t2, rr, none⟩) := by
  rw [parseArgsP]

theorem print_pull1_aux : ∀ n, ∀ e, esize e ≤ n → rtSafe e = true → ∀ x,
    ∃ tt mm, nextToken ((astString e).toList ++ x) = .ok (tt, mm) ∧
      ¬ tt = .tRParen ∧ ¬ tt = .tEOF := by
  intro n
  induction n with
  | zero =>
      intro e he hs
      have := esize_pos e
      omega
  | succ N ih =>
      intro e he hs x
      cases e with
      | literalE v =>
          have hv := rtSafe_lit hs
          cases v with
          | vint m =>
              simp only [litOK, Bool.and_eq_true, decide_eq_true_iff] at hv
              obtain ⟨hall, _, hne⟩ := natDecDigits_spec m.toNat
              obtain ⟨c, tl, hct⟩ : ∃ c tl, natDecDigits m.toNat = c :: tl := by
                cases hl : natDecDigits m.toNat with
                | nil => exact absurd hl hne
                | cons a b => exact ⟨a, b, rfl⟩
              have hc : isDigitC c = true := by
                rw [hct, List.all_cons, Bool.and_eq_true] at hall
                exact hall.1
              have hi2d : (intToDecimal m).toList = natDecDigits m.toNat := by
                rw [intToDecimal, if_neg (by omega)]
                rfl
              rw [show (astString (.literalE (.vint m))).toList
                  = (intToDecimal m).toList from rfl, hi2d, hct, List.cons_append]
              obtain ⟨s, mm, hh⟩ := nextToken_digit_head hc (tl ++ x)
              exact ⟨.tNumber s, mm, hh, by simp, by simp⟩
          | vbool b =>
              cases b with
              | true =>
                  rw [show (astString (.literalE (.vbool true))).toList
                      = 't' :: ['r', 'u', 'e'] from rfl, List.cons_append]
                  obtain ⟨s, mm, hh⟩ := nextToken_identHead (c := 't') (by decide) _
                  exact ⟨.tIdent s, mm, hh, by simp, by simp⟩
              | false =>
                  rw [show (astString (.literalE (.vbool false))).toList
                      = 'f' :: ['a', 'l', 's', 'e'] from rfl, List.cons_append]
                  obtain ⟨s, mm, hh⟩ := nextToken_identHead (c := 'f') (by decide) _
                  exact ⟨.tIdent s, mm, hh, by simp, by simp⟩
          | vstr s =>
              exact ⟨.tString s, x, nextToken_string s x, by simp, by simp⟩
          | vnil => simp [litOK] at hv
          | vfloat q => simp [litOK] at hv
          | vlist xs => simp [litOK] at hv
          | vmap kk es => simp [litOK] at hv
          | vptr p => simp [litOK] at hv
          | vrec fs => simp [litOK] at hv
      | variableE nm =>
          have hn : identShaped nm = true := by
            have : nameOK nm = true := hs
            simp [nameOK, Bool.and_eq_true] at this
            exact this.1.1
          rw [identShaped] at hn
          obtain ⟨c, tl, hct⟩ : ∃ c tl, nm.toList = c :: tl := by
            cases hl : nm.toList with
            | nil => rw [hl] at hn; exact absurd hn (by decide)
            | cons a b => exact ⟨a, b, rfl⟩
          rw [hct] at hn
          rw [Bool.and_eq_true] at hn
          rw [show (astString (.variableE nm)).toList = nm.toList from rfl, hct,
            List.cons_append]
          obtain ⟨s, mm, hh⟩ := nextToken_identHead hn.1 _
          exact ⟨.tIdent s, mm, hh, by simp, by simp⟩
      | memberE l k isIdx =>
          simp only [rtSafe, Bool.and_eq_true] at hs
          obtain ⟨⟨⟨hidx, hl⟩, _⟩, _⟩ := hs
          have hfalse : isIdx = false := by
            cases isIdx
            · rfl
            · exact absurd hidx (by decide)
          subst hfalse
          rw [show (astString (.memberE l k false)).toList ++ x
              = (astString l).toList ++ ('.' :: (k.toList ++ x)) from shape_memberE l k x]
          exact ih l (by have := esize_pos l; simp [esize] at he; omega) hl _
      | indexE l i =>
          simp only [rtSafe, Bool.and_eq_true] at hs
          rw [shape_indexE l i x]
          exact ih l (by have := esize_pos l; have := esize_pos i; simp [esize] at he; omega)
            hs.1 _
      | methodE l m args =>
          simp only [rtSafe, Bool.and_eq_true] at hs
          have hszl : esize l ≤ N := by
            have := esize_pos l
            have := argsSize_pos args
            simp [esize] at he
            omega
          rw [shape_methodE l m args x]
          exact ih l hszl hs.1.1.1 _
      | callE nm args =>
          simp only [rtSafe, Bool.and_eq_true] at hs
          have hn : identShaped nm = true := by
            have := hs.1
            simp [nameOK, Bool.and_eq_true] at this
            exact this.1.1
          rw [identShaped] at hn
          obtain ⟨c, tl, hct⟩ : ∃ c tl, nm.toList = c :: tl := by
            cases hl : nm.toList with
            | nil => rw [hl] at hn; exact absurd hn (by decide)
            | cons a b => exact ⟨a, b, rfl⟩
          rw [hct] at hn
          rw [Bool.and_eq_true] at hn
          rw [shape_callE nm args x, hct, List.cons_append]
          obtain ⟨s, mm, hh⟩ := nextToken_identHead hn.1 _
          exact ⟨.tIdent s, mm, hh, by simp, by simp⟩
      | unaryE op r =>
          rw [shape_unaryE op r x]
          exact ⟨.tLParen, _, nextToken_lparen _, by simp, by simp⟩
      | binE l op r =>
          rw [shape_binE l op r x]
          exact ⟨.tLParen, _, nextToken_lparen _, by simp, by simp⟩
      | ternE c t e =>
          rw [shape_ternE c t e x]
          exact ⟨.tLParen, _, nextToken_lparen _, by simp, by simp⟩

theorem print_pull1 (e : Expr) (hs : rtSafe e = true) (x : List Char) :
    ∃ tt mm, nextToken ((astString e).toList ++ x) = .ok (tt, mm) ∧
      ¬ tt = .tRParen ∧ ¬ tt = .tEOF :=
  print_pull1_aux (esize e) e le_rfl hs x

theorem noLP_of_pull {r : List Char} {t0 : Tok} {m0 : List Char}
    (h : nextToken r = .ok (t0, m0)) (hne : ¬ t0 = .tLParen) : noLP r := by
  intro t m hpull
  rw [h] at hpull
  injection hpull with hh
  rw [show t = t0 from (congrArg Prod.fst hh).symm]
  exact hne

theorem stopsAt_of_pull {rbp : Nat} {r : List Char} {t0 : Tok} {m0 : List Char}
    (h : nextToken r = .ok (t0, m0)) (hl : lbp t0 ≤ rbp) : stopsAt rbp r := by
  intro t m hpull
  rw [h] at hpull
  injection hpull with hh
  rw [show t = t0 from (congrArg Prod.fst hh).symm]
  exact hl

theorem ledP_member {g d : Nat} {left : Expr} {k : String} {t1 t2 : Tok}
    {r1 r2 : List Char}
    (hpull : nextToken r1 = .ok (t2, r2)) (hnl : ¬ t1 = .tLParen) :
    ledP (g + 1) (.tOp ".") left ⟨.tIdent k, t1, r1, none⟩ d =
      .ok (.memberE left k false, ⟨t1, t2, r2, none⟩) := by
  rw [ledP]
  rw [if_neg (show ¬ tokVal (.tOp ".") = "?" by decide),
    if_neg (show ¬ tokVal (.tOp ".") = "[" by decide),
    if_pos (show tokVal (.tOp ".") = "." from rfl)]
  rw [if_neg (show ¬ (⟨.tIdent k, t1, r1, none⟩ : PState).curr = .tOp "[" by simp)]
  rw [advanceP_ok hpull]
  rw [if_neg (show ¬ (⟨t1, t2, r2, none⟩ : PState).curr = .tLParen from hnl)]
  rfl

theorem ledP_method {g d : Nat} {left : Expr} {m : String} {t2 : Tok} {r1 r2 : List Char}
    (hpull : nextToken r1 = .ok (t2, r2)) :
    ledP (g + 1) (.tOp ".") left ⟨.tIdent m, .tLParen, r1, none⟩ d =
      (match parseArgsP g (advanceP ⟨.tLParen, t2, r2, none⟩) d with
       | .error e => .error e
       | .ok (args, st2) => .ok (.methodE left m args, st2)) := by
  rw [ledP]
  rw [if_neg (show ¬ tokVal (.tOp ".") = "?" by decide),
    if_neg (show ¬ tokVal (.tOp ".") = "[" by decide),
    if_pos (show tokVal (.tOp ".") = "." from rfl)]
  rw [if_neg (show ¬ (⟨.tIdent m, .tLParen, r1, none⟩ : PState).curr = .tOp "[" by simp)]
  rw [advanceP_ok hpull]
  rw [if_pos (show (⟨.tLParen, t2, r2, none⟩ : PState).curr = .tLParen from rfl)]
  rfl

theorem ledP_lbrack {g d : Nat} {left : Expr} {st : PState} :
    ledP (g + 1) (.tOp "[") left st d =
      (match parseP g st 0 (d + 1) with
       | .error e => .error e
       | .ok (idx, st1) =>
           if st1.curr = .tOp "]" then .ok (.indexE left idx, advanceP st1)
           else .error "missing ] in index expression") := by
  rw [ledP]
  rw [if_neg (show ¬ tokVal (.tOp "[") = "?" by decide),
    if_pos (show tokVal (.tOp "[") = "[" from rfl)]

theorem ledP_qmark {g d : Nat} {left : Expr} {st : PState} :
    ledP (g + 1) (.tOp "?") left st d =
      (match parseP g st 0 (d + 1) with
       | .error e => .error e
       | .ok (thn, st1) =>
           if st1.curr = .tOp ":" then
             match parseP g (advanceP st1) (lbp (.tOp "?") - 1) (d + 1) with
             | .error e => .error e
             | .ok (els, st2) => .ok (.ternE left thn els, st2)
           else .error "missing : in ternary expression") := by
  rw [ledP]
  rw [if_pos (show tokVal (.tOp "?") = "?" from rfl)]

theorem ledP_binop {g d : Nat} {left : Expr} {op : String} (hop : opOK op = true)
    {st : PState} :
    ledP (g + 1) (.tOp op) left st d =
      (match parseP g st (lbp (.tOp op)) (d + 1) with
       | .error e => .error e
       | .ok (right, st1) => .ok (.binE left op right, st1)) := by
  obtain ⟨_, _, h1, h2, h3⟩ := lbp_opOK hop
  rw [ledP]
  rw [if_neg (show ¬ tokVal (.tOp op) = "?" from h1),
    if_neg (show ¬ tokVal (.tOp op) = "[" from h2),
    if_neg (show ¬ tokVal (.tOp op) = "." from h3)]
  rfl

theorem nudP_lparen {g d : Nat} {st : PState} :
    nudP (g + 1) .tLParen st d =
      (match parseP g st 0 (d + 1) with
       | .error e => .error e
       | .ok (e, st1) =>
           match st1.curr with
           | .tRParen => .ok (e, advanceP st1)
           | _ => .error "missing )") := by
  rw [nudP]

theorem nudP_prefixOp {g d : Nat} {op : String} (hop : op = "!" ∨ op = "-" ∨ op = "~")
    {st : PState} :
    nudP (g + 1) (.tOp op) st d =
      (match parseP g st 60 (d + 1) with
       | .error e => .error e
       | .ok (r, st1) => .ok (.unaryE op r, st1)) := by
  rw [nudP, if_pos hop]

theorem nudP_call {g d : Nat} {s : String} (h1 : ¬ s = "true") (h2 : ¬ s = "false")
    {t2 : Tok} {rr : List Char} :
    nudP (g + 1) (.tIdent s) ⟨.tLParen, t2, rr, none⟩ d =
      (match parseArgsP g (advanceP ⟨.tLParen, t2, rr, none⟩) d with
       | .error e => .error e
       | .ok (args, st2) => .ok (.callE s args, st2)) := by
  rw [nudP, if_neg h1, if_neg h2,
    if_pos (show (⟨.tLParen, t2, rr, none⟩ : PState).curr = .tLParen from rfl)]

set_option maxHeartbeats 1000000 in
theorem parse_print_master : ∀ n,
    (∀ e, esize e ≤ n → rtSafe e = true →
      ∀ f rbp depth r,
        fuelNeed e ≤ f → depth + depthNeed e ≤ MaxStackDepth → rbp ≤ 60 →
        bOK e r = true → streamOK r → noLP r →
        ∃ f1, f - fuelNeed e ≤ f1 ∧ f1 < f ∧
          parseP f (mkSt ((astString e).toList ++ r)) rbp depth =
            parseLoopP f1 (mkSt r) e rbp depth) ∧
    (∀ args, argsSize args ≤ n → rtSafeList args = true →
      ∀ f depth r,
        argsFuel args ≤ f → depth + argsDepth args + 1 ≤ MaxStackDepth →
        streamOK r →
        parseArgsP f (mkSt ((argsString args).toList ++ ')' :: r)) depth =
          .ok (args, mkSt r)) := by
  intro n
  induction n with
  | zero =>
      exact ⟨fun e he _ => absurd he (by have := esize_pos e; omega),
        fun args ha _ => absurd ha (by have := argsSize_pos args; omega)⟩
  | succ N ih =>
      obtain ⟨ihe, iha⟩ := ih
      have ihP : ∀ e, esize e ≤ N → rtSafe e = true →
          ∀ f rbp depth r,
          fuelNeed e < f → depth + depthNeed e ≤ MaxStackDepth → rbp ≤ 60 →
          bOK e r = true → streamOK r → noLP r → stopsAt rbp r →
          parseP f (mkSt ((astString e).toList ++ r)) rbp depth = .ok (e, mkSt r) :=
        fun e hsz hs f rbp depth r hf hd hrbp hb hr hnl hstop =>
          P_of_N (ihe e hsz hs f rbp depth r (le_of_lt hf) hd hrbp hb hr hnl) hf hr hstop
      constructor
      · intro e hesz hs f rbp depth r hfuel hdepth hrbp hb hr hnl
        have hdep : depth + depthNeed e ≤ 256 := by simpa [MaxStackDepth] using hdepth
        obtain ⟨t1, r1, hp1, hs1⟩ := streamOK_pull hr
        obtain ⟨t2, r2, hp2, hs2⟩ := streamOK_pull hs1
        cases e with
        | literalE v =>
            have hv := rtSafe_lit hs
            cases v with
            | vint m =>
                simp only [litOK, Bool.and_eq_true, decide_eq_true_iff] at hv
                obtain ⟨hdot, hnum, hparse⟩ := intToDecimal_roundtrip m hv.1 hv.2
                have pull0 : nextToken ((intToDecimal m).toList ++ r)
                    = .ok (.tNumber (intToDecimal m), r) :=
                  nextToken_number _ r hnum (bOK_class2 hb rfl)
                obtain ⟨h1, rfl⟩ : ∃ h1, f = h1 + 2 :=
                  ⟨f - 2, by simp [fuelNeed] at hfuel; omega⟩
                refine ⟨h1 + 1, by simp [fuelNeed], by omega, ?_⟩
                rw [show (astString (.literalE (.vint m))).toList
                    = (intToDecimal m).toList from rfl]
                rw [mkSt_fields pull0 hp1, mkSt_fields hp1 hp2]
                rw [show h1 + 2 = (h1 + 1) + 1 from rfl]
                rw [parseP_step (by simp [MaxStackDepth]; omega) hp2]
                rw [nudP]
                simp only [hdot, Bool.false_eq_true, if_false, hparse]
            | vbool b =>
                obtain ⟨h1, rfl⟩ : ∃ h1, f = h1 + 2 :=
                  ⟨f - 2, by simp [fuelNeed] at hfuel; omega⟩
                refine ⟨h1 + 1, by simp [fuelNeed], by omega, ?_⟩
                cases b with
                | true =>
                    have pull0 : nextToken (("true" : String).toList ++ r)
                        = .ok (.tIdent "true", r) :=
                      nextToken_ident "true" r (by decide) (bOK_class1 hb rfl)
                    rw [show (astString (.literalE (.vbool true))).toList
                        = ("true" : String).toList from rfl]
                    rw [mkSt_fields pull0 hp1, mkSt_fields hp1 hp2]
                    rw [show h1 + 2 = (h1 + 1) + 1 from rfl]
                    rw [parseP_step (by simp [MaxStackDepth]; omega) hp2]
                    rw [nudP]
                    rw [if_pos rfl]
                | false =>
                    have pull0 : nextToken (("false" : String).toList ++ r)
                        = .ok (.tIdent "false", r) :=
                      nextToken_ident "false" r (by decide) (bOK_class1 hb rfl)
                    rw [show (astString (.literalE (.vbool false))).toList
                        = ("false" : String).toList from rfl]
                    rw [mkSt_fields pull0 hp1, mkSt_fields hp1 hp2]
                    rw [show h1 + 2 = (h1 + 1) + 1 from rfl]
                    rw [parseP_step (by simp [MaxStackDepth]; omega) hp2]
                    rw [nudP]
                    rw [if_neg (by decide), if_pos rfl]
            | vstr s =>
                obtain ⟨h1, rfl⟩ : ∃ h1, f = h1 + 2 :=
                  ⟨f - 2, by simp [fuelNeed] at hfuel; omega⟩
                refine ⟨h1 + 1, by simp [fuelNeed], by omega, ?_⟩
                rw [show (astString (.literalE (.vstr s))).toList
                    = (goQuote s).toList from rfl]
                rw [mkSt_fields (nextToken_string s r) hp1, mkSt_fields hp1 hp2]
                rw [show h1 + 2 = (h1 + 1) + 1 from rfl]
                rw [parseP_step (by simp [MaxStackDepth]; omega) hp2]
                rw [nudP]
            | vnil => simp [litOK] at hv
            | vfloat q => simp [litOK] at hv
            | vlist xs => simp [litOK] at hv
            | vmap kk es => simp [litOK] at hv
            | vptr p => simp [litOK] at hv
            | vrec fs => simp [litOK] at hv
        | variableE nm =>
            have hname : nameOK nm = true := hs
            simp only [nameOK, Bool.and_eq_true, Bool.not_eq_true', decide_eq_false_iff_not]
              at hname
            obtain ⟨⟨hident, hnt⟩, hnf⟩ := hname
            have pull0 : nextToken (nm.toList ++ r) = .ok (.tIdent nm, r) :=
              nextToken_ident nm r hident (bOK_class1 hb rfl)
            obtain ⟨h1, rfl⟩ : ∃ h1, f = h1 + 2 :=
              ⟨f - 2, by simp [fuelNeed] at hfuel; omega⟩
            refine ⟨h1 + 1, by simp [fuelNeed], by omega, ?_⟩
            rw [show (astString (.variableE nm)).toList = nm.toList from rfl]
            rw [mkSt_fields pull0 hp1, mkSt_fields hp1 hp2]
            rw [show h1 + 2 = (h1 + 1) + 1 from rfl]
            rw [parseP_step (by simp [MaxStackDepth]; omega) hp2]
            rw [nudP]
            rw [if_neg hnt, if_neg hnf, if_neg (show ¬ (⟨t1, t2, r2, none⟩ : PState).curr
              = .tLParen from hnl t1 r1 hp1)]
        | memberE l k isIdx =>
            simp only [rtSafe, Bool.and_eq_true] at hs
            obtain ⟨⟨⟨hidx, hl⟩, hk⟩, hlt2⟩ := hs
            have hne2 : ¬ lastTok l = 2 := by simpa using hlt2
            have hfalse : isIdx = false := by
              cases isIdx
              · rfl
              · exact absurd hidx (by decide)
            subst hfalse
            have hszl : esize l ≤ N := by
              have := esize_pos l
              simp [esize] at hesz
              omega
            have hfl : fuelNeed (.memberE l k false) = fuelNeed l + 3 := by simp [fuelNeed]
            rw [hfl] at hfuel
            have pullK : nextToken (k.toList ++ r) = .ok (.tIdent k, r) :=
              nextToken_ident k r hk (bOK_class1 hb rfl)
            have hsK : streamOK (k.toList ++ r) := streamOK_cons pullK hr
            have pullD : nextToken ('.' :: (k.toList ++ r)) = .ok (.tOp ".", k.toList ++ r) :=
              nextToken_dot _
            have hsD : streamOK ('.' :: (k.toList ++ r)) := streamOK_cons pullD hsK
            obtain ⟨f2, hf2a, hf2b, heq⟩ := ihe l hszl hl f rbp depth ('.' :: (k.toList ++ r))
              (by omega)
              (by simpa [depthNeed] using hdepth)
              hrbp
              (bOK_head (by decide) (fun h2 => absurd h2 hne2))
              hsD
              (noLP_of_pull pullD (by decide))
            obtain ⟨g, rfl⟩ : ∃ g, f2 = g + 2 := ⟨f2 - 2, by omega⟩
            refine ⟨g + 1, by simp [fuelNeed]; omega, by omega, ?_⟩
            rw [shape_memberE l k r, heq]
            rw [mkSt_fields pullD pullK]
            rw [show g + 2 = (g + 1) + 1 from rfl]
            rw [parseLoopP_go (show rbp < lbp (.tOp ".") by
              rw [show lbp (.tOp ".") = 100 from rfl]; omega) hp1]
            rw [ledP_member hp2 (hnl t1 r1 hp1)]
            rw [mkSt_fields hp1 hp2]
        | indexE l i =>
            simp only [rtSafe, Bool.and_eq_true] at hs
            obtain ⟨hl, hi⟩ := hs
            have hszl : esize l ≤ N := by
              have := esize_pos l
              have := esize_pos i
              simp [esize] at hesz
              omega
            have hszi : esize i ≤ N := by
              have := esize_pos l
              have := esize_pos i
              simp [esize] at hesz
              omega
            have hfl : fuelNeed (.indexE l i) = fuelNeed l + fuelNeed i + 5 := by
              simp [fuelNeed]
            rw [hfl] at hfuel
            have hdmax : depthNeed (.indexE l i)
                = max (depthNeed l) (depthNeed i + 1) := by simp [depthNeed]
            rw [hdmax] at hdepth
            have pullRB : nextToken (']' :: r) = .ok (.tOp "]", r) := nextToken_rbrack r
            have hsRB : streamOK (']' :: r) := streamOK_cons pullRB hr
            have hsX : streamOK ((astString i).toList ++ ']' :: r) :=
              print_pulls i hi _ (bOK_head (by decide) (fun _ => by decide)) hsRB
            obtain ⟨tx, rx, px1, hsx1⟩ := streamOK_pull hsX
            obtain ⟨ty, ry, px2, _⟩ := streamOK_pull hsx1
            have pullLB : nextToken ('[' :: ((astString i).toList ++ ']' :: r))
                = .ok (.tOp "[", (astString i).toList ++ ']' :: r) := nextToken_lbrack _
            have hsLB : streamOK ('[' :: ((astString i).toList ++ ']' :: r)) :=
              streamOK_cons pullLB hsX
            obtain ⟨f2, hf2a, hf2b, heq⟩ := ihe l hszl hl f rbp depth
              ('[' :: ((astString i).toList ++ ']' :: r))
              (by omega)
              (by omega)
              hrbp
              (bOK_head (by decide) (fun _ => by decide))
              hsLB
              (noLP_of_pull pullLB (by decide))
            obtain ⟨g, rfl⟩ : ∃ g, f2 = g + 2 := ⟨f2 - 2, by omega⟩
            have hPi : parseP g ⟨tx, ty, ry, none⟩ 0 (depth + 1) = .ok (i, mkSt (']' :: r)) := by
              rw [show (⟨tx, ty, ry, none⟩ : PState)
                  = mkSt ((astString i).toList ++ ']' :: r) from (mkSt_fields px1 px2).symm]
              exact ihP i hszi hi g 0 (depth + 1) (']' :: r)
                (by omega) (by omega) (by omega)
                (bOK_head (by decide) (fun _ => by decide))
                hsRB
                (noLP_of_pull pullRB (by decide))
                (stopsAt_of_pull pullRB (by decide))
            refine ⟨g + 1, by simp [fuelNeed]; omega, by omega, ?_⟩
            rw [shape_indexE l i r, heq]
            rw [mkSt_fields pullLB px1]
            rw [show g + 2 = (g + 1) + 1 from rfl]
            rw [parseLoopP_go (show rbp < lbp (.tOp "[") by
              rw [show lbp (.tOp "[") = 100 from rfl]; omega) px2]
            have hPi2 : parseP g ⟨tx, ty, ry, none⟩ 0 (depth + 1)
                = .ok (i, ⟨.tOp "]", t1, r1, none⟩) := by
              rw [hPi, mkSt_fields pullRB hp1]
            rw [ledP_lbrack]
            simp only [hPi2, if_true]
            rw [advanceP_ok hp2]
            rw [mkSt_fields hp1 hp2]
        | methodE l m args =>
            simp only [rtSafe, Bool.and_eq_true] at hs
            obtain ⟨⟨⟨hl, hm⟩, hlt2⟩, hargs⟩ := hs
            have hne2 : ¬ lastTok l = 2 := by simpa using hlt2
            have hszl : esize l ≤ N := by
              have := esize_pos l
              have := argsSize_pos args
              simp [esize] at hesz
              omega
            have hsza : argsSize args ≤ N := by
              have := esize_pos l
              simp [esize] at hesz
              omega
            rw [show fuelNeed (.methodE l m args) = fuelNeed l + argsFuel args + 7
              from by simp [fuelNeed]] at hfuel
            rw [show depthNeed (.methodE l m args)
                = max (depthNeed l) (argsDepth args + 1) from by simp [depthNeed]] at hdepth
            have hsX2 : streamOK ((argsString args).toList ++ ')' :: r) :=
              print_args_pulls args hargs r hr
            obtain ⟨ta, ra, pa1, hsa1⟩ := streamOK_pull hsX2
            obtain ⟨tb, rb, pa2, _⟩ := streamOK_pull hsa1
            have pullLP : nextToken ('(' :: ((argsString args).toList ++ ')' :: r))
                = .ok (.tLParen, (argsString args).toList ++ ')' :: r) := nextToken_lparen _
            have pullM : nextToken (m.toList ++ '(' :: ((argsString args).toList ++ ')' :: r))
                = .ok (.tIdent m, '(' :: ((argsString args).toList ++ ')' :: r)) :=
              nextToken_ident m _ hm (by simp [headNotP]; decide)
            have pullD : nextToken ('.' :: (m.toList ++ '(' ::
                ((argsString args).toList ++ ')' :: r)))
                = .ok (.tOp ".", m.toList ++ '(' :: ((argsString args).toList ++ ')' :: r)) :=
              nextToken_dot _
            have hsD : streamOK ('.' :: (m.toList ++ '(' ::
                ((argsString args).toList ++ ')' :: r))) :=
              streamOK_cons pullD (streamOK_cons pullM (streamOK_cons pullLP hsX2))
            obtain ⟨f2, hf2a, hf2b, heq⟩ := ihe l hszl hl f rbp depth
              ('.' :: (m.toList ++ '(' :: ((argsString args).toList ++ ')' :: r)))
              (by omega)
              (by omega)
              hrbp
              (bOK_head (by decide) (fun h2 => absurd h2 hne2))
              hsD
              (noLP_of_pull pullD (by decide))
            obtain ⟨g, rfl⟩ : ∃ g, f2 = g + 2 := ⟨f2 - 2, by omega⟩
            have hargs2 : parseArgsP g (advanceP ⟨.tLParen, ta, ra, none⟩) depth
                = .ok (args, ⟨t1, t2, r2, none⟩) := by
              rw [advanceP_ok pa2,
                show (⟨ta, tb, rb, none⟩ : PState)
                  = mkSt ((argsString args).toList ++ ')' :: r)
                  from (mkSt_fields pa1 pa2).symm]
              rw [iha args hsza hargs g depth r (by omega) (by omega) hr]
              rw [mkSt_fields hp1 hp2]
            refine ⟨g + 1, by simp [fuelNeed]; omega, by omega, ?_⟩
            rw [shape_methodE l m args r, heq]
            rw [mkSt_fields pullD pullM]
            rw [show g + 2 = (g + 1) + 1 from rfl]
            rw [parseLoopP_go (show rbp < lbp (.tOp ".") by
              rw [show lbp (.tOp ".") = 100 from rfl]; omega) pullLP]
            rw [ledP_method pa1]
            simp only [hargs2]
            rw [mkSt_fields hp1 hp2]
        | callE nm args =>
            simp only [rtSafe, Bool.and_eq_true] at hs
            obtain ⟨hname, hargs⟩ := hs
            simp only [nameOK, Bool.and_eq_true, Bool.not_eq_true', decide_eq_false_iff_not]
              at hname
            obtain ⟨⟨hident, hnt⟩, hnf⟩ := hname
            have hsza : argsSize args ≤ N := by simp [esize] at hesz; omega
            rw [show fuelNeed (.callE nm args) = argsFuel args + 5
              from by simp [fuelNeed]] at hfuel
            rw [show depthNeed (.callE nm args) = argsDepth args + 1
              from by simp [depthNeed]] at hdepth
            have hsX2 : streamOK ((argsString args).toList ++ ')' :: r) :=
              print_args_pulls args hargs r hr
            obtain ⟨ta, ra, pa1, hsa1⟩ := streamOK_pull hsX2
            obtain ⟨tb, rb, pa2, _⟩ := streamOK_pull hsa1
            have pullLP : nextToken ('(' :: ((argsString args).toList ++ ')' :: r))
                = .ok (.tLParen, (argsString args).toList ++ ')' :: r) := nextToken_lparen _
            have pullN : nextToken (nm.toList ++ '(' :: ((argsString args).toList ++ ')' :: r))
                = .ok (.tIdent nm, '(' :: ((argsString args).toList ++ ')' :: r)) :=
              nextToken_ident nm _ hident (by simp [headNotP]; decide)
            obtain ⟨g, rfl⟩ : ∃ g, f = g + 2 := ⟨f - 2, by omega⟩
            have hargs2 : parseArgsP g (advanceP ⟨.tLParen, ta, ra, none⟩) depth
                = .ok (args, ⟨t1, t2, r2, none⟩) := by
              rw [advanceP_ok pa2,
                show (⟨ta, tb, rb, none⟩ : PState)
                  = mkSt ((argsString args).toList ++ ')' :: r)
                  from (mkSt_fields pa1 pa2).symm]
              rw [iha args hsza hargs g depth r (by omega) (by omega) hr]
              rw [mkSt_fields hp1 hp2]
            refine ⟨g + 1, by simp [fuelNeed]; omega, by omega, ?_⟩
            rw [shape_callE nm args r]
            rw [mkSt_fields pullN pullLP]
            rw [show g + 2 = (g + 1) + 1 from rfl]
            rw [parseP_step (by simp [MaxStackDepth]; omega) pa1]
            rw [show g + 1 = g + 1 from rfl, nudP_call hnt hnf]
            simp only [hargs2]
            rw [mkSt_fields hp1 hp2]
        | unaryE op x =>
            simp only [rtSafe, Bool.and_eq_true] at hs
            obtain ⟨hop, hx⟩ := hs
            have hopOr : op = "!" ∨ op = "-" ∨ op = "~" := by
              simpa [Bool.or_eq_true, decide_eq_true_iff, or_assoc] using hop
            have hszx : esize x ≤ N := by simp [esize] at hesz; omega
            rw [show fuelNeed (.unaryE op x) = fuelNeed x + 5
              from by simp [fuelNeed]] at hfuel
            rw [show depthNeed (.unaryE op x) = depthNeed x + 2
              from by simp [depthNeed]] at hdepth
            have hdep2 : depth + (depthNeed x + 2) ≤ 256 := by
              unfold MaxStackDepth at hdepth
              exact hdepth
            obtain ⟨c, tl, hct, hok⟩ := print_head x hx
            have pullRP : nextToken (')' :: r) = .ok (.tRParen, r) := nextToken_rparen r
            have hsRP : streamOK (')' :: r) := streamOK_cons pullRP hr
            have hsX : streamOK ((astString x).toList ++ ')' :: r) :=
              print_pulls x hx _ (bOK_head (by decide) (fun _ => by decide)) hsRP
            obtain ⟨tx, rx, px1, hsx1⟩ := streamOK_pull hsX
            obtain ⟨ty, ry, px2, _⟩ := streamOK_pull hsx1
            have pullOP : nextToken (op.toList ++ ((astString x).toList ++ ')' :: r))
                = .ok (.tOp op, (astString x).toList ++ ')' :: r) := by
              rcases hopOr with h | h | h <;> subst h
              · rw [hct, show ("!" : String).toList = ['!'] from rfl]
                simp only [List.cons_append, List.nil_append]
                exact nextToken_bang c _ (headOK_ne_eq hok)
              · rw [hct, show ("-" : String).toList = ['-'] from rfl]
                simp only [List.cons_append, List.nil_append]
                exact nextToken_minus c _
              · rw [hct, show ("~" : String).toList = ['~'] from rfl]
                simp only [List.cons_append, List.nil_append]
                exact nextToken_tilde c _
            have pullLP : nextToken ('(' :: (op.toList ++ ((astString x).toList ++ ')' :: r)))
                = .ok (.tLParen, op.toList ++ ((astString x).toList ++ ')' :: r)) :=
              nextToken_lparen _
            obtain ⟨g, rfl⟩ : ∃ g, f = g + 5 := ⟨f - 5, by omega⟩
            have hPx : parseP (g + 1) ⟨tx, ty, ry, none⟩ 60 (depth + 2)
                = .ok (x, ⟨.tRParen, t1, r1, none⟩) := by
              rw [show (⟨tx, ty, ry, none⟩ : PState)
                  = mkSt ((astString x).toList ++ ')' :: r) from (mkSt_fields px1 px2).symm]
              rw [ihP x hszx hx (g + 1) 60 (depth + 2) (')' :: r)
                (by omega) (by omega) (by omega)
                (bOK_head (by decide) (fun _ => by decide))
                hsRP
                (noLP_of_pull pullRP (by decide))
                (stopsAt_of_pull pullRP (by decide))]
              rw [mkSt_fields pullRP hp1]
            have hInner : parseP (g + 3) ⟨.tOp op, tx, rx, none⟩ 0 (depth + 1)
                = .ok (.unaryE op x, ⟨.tRParen, t1, r1, none⟩) := by
              rw [show g + 3 = (g + 2) + 1 from rfl]
              rw [parseP_step (by simp [MaxStackDepth]; omega) px2]
              rw [show g + 2 = (g + 1) + 1 from rfl]
              rw [nudP_prefixOp hopOr]
              simp only [hPx]
              rw [show g + 2 = (g + 1) + 1 from rfl]
              rw [parseLoopP_stop (show ¬ 0 < lbp (Tok.tRParen) from by decide)]
            refine ⟨g + 4, by simp [fuelNeed]; omega, by omega, ?_⟩
            rw [shape_unaryE op x r]
            rw [mkSt_fields pullLP pullOP]
            rw [show g + 5 = (g + 4) + 1 from rfl]
            rw [parseP_step (by simp [MaxStackDepth]; omega) px1]
            rw [show g + 4 = (g + 3) + 1 from rfl]
            rw [nudP_lparen]
            simp only [hInner]
            rw [advanceP_ok hp2]
            rw [mkSt_fields hp1 hp2]
        | binE l op x =>
            simp only [rtSafe, Bool.and_eq_true] at hs
            obtain ⟨⟨hl, hop⟩, hx⟩ := hs
            have hszl : esize l ≤ N := by
              have := esize_pos l
              have := esize_pos x
              simp [esize] at hesz
              omega
            have hszx : esize x ≤ N := by
              have := esize_pos l
              have := esize_pos x
              simp [esize] at hesz
              omega
            rw [show fuelNeed (.binE l op x) = fuelNeed l + fuelNeed x + 7
              from by simp [fuelNeed]] at hfuel
            rw [show depthNeed (.binE l op x) = max (depthNeed l) (depthNeed x + 1) + 1
              from by simp [depthNeed]] at hdepth
            obtain ⟨hlb10, hlb50, _, _, _⟩ := lbp_opOK hop
            have pullRP : nextToken (')' :: r) = .ok (.tRParen, r) := nextToken_rparen r
            have hsRP : streamOK (')' :: r) := streamOK_cons pullRP hr
            have hsB : streamOK ((astString x).toList ++ ')' :: r) :=
              print_pulls x hx _ (bOK_head (by decide) (fun _ => by decide)) hsRP
            obtain ⟨tx, rx, px1, hsx1⟩ := streamOK_pull hsB
            obtain ⟨ty, ry, px2, _⟩ := streamOK_pull hsx1
            have pullOPb : nextToken (op.toList ++ ' ' :: ((astString x).toList ++ ')' :: r))
                = .ok (.tOp op, ' ' :: ((astString x).toList ++ ')' :: r)) :=
              nextToken_binop op hop _
            have pullSpB : nextToken (' ' :: ((astString x).toList ++ ')' :: r))
                = .ok (tx, rx) := by rw [nextToken_space]; exact px1
            have hsOp : streamOK (op.toList ++ ' ' :: ((astString x).toList ++ ')' :: r)) :=
              streamOK_cons pullOPb (streamOK_space hsB)
            have pullSpOp : nextToken (' ' :: (op.toList ++ ' ' ::
                ((astString x).toList ++ ')' :: r)))
                = .ok (.tOp op, ' ' :: ((astString x).toList ++ ')' :: r)) := by
              rw [nextToken_space]; exact pullOPb
            have hsCont : streamOK (' ' :: (op.toList ++ ' ' ::
                ((astString x).toList ++ ')' :: r))) := streamOK_space hsOp
            have hsAC : streamOK ((astString l).toList ++ ' ' :: (op.toList ++ ' ' ::
                ((astString x).toList ++ ')' :: r))) :=
              print_pulls l hl _ (bOK_head (by decide) (fun _ => by decide)) hsCont
            obtain ⟨tA, rA, pA1, hsA1⟩ := streamOK_pull hsAC
            obtain ⟨tA2, rA2, pA2, _⟩ := streamOK_pull hsA1
            have pullLPb : nextToken ('(' :: ((astString l).toList ++ ' ' :: (op.toList ++
                ' ' :: ((astString x).toList ++ ')' :: r))))
                = .ok (.tLParen, (astString l).toList ++ ' ' :: (op.toList ++ ' ' ::
                  ((astString x).toList ++ ')' :: r))) := nextToken_lparen _
            obtain ⟨g, rfl⟩ : ∃ g, f = g + 7 := ⟨f - 7, by omega⟩
            have hInner : parseP (g + 5) (mkSt ((astString l).toList ++ ' ' :: (op.toList ++
                ' ' :: ((astString x).toList ++ ')' :: r)))) 0 (depth + 1)
                = .ok (.binE l op x, ⟨.tRParen, t1, r1, none⟩) := by
              obtain ⟨f2, hf2a, hf2b, heq⟩ := ihe l hszl hl (g + 5) 0 (depth + 1)
                (' ' :: (op.toList ++ ' ' :: ((astString x).toList ++ ')' :: r)))
                (by omega) (by omega) (by omega)
                (bOK_head (by decide) (fun _ => by decide))
                hsCont
                (noLP_of_pull pullSpOp (by simp))
              obtain ⟨g2, rfl⟩ : ∃ g2, f2 = g2 + 2 := ⟨f2 - 2, by omega⟩
              have hPx : parseP g2 ⟨tx, ty, ry, none⟩ (lbp (.tOp op)) (depth + 2)
                  = .ok (x, ⟨.tRParen, t1, r1, none⟩) := by
                rw [show (⟨tx, ty, ry, none⟩ : PState)
                    = mkSt ((astString x).toList ++ ')' :: r) from (mkSt_fields px1 px2).symm]
                rw [ihP x hszx hx g2 (lbp (.tOp op)) (depth + 2) (')' :: r)
                  (by omega) (by omega) (by omega)
                  (bOK_head (by decide) (fun _ => by decide))
                  hsRP
                  (noLP_of_pull pullRP (by decide))
                  (stopsAt_of_pull pullRP (by rw [show lbp .tRParen = 0 from rfl]; omega))]
                rw [mkSt_fields pullRP hp1]
              rw [heq]
              rw [mkSt_space pullOPb]
              rw [mkSt_fields pullOPb pullSpB]
              rw [show g2 + 2 = (g2 + 1) + 1 from rfl]
              rw [parseLoopP_go (show 0 < lbp (.tOp op) by omega) px2]
              rw [ledP_binop hop]
              simp only [hPx]
              rw [parseLoopP_stop (show ¬ 0 < lbp (Tok.tRParen) from by decide)]
            refine ⟨g + 6, by simp [fuelNeed]; omega, by omega, ?_⟩
            rw [shape_binE l op x r]
            rw [mkSt_fields pullLPb pA1]
            rw [show g + 7 = (g + 6) + 1 from rfl]
            rw [parseP_step (by omega) pA2]
            rw [show g + 6 = (g + 5) + 1 from rfl]
            rw [nudP_lparen]
            rw [show (⟨tA, tA2, rA2, none⟩ : PState)
                = mkSt ((astString l).toList ++ ' ' :: (op.toList ++ ' ' ::
                  ((astString x).toList ++ ')' :: r))) from (mkSt_fields pA1 pA2).symm]
            simp only [hInner]
            rw [advanceP_ok hp2]
            rw [mkSt_fields hp1 hp2]
        | ternE c t e =>
            simp only [rtSafe, Bool.and_eq_true] at hs
            obtain ⟨⟨hc, ht⟩, he2⟩ := hs
            have hszc : esize c ≤ N := by
              have := esize_pos c
              have := esize_pos t
              have := esize_pos e
              simp [esize] at hesz
              omega
            have hszt : esize t ≤ N := by
              have := esize_pos c
              have := esize_pos t
              have := esize_pos e
              simp [esize] at hesz
              omega
            have hsze : esize e ≤ N := by
              have := esize_pos c
              have := esize_pos t
              have := esize_pos e
              simp [esize] at hesz
              omega
            rw [show fuelNeed (.ternE c t e) = fuelNeed c + fuelNeed t + fuelNeed e + 9
              from by simp [fuelNeed]] at hfuel
            rw [show depthNeed (.ternE c t e)
                = max (depthNeed c) (max (depthNeed t) (depthNeed e) + 1) + 1
              from by simp [depthNeed]] at hdepth
            have pullRP : nextToken (')' :: r) = .ok (.tRParen, r) := nextToken_rparen r
            have hsRP : streamOK (')' :: r) := streamOK_cons pullRP hr
            have hsW : streamOK ((astString e).toList ++ ')' :: r) :=
              print_pulls e he2 _ (bOK_head (by decide) (fun _ => by decide)) hsRP
            obtain ⟨tw, wr, pw1, hsw1⟩ := streamOK_pull hsW
            obtain ⟨tw2, wr2, pw2, _⟩ := streamOK_pull hsw1
            have pullSpW : nextToken (' ' :: ((astString e).toList ++ ')' :: r))
                = .ok (tw, wr) := by rw [nextToken_space]; exact pw1
            have pullColon : nextToken (':' :: ' ' :: ((astString e).toList ++ ')' :: r))
                = .ok (.tOp ":", ' ' :: ((astString e).toList ++ ')' :: r)) :=
              nextToken_colon _
            have pullZ : nextToken (' ' :: ':' :: ' ' :: ((astString e).toList ++ ')' :: r))
                = .ok (.tOp ":", ' ' :: ((astString e).toList ++ ')' :: r)) := by
              rw [nextToken_space]; exact pullColon
            have hsZ : streamOK (' ' :: ':' :: ' ' :: ((astString e).toList ++ ')' :: r)) :=
              streamOK_space (streamOK_cons pullColon (streamOK_space hsW))
            have hsY : streamOK ((astString t).toList ++ ' ' :: ':' :: ' ' ::
                ((astString e).toList ++ ')' :: r)) :=
              print_pulls t ht _ (bOK_head (by decide) (fun _ => by decide)) hsZ
            obtain ⟨tY, rY, pY1, hsY1⟩ := streamOK_pull hsY
            obtain ⟨tY2, rY2, pY2, _⟩ := streamOK_pull hsY1
            have pullSpY : nextToken (' ' :: ((astString t).toList ++ ' ' :: ':' :: ' ' ::
                ((astString e).toList ++ ')' :: r))) = .ok (tY, rY) := by
              rw [nextToken_space]; exact pY1
            have pullQ : nextToken ('?' :: ' ' :: ((astString t).toList ++ ' ' :: ':' ::
                ' ' :: ((astString e).toList ++ ')' :: r)))
                = .ok (.tOp "?", ' ' :: ((astString t).toList ++ ' ' :: ':' :: ' ' ::
                  ((astString e).toList ++ ')' :: r))) := nextToken_qmark _
            have pullB : nextToken (' ' :: '?' :: ' ' :: ((astString t).toList ++ ' ' ::
                ':' :: ' ' :: ((astString e).toList ++ ')' :: r)))
                = .ok (.tOp "?", ' ' :: ((astString t).toList ++ ' ' :: ':' :: ' ' ::
                  ((astString e).toList ++ ')' :: r))) := by
              rw [nextToken_space]; exact pullQ
            have hsB : streamOK (' ' :: '?' :: ' ' :: ((astString t).toList ++ ' ' :: ':' ::
                ' ' :: ((astString e).toList ++ ')' :: r))) :=
              streamOK_space (streamOK_cons pullQ (streamOK_space hsY))
            have hsAC : streamOK ((astString c).toList ++ ' ' :: '?' :: ' ' ::
                ((astString t).toList ++ ' ' :: ':' :: ' ' ::
                ((astString e).toList ++ ')' :: r))) :=
              print_pulls c hc _ (bOK_head (by decide) (fun _ => by decide)) hsB
            obtain ⟨tA, rA, pA1, hsA1⟩ := streamOK_pull hsAC
            obtain ⟨tA2, rA2, pA2, _⟩ := streamOK_pull hsA1
            have pullLPt : nextToken ('(' :: ((astString c).toList ++ ' ' :: '?' :: ' ' ::
                ((astString t).toList ++ ' ' :: ':' :: ' ' ::
                ((astString e).toList ++ ')' :: r))))
                = .ok (.tLParen, (astString c).toList ++ ' ' :: '?' :: ' ' ::
                  ((astString t).toList ++ ' ' :: ':' :: ' ' ::
                  ((astString e).toList ++ ')' :: r))) := nextToken_lparen _
            obtain ⟨g, rfl⟩ : ∃ g, f = g + 9 := ⟨f - 9, by omega⟩
            have hInner : parseP (g + 7) (mkSt ((astString c).toList ++ ' ' :: '?' :: ' ' ::
                ((astString t).toList ++ ' ' :: ':' :: ' ' ::
                ((astString e).toList ++ ')' :: r)))) 0 (depth + 1)
                = .ok (.ternE c t e, ⟨.tRParen, t1, r1, none⟩) := by
              obtain ⟨f2, hf2a, hf2b, heq⟩ := ihe c hszc hc (g + 7) 0 (depth + 1)
                (' ' :: '?' :: ' ' :: ((astString t).toList ++ ' ' :: ':' :: ' ' ::
                  ((astString e).toList ++ ')' :: r)))
                (by omega) (by omega) (by omega)
                (bOK_head (by decide) (fun _ => by decide))
                hsB
                (noLP_of_pull pullB (by simp))
              obtain ⟨g2, rfl⟩ : ∃ g2, f2 = g2 + 2 := ⟨f2 - 2, by omega⟩
              have hPt : parseP g2 ⟨tY, tY2, rY2, none⟩ 0 (depth + 2)
                  = .ok (t, ⟨.tOp ":", tw, wr, none⟩) := by
                rw [show (⟨tY, tY2, rY2, none⟩ : PState)
                    = mkSt ((astString t).toList ++ ' ' :: ':' :: ' ' ::
                      ((astString e).toList ++ ')' :: r)) from (mkSt_fields pY1 pY2).symm]
                rw [ihP t hszt ht g2 0 (depth + 2)
                  (' ' :: ':' :: ' ' :: ((astString e).toList ++ ')' :: r))
                  (by omega) (by omega) (by omega)
                  (bOK_head (by decide) (fun _ => by decide))
                  hsZ
                  (noLP_of_pull pullZ (by simp))
                  (stopsAt_of_pull pullZ (by decide))]
                rw [mkSt_space pullColon, mkSt_fields pullColon pullSpW]
              have hPe : parseP g2 ⟨tw, tw2, wr2, none⟩ (lbp (.tOp "?") - 1) (depth + 2)
                  = .ok (e, ⟨.tRParen, t1, r1, none⟩) := by
                rw [show (⟨tw, tw2, wr2, none⟩ : PState)
                    = mkSt ((astString e).toList ++ ')' :: r) from (mkSt_fields pw1 pw2).symm]
                rw [ihP e hsze he2 g2 (lbp (.tOp "?") - 1) (depth + 2) (')' :: r)
                  (by omega) (by omega)
                  (by rw [show lbp (.tOp "?") = 5 from rfl]; omega)
                  (bOK_head (by decide) (fun _ => by decide))
                  hsRP
                  (noLP_of_pull pullRP (by decide))
                  (stopsAt_of_pull pullRP (by rw [show lbp .tRParen = 0 from rfl]; omega))]
                rw [mkSt_fields pullRP hp1]
              rw [heq]
              rw [mkSt_space pullQ]
              rw [mkSt_fields pullQ pullSpY]
              rw [show g2 + 2 = (g2 + 1) + 1 from rfl]
              rw [parseLoopP_go (show 0 < lbp (.tOp "?") by decide) pY2]
              rw [ledP_qmark]
              simp only [hPt, if_true]
              rw [advanceP_ok pw2]
              simp only [hPe]
              rw [parseLoopP_stop (show ¬ 0 < lbp (Tok.tRParen) from by decide)]
            refine ⟨g + 8, by simp [fuelNeed]; omega, by omega, ?_⟩
            rw [shape_ternE c t e r]
            rw [mkSt_fields pullLPt pA1]
            rw [show g + 9 = (g + 8) + 1 from rfl]
            rw [parseP_step (by omega) pA2]
            rw [show g + 8 = (g + 7) + 1 from rfl]
            rw [nudP_lparen]
            rw [show (⟨tA, tA2, rA2, none⟩ : PState)
                = mkSt ((astString c).toList ++ ' ' :: '?' :: ' ' ::
                  ((astString t).toList ++ ' ' :: ':' :: ' ' ::
                  ((astString e).toList ++ ')' :: r))) from (mkSt_fields pA1 pA2).symm]
            simp only [hInner]
            rw [advanceP_ok hp2]
            rw [mkSt_fields hp1 hp2]
      · intro args hasz hs f depth r hfuel hdepth hr
        obtain ⟨t1, r1, hp1, hs1⟩ := streamOK_pull hr
        obtain ⟨t2, r2, hp2, hs2⟩ := streamOK_pull hs1
        cases args with
        | nil =>
            have pullRP : nextToken (')' :: r) = .ok (.tRParen, r) := nextToken_rparen r
            obtain ⟨g, rfl⟩ : ∃ g, f = g + 1 := ⟨f - 1, by simp [argsFuel] at hfuel; omega⟩
            rw [show (argsString ([] : List Expr)).toList ++ ')' :: r = ')' :: r from rfl]
            rw [mkSt_fields pullRP hp1, parseArgsP_rparen, advanceP_ok hp2,
              mkSt_fields hp1 hp2]
        | cons a rest =>
            simp only [rtSafeList, Bool.and_eq_true] at hs
            obtain ⟨ha, hrest⟩ := hs
            cases rest with
            | nil =>
                have hsza : esize a ≤ N := by simp [argsSize] at hasz; omega
                rw [show argsFuel [a] = fuelNeed a + 7 from by simp [argsFuel]] at hfuel
                rw [show argsDepth [a] = max (depthNeed a) 0 from by simp [argsDepth]]
                  at hdepth
                have pullRP : nextToken (')' :: r) = .ok (.tRParen, r) := nextToken_rparen r
                have hsRP : streamOK (')' :: r) := streamOK_cons pullRP hr
                have hsS : streamOK ((astString a).toList ++ ')' :: r) :=
                  print_pulls a ha _ (bOK_head (by decide) (fun _ => by decide)) hsRP
                obtain ⟨ta, ra, pa1, hsa1⟩ := streamOK_pull hsS
                obtain ⟨tb, rb, pa2, _⟩ := streamOK_pull hsa1
                obtain ⟨tt, mm, hh, hne1, hne2⟩ := print_pull1 a ha (')' :: r)
                have hta : tt = ta := by
                  rw [hh] at pa1
                  injection pa1 with hx
                  exact congrArg Prod.fst hx
                subst hta
                obtain ⟨g, rfl⟩ : ∃ g, f = g + 2 := ⟨f - 2, by omega⟩
                have hPa : parseP (g + 1) ⟨tt, tb, rb, none⟩ 0 (depth + 1)
                    = .ok (a, ⟨.tRParen, t1, r1, none⟩) := by
                  rw [show (⟨tt, tb, rb, none⟩ : PState)
                      = mkSt ((astString a).toList ++ ')' :: r)
                      from (mkSt_fields pa1 pa2).symm]
                  rw [ihP a hsza ha (g + 1) 0 (depth + 1) (')' :: r)
                    (by omega) (by omega) (by omega)
                    (bOK_head (by decide) (fun _ => by decide))
                    hsRP
                    (noLP_of_pull pullRP (by decide))
                    (stopsAt_of_pull pullRP (by decide))]
                  rw [mkSt_fields pullRP hp1]
                rw [shape_args_one a (')' :: r)]
                rw [mkSt_fields pa1 pa2]
                rw [show g + 2 = (g + 1) + 1 from rfl]
                rw [parseArgsP_default
                  (show ¬ (⟨tt, tb, rb, none⟩ : PState).curr = .tRParen from hne1)
                  (show ¬ (⟨tt, tb, rb, none⟩ : PState).curr = .tEOF from hne2)]
                simp only [hPa]
                rw [if_neg (show ¬ (⟨.tRParen, t1, r1, none⟩ : PState).curr = .tComma
                  by simp)]
                rw [parseArgsP_rparen, advanceP_ok hp2, mkSt_fields hp1 hp2]
            | cons b rest2 =>
                have hsza : esize a ≤ N := by
                  have := esize_pos b
                  have := argsSize_pos rest2
                  simp [argsSize] at hasz
                  omega
                have hszr : argsSize (b :: rest2) ≤ N := by
                  have := esize_pos a
                  simp [argsSize] at hasz ⊢
                  omega
                rw [show argsFuel (a :: b :: rest2) = fuelNeed a + argsFuel (b :: rest2) + 5
                  from by simp [argsFuel]] at hfuel
                rw [show argsDepth (a :: b :: rest2)
                    = max (depthNeed a) (argsDepth (b :: rest2)) from by simp [argsDepth]]
                  at hdepth
                have hsX : streamOK ((argsString (b :: rest2)).toList ++ ')' :: r) :=
                  print_args_pulls (b :: rest2) hrest r hr
                obtain ⟨tX, rX, pX1, hsX1⟩ := streamOK_pull hsX
                obtain ⟨tX2, rX2, pX2, _⟩ := streamOK_pull hsX1
                have pullComma : nextToken (',' :: ' ' ::
                    ((argsString (b :: rest2)).toList ++ ')' :: r))
                    = .ok (.tComma, ' ' :: ((argsString (b :: rest2)).toList ++ ')' :: r)) :=
                  nextToken_comma _
                have pullSpX : nextToken (' ' :: ((argsString (b :: rest2)).toList ++ ')' :: r))
                    = .ok (tX, rX) := by rw [nextToken_space]; exact pX1
                have hsCont : streamOK (',' :: ' ' ::
                    ((argsString (b :: rest2)).toList ++ ')' :: r)) :=
                  streamOK_cons pullComma (streamOK_space hsX)
                have hsS : streamOK ((astString a).toList ++ ',' :: ' ' ::
                    ((argsString (b :: rest2)).toList ++ ')' :: r)) :=
                  print_pulls a ha _ (bOK_head (by decide) (fun _ => by decide)) hsCont
                obtain ⟨ta, ra, pa1, hsa1⟩ := streamOK_pull hsS
                obtain ⟨tb, rb, pa2, _⟩ := streamOK_pull hsa1
                obtain ⟨tt, mm, hh, hne1, hne2⟩ := print_pull1 a ha
                  (',' :: ' ' :: ((argsString (b :: rest2)).toList ++ ')' :: r))
                have hta : tt = ta := by
                  rw [hh] at pa1
                  injection pa1 with hx
                  exact congrArg Prod.fst hx
                subst hta
                obtain ⟨g, rfl⟩ : ∃ g, f = g + 2 := ⟨f - 2, by omega⟩
                have hPa : parseP (g + 1) ⟨tt, tb, rb, none⟩ 0 (depth + 1)
                    = .ok (a, ⟨.tComma, tX, rX, none⟩) := by
                  rw [show (⟨tt, tb, rb, none⟩ : PState)
                      = mkSt ((astString a).toList ++ ',' :: ' ' ::
                        ((argsString (b :: rest2)).toList ++ ')' :: r))
                      from (mkSt_fields pa1 pa2).symm]
                  rw [ihP a hsza ha (g + 1) 0 (depth + 1)
                    (',' :: ' ' :: ((argsString (b :: rest2)).toList ++ ')' :: r))
                    (by omega) (by omega) (by omega)
                    (bOK_head (by decide) (fun _ => by decide))
                    hsCont
                    (noLP_of_pull pullComma (by decide))
                    (stopsAt_of_pull pullComma (by decide))]
                  rw [mkSt_fields pullComma pullSpX]
                have hRest : parseArgsP (g + 1) ⟨tX, tX2, rX2, none⟩ depth
                    = .ok (b :: rest2, ⟨t1, t2, r2, none⟩) := by
                  rw [show (⟨tX, tX2, rX2, none⟩ : PState)
                      = mkSt ((argsString (b :: rest2)).toList ++ ')' :: r)
                      from (mkSt_fields pX1 pX2).symm]
                  rw [iha (b :: rest2) hszr hrest (g + 1) depth r (by omega) (by omega) hr]
                  rw [mkSt_fields hp1 hp2]
                rw [shape_args_cons a b rest2 (')' :: r)]
                rw [mkSt_fields pa1 pa2]
                rw [show g + 2 = (g + 1) + 1 from rfl]
                rw [parseArgsP_default
                  (show ¬ (⟨tt, tb, rb, none⟩ : PState).curr = .tRParen from hne1)
                  (show ¬ (⟨tt, tb, rb, none⟩ : PState).curr = .tEOF from hne2)]
                simp only [hPa, if_true]
                rw [advanceP_ok pX2]
                simp only [hRest]
                rw [mkSt_fields hp1 hp2]

theorem fuel_le_size_aux : ∀ n,
    (∀ e, esize e ≤ n → fuelNeed e + 5 ≤ 9 * esize e) ∧
    (∀ args, argsSize args ≤ n → argsFuel args + 5 ≤ 9 * argsSize args) := by
  intro n
  induction n with
  | zero =>
      exact ⟨fun e he => absurd he (by have := esize_pos e; omega),
        fun args ha => absurd ha (by have := argsSize_pos args; omega)⟩
  | succ N ih =>
      obtain ⟨ihe, iha⟩ := ih
      constructor
      · intro e hesz
        cases e with
        | literalE v => simp [fuelNeed, esize]
        | variableE nm => simp [fuelNeed, esize]
        | memberE l k isIdx =>
            have h1 := ihe l (by have := esize_pos l; simp [esize] at hesz; omega)
            simp [fuelNeed, esize] at h1 ⊢
            omega
        | indexE l i =>
            have hp1 := esize_pos l
            have hp2 := esize_pos i
            have h1 := ihe l (by simp [esize] at hesz; omega)
            have h2 := ihe i (by simp [esize] at hesz; omega)
            simp [fuelNeed, esize] at h1 h2 ⊢
            omega
        | methodE l m args =>
            have hp1 := esize_pos l
            have hp2 := argsSize_pos args
            have h1 := ihe l (by simp [esize] at hesz; omega)
            have h2 := iha args (by simp [esize] at hesz; omega)
            simp [fuelNeed, esize] at h1 h2 ⊢
            omega
        | callE nm args =>
            have h2 := iha args (by simp [esize] at hesz; omega)
            simp [fuelNeed, esize] at h2 ⊢
            omega
        | unaryE op x =>
            have h1 := ihe x (by simp [esize] at hesz; omega)
            simp [fuelNeed, esize] at h1 ⊢
            omega
        | binE l op x =>
            have hp1 := esize_pos l
            have hp2 := esize_pos x
            have h1 := ihe l (by simp [esize] at hesz; omega)
            have h2 := ihe x (by simp [esize] at hesz; omega)
            simp [fuelNeed, esize] at h1 h2 ⊢
            omega
        | ternE c t e =>
            have hp1 := esize_pos c
            have hp2 := esize_pos t
            have hp3 := esize_pos e
            have h1 := ihe c (by simp [esize] at hesz; omega)
            have h2 := ihe t (by simp [esize] at hesz; omega)
            have h3 := ihe e (by simp [esize] at hesz; omega)
            simp [fuelNeed, esize] at h1 h2 h3 ⊢
            omega
      · intro args hasz
        cases args with
        | nil => simp [argsFuel, argsSize]
        | cons a rest =>
            have hp1 := esize_pos a
            have hp2 := argsSize_pos rest
            have h1 := ihe a (by simp [argsSize] at hasz; omega)
            have h2 := iha rest (by simp [argsSize] at hasz; omega)
            simp [argsFuel, argsSize] at h1 h2 ⊢
            omega

theorem fuel_le_size (e : Expr) : fuelNeed e + 5 ≤ 9 * esize e :=
  (fuel_le_size_aux (esize e)).1 e le_rfl

theorem strLen_toList (s : String) : s.toList.length = s.length := rfl

theorem size_le_len_aux : ∀ n,
    (∀ e, esize e ≤ n → rtSafe e = true → esize e ≤ (astString e).toList.length) ∧
    (∀ args, argsSize args ≤ n → rtSafeList args = true →
      argsSize args ≤ (argsString args).toList.length + 1) := by
  intro n
  induction n with
  | zero =>
      exact ⟨fun e he _ => absurd he (by have := esize_pos e; omega),
        fun args ha _ => absurd ha (by have := argsSize_pos args; omega)⟩
  | succ N ih =>
      obtain ⟨ihe, iha⟩ := ih
      constructor
      · intro e hesz hs
        have hlen := print_head e hs
        obtain ⟨c0, tl0, hct0, _⟩ := hlen
        have hpos : 1 ≤ (astString e).toList.length := by rw [hct0]; simp
        cases e with
        | literalE v => simpa [esize] using hpos
        | variableE nm => simpa [esize] using hpos
        | memberE l k isIdx =>
            simp only [rtSafe, Bool.and_eq_true] at hs
            obtain ⟨⟨⟨hidx, hl⟩, hk⟩, _⟩ := hs
            have hfalse : isIdx = false := by
              cases isIdx
              · rfl
              · exact absurd hidx (by decide)
            subst hfalse
            have h1 := ihe l (by have := esize_pos l; simp [esize] at hesz; omega) hl
            have hsh := congrArg List.length (shape_memberE l k [])
            rw [List.append_nil] at hsh
            simp [List.length_append] at hsh
            simp only [strLen_toList] at h1
            simp [esize, strLen_toList]
            omega
        | indexE l i =>
            simp only [rtSafe, Bool.and_eq_true] at hs
            have hp1 := esize_pos l
            have hp2 := esize_pos i
            have h1 := ihe l (by simp [esize] at hesz; omega) hs.1
            have h2 := ihe i (by simp [esize] at hesz; omega) hs.2
            have hsh := congrArg List.length (shape_indexE l i [])
            rw [List.append_nil] at hsh
            simp [List.length_append] at hsh
            simp only [strLen_toList] at h1 h2
            simp [esize, strLen_toList]
            omega
        | methodE l m args =>
            simp only [rtSafe, Bool.and_eq_true] at hs
            have hp1 := esize_pos l
            have hp2 := argsSize_pos args
            have h1 := ihe l (by simp [esize] at hesz; omega) hs.1.1.1
            have h2 := iha args (by simp [esize] at hesz; omega) hs.2
            have hsh := congrArg List.length (shape_methodE l m args [])
            rw [List.append_nil] at hsh
            simp [List.length_append] at hsh
            simp only [strLen_toList] at h1 h2
            simp [esize, strLen_toList]
            omega
        | callE nm args =>
            simp only [rtSafe, Bool.and_eq_true] at hs
            have h2 := iha args (by simp [esize] at hesz; omega) hs.2
            have hsh := congrArg List.length (shape_callE nm args [])
            rw [List.append_nil] at hsh
            simp [List.length_append] at hsh
            simp only [strLen_toList] at h2
            simp [esize, strLen_toList]
            omega
        | unaryE op x =>
            simp only [rtSafe, Bool.and_eq_true] at hs
            have h1 := ihe x (by simp [esize] at hesz; omega) hs.2
            have hsh := congrArg List.length (shape_unaryE op x [])
            rw [List.append_nil] at hsh
            simp [List.length_append] at hsh
            simp only [strLen_toList] at h1
            simp [esize, strLen_toList]
            omega
        | binE l op x =>
            simp only [rtSafe, Bool.and_eq_true] at hs
            have hp1 := esize_pos l
            have hp2 := esize_pos x
            have h1 := ihe l (by simp [esize] at hesz; omega) hs.1.1
            have h2 := ihe x (by simp [esize] at hesz; omega) hs.2
            have hsh := congrArg List.length (shape_binE l op x [])
            rw [List.append_nil] at hsh
            simp [List.length_append] at hsh
            simp only [strLen_toList] at h1 h2
            simp [esize, strLen_toList]
            omega
        | ternE c t e =>
            simp only [rtSafe, Bool.and_eq_true] at hs
            have hp1 := esize_pos c
            have hp2 := esize_pos t
            have hp3 := esize_pos e
            have h1 := ihe c (by simp [esize] at hesz; omega) hs.1.1
            have h2 := ihe t (by simp [esize] at hesz; omega) hs.1.2
            have h3 := ihe e (by simp [esize] at hesz; omega) hs.2
            have hsh := congrArg List.length (shape_ternE c t e [])
            rw [List.append_nil] at hsh
            simp [List.length_append] at hsh
            simp only [strLen_toList] at h1 h2 h3
            simp [esize, strLen_toList]
            omega
      · intro args hasz hs
        cases args with
        | nil => simp [argsSize]
        | cons a rest =>
            simp only [rtSafeList, Bool.and_eq_true] at hs
            cases rest with
            | nil =>
                have h1 := ihe a (by have := esize_pos a; simp [argsSize] at hasz; omega)
                  hs.1
                have hsh : (argsString [a]).toList.length = (astString a).toList.length := by
                  rw [show argsString [a] = astString a from rfl]
                simp only [strLen_toList] at h1 hsh
                simp [argsSize, strLen_toList]
                omega
            | cons b rest2 =>
                have hp1 := esize_pos a
                have hp2 := esize_pos b
                have hp3 := argsSize_pos rest2
                have h1 := ihe a (by simp [argsSize] at hasz; omega) hs.1
                have h2 := iha (b :: rest2) (by simp [argsSize] at hasz ⊢; omega) hs.2
                have hsh := congrArg List.length (shape_args_cons a b rest2 [])
                rw [List.append_nil] at hsh
                simp [List.length_append] at hsh
                simp only [strLen_toList] at h1 h2
                simp [argsSize, strLen_toList] at h2 ⊢
                omega

theorem size_le_len (e : Expr) (hs : rtSafe e = true) :
    esize e ≤ (astString e).toList.length :=
  (size_le_len_aux (esize e)).1 e le_rfl hs

theorem nextToken_nil : nextToken [] = .ok (.tEOF, []) := rfl

theorem bOK_nil (e : Expr) : bOK e [] = true := by
  rw [bOK]
  split_ifs <;> rfl

/-- Print-then-reparse is the identity on the print-safe fragment whose
parser depth stays within the cap. -/
theorem print_parse_roundtrip (e : Expr) (hs : rtSafe e = true)
    (hd : depthNeed e ≤ MaxStackDepth) : parseExprStr (astString e) = .ok e := by
  have h1 := fuel_le_size e
  have h2 := size_le_len e hs
  simp only [strLen_toList] at h2
  have hfuel : fuelNeed e < parseFuel (astString e) := by
    rw [parseFuel]
    omega
  have heq := P_of_N
    ((parse_print_master (esize e)).1 e le_rfl hs (parseFuel (astString e)) 0 0 []
      (le_of_lt hfuel) (by omega) (by omega) (bOK_nil e) streamOK_nil
      (noLP_of_pull nextToken_nil (by decide)))
    hfuel streamOK_nil (stopsAt_of_pull nextToken_nil (by decide))
  rw [parseExprStr]
  rw [show initState (astString e) = mkSt ((astString e).toList ++ []) from by
    rw [List.append_nil]
    rfl]
  rw [heq]
  rfl

/-- The counterexample to claim C4 as stated: `1.0` is a syntactically
valid expression string, but its round trip does not evaluate identically.
`ParseExpr` reads it as the float literal 1.0 (the exact rational 10/10),
whose canonical `String()` form is `fmt.Sprint(1.0) = "1"`; re-parsing that
text yields the integer literal 1, and the two literals evaluate to
different values (`float64(1)` versus `int64(1)`) on every data context. -/
theorem c4_counterexample :
    parseExprStr "1.0" = .ok (.literalE (.vfloat ⟨10, 10⟩)) ∧
    astString (.literalE (.vfloat ⟨10, 10⟩)) = "1" ∧
    parseExprStr "1" = .ok (.literalE (.vint 1)) ∧
    (∀ (crm : ReflectOracle) (fns : List (String × CustomFunc)) (data : Value),
      evalExpr crm { data := data, fns := fns } (.literalE (.vfloat ⟨10, 10⟩))
          = .ok (.vfloat ⟨10, 10⟩) ∧
      evalExpr crm { data := data, fns := fns } (.literalE (.vint 1))
          = .ok (.vint 1)) ∧
    ¬ (Value.vfloat ⟨10, 10⟩ = .vint 1) :=
  ⟨rfl, rfl, rfl, fun _ _ _ => ⟨rfl, rfl⟩, fun h => Value.noConfusion h⟩

/-- Claim C4 (amended): the round trip fails as stated — `c4_counterexample`
exhibits a valid input whose re-parsed AST evaluates differently, because a
float literal prints in `%v` form and can re-parse as an integer.  The
amended round trip proved here: on the printer-safe fragment `rtSafe`
(booleans, strings, in-range non-negative integer literals, identifier
names and member keys, the printed operators — every shape the parser
itself produces from its canonical output except the float/negative-literal
cases) whose parse depth stays within the 256 cap, parsing the canonical
string form yields the identical AST, so the re-parsed expression evaluates
exactly as the original on every data context, registry and method
oracle. -/
theorem c4_roundtrip (e : Expr) (hs : rtSafe e = true)
    (hd : depthNeed e ≤ MaxStackDepth) :
    ∃ e2, parseExprStr (astString e) = .ok e2 ∧ e2 = e ∧
      ∀ (crm : ReflectOracle) (fns : List (String × CustomFunc)) (data : Value),
        evalExpr crm { data := data, fns := fns } e2
          = evalExpr crm { data := data, fns := fns } e :=
  ⟨e, print_parse_roundtrip e hs hd, rfl, fun _ _ _ => rfl⟩

/-- Witness for `c4_roundtrip`: the expression `(x + 1)` is printer-safe and
within the depth cap, and its canonical form re-parses to the same AST. -/
theorem c4_roundtrip_witness :
    rtSafe (.binE (.variableE "x") "+" (.literalE (.vint 1))) = true ∧
    depthNeed (.binE (.variableE "x") "+" (.literalE (.vint 1))) ≤ MaxStackDepth ∧
    ∃ e2, parseExprStr (astString (.binE (.variableE "x") "+" (.literalE (.vint 1))))
        = .ok e2 ∧
      e2 = .binE (.variableE "x") "+" (.literalE (.vint 1)) ∧
      ∀ (crm : ReflectOracle) (fns : List (String × CustomFunc)) (data : Value),
        evalExpr crm { data := data, fns := fns } e2
          = evalExpr crm { data := data, fns := fns }
              (.binE (.variableE "x") "+" (.literalE (.vint 1))) :=
  ⟨by decide, by decide,
    c4_roundtrip (.binE (.variableE "x") "+" (.literalE (.vint 1)))
      (by decide) (by decide)⟩


end Okra
